import Mathlib

/-!
A shallow embedding of the `lsystem` rewriting engine.

The development follows `parse.go` (rule parsing, stateful-variable detection)
and `lsystem.go` (token encoding, single-step rewriting, iteration).

Conventions of the embedding:

* A Go `string` is taken to be valid UTF-8 text and is a `List Char`; ranging
  over its runes is ranging over its characters, and a comparison of its first
  or last byte with an ASCII character is the same comparison on its first or
  last character.
* `uint8` values are natural numbers; every place where the source wraps
  (`i++`, `token--`, `uint8(j)`, `uint8(k)`) carries an explicit `% 256`.
  Go's `int` is a 64-bit two's complement integer (`wrapInt`).
* A Go map is a partial function; reading a missing key gives the zero value.
  The order in which a map is ranged over is not fixed by the language, so
  every ranged map is a list in the order of the traversal and the theorems
  quantify over all such orders.
* A run-time panic (index out of range) is the result `none`.
-/

namespace Lsystem

/-! ## Tokens and symbol ids -/

/-- A token is an opaque symbol name. -/
abbrev Token := List Char

/-- A symbol id, an unsigned byte. -/
abbrev TokenStateId := Nat

/-- Modelled from the spec: the declaration of the symbol id type is not among
the sources at hand. An id is a byte made of a base index and a stateful flag;
the side table `Params` has 128 entries and is indexed by the base index, and
`applyRulesOnce` moves to the next lower level by decrementing the id, so the
base index is the low seven bits and the flag is the top bit. -/
def NewTokenStateId (id : Nat) (hasParam : Bool) : Nat :=
  if hasParam then id % 128 + 128 else id

/-- Modelled from the spec: the stateful flag of an id (its top bit). -/
def HasParam (t : Nat) : Bool := decide (128 ≤ t)

/-- Modelled from the spec: the base index of an id (its low seven bits). -/
def TokenId (t : Nat) : Nat := t % 128

/-- Go's `int`: 64-bit two's complement wrap-around. -/
def wrapInt (x : Int) : Int := (x + 2 ^ 63) % 2 ^ 64 - 2 ^ 63

/-- The test `r >= '0' && r <= '9'`. -/
def isDigitRune (r : Char) : Bool := decide (48 ≤ r.toNat) && decide (r.toNat ≤ 57)

/-- One turn of the loop of `tryParseStatefulVariable` on the pair
`(cumulativeNumber, sb)`. -/
def scanRune (st : Int × List Char) (r : Char) : Int × List Char :=
  if isDigitRune r then (wrapInt (st.1 * 10 + ((r.toNat : Int) - 48)), st.2)
  else if st.1 = 0 then (st.1, st.2 ++ [r])
  else st

/-- From `parse.go`: `tryParseStatefulVariable`. The result is
`(variable, num, ok)`; `none` is the panic of `t[len(t)-1]` on the empty token. -/
def tryParseStatefulVariable (t : Token) : Option (Token × Nat × Bool) :=
  match t.getLast? with
  | none => none
  | some c =>
    if !isDigitRune c then some ([], 0, false)
    else
      let st := t.foldl scanRune (0, [])
      if st.1 = 0 then some ([], 0, false)
      else
        let cumulativeNumber : Int := if st.1 > 255 then 255 else st.1
        some (st.2, (cumulativeNumber % 256).toNat, true)

/-- Go's `strconv.Itoa` on a non-negative number. -/
def Itoa (k : Nat) : List Char := Nat.toDigits 10 k

/-! ## Rules -/

/-- One weighted alternative of a rule (`WeightedRule`); the weight type is left
open, weights are never computed with here. -/
structure WeightedRule (W : Type) where
  Probability : W
  Catalyst : Token
  Tokens : List Token
deriving DecidableEq, Repr

/-- Modelled from the spec: a production rule is a predecessor and its ordered
alternatives (`NewProductionRule` is not among the sources at hand). -/
structure ProductionRule (W : Type) where
  Predecessor : Token
  Weights : List (WeightedRule W)
deriving DecidableEq, Repr

/-- Modelled from the spec: an alternative over symbol ids. -/
structure ByteWeightedRule (W : Type) where
  Probability : W
  Catalyst : TokenStateId
  Tokens : List TokenStateId
deriving DecidableEq, Repr

/-- Modelled from the spec: a compiled rule. `Weights = none` is the nil slice
of the zero value, which `applyRulesOnce` tests for. -/
structure ByteProductionRule (W : Type) where
  Weights : Option (List (ByteWeightedRule W))
deriving DecidableEq, Repr

/-- A Go map from tokens. -/
abbrev TokenMap (α : Type) := Token → Option α

/-- The assignment `m[k] = v`. -/
def TokenMap.set {α : Type} (m : TokenMap α) (k : Token) (v : α) : TokenMap α :=
  fun t => if t = k then some v else m t

/-- The read `m[k]` of a map of ids: the zero value when the key is missing. -/
def TokenMap.at (m : TokenMap TokenStateId) (k : Token) : Nat := (m k).getD 0

/-- The assignment `a[i] = v` on an array seen as a function. -/
def setAt {α : Type} (a : Nat → α) (i : Nat) (v : α) : Nat → α :=
  fun n => if n = i then v else a n

/-- Modelled from the spec: `ProductionRule.EncodeTokens` re-expresses a rule
over symbol ids through the name-to-id map. -/
def ProductionRule.EncodeTokens {W : Type} (rule : ProductionRule W)
    (tokenBytes : TokenMap TokenStateId) : ByteProductionRule W :=
  { Weights := some (rule.Weights.map fun w =>
      { Probability := w.Probability
        Catalyst := tokenBytes.at w.Catalyst
        Tokens := w.Tokens.map tokenBytes.at }) }

/-! ## Buffers and lanes -/

/-- Modelled from the spec: a buffer is a backing sequence with a logical
length; capacity is not modelled. -/
structure Buffer where
  BytePairs : List TokenStateId
  Len : Nat
deriving DecidableEq, Repr

/-- Modelled from the spec: `Append` writes one id at the logical end. -/
def Buffer.Append (b : Buffer) (x : TokenStateId) : Buffer :=
  { BytePairs := b.BytePairs.take b.Len ++ [x], Len := b.Len + 1 }

/-- Modelled from the spec: `AppendSlice` writes a sequence at the logical end. -/
def Buffer.AppendSlice (b : Buffer) (xs : List TokenStateId) : Buffer :=
  { BytePairs := b.BytePairs.take b.Len ++ xs, Len := b.Len + xs.length }

/-- The slice expression `b.BytePairs[from:to]`; panics outside the storage. -/
def Buffer.slice (b : Buffer) (lo hi : Nat) : Option (List TokenStateId) :=
  if lo ≤ hi ∧ hi ≤ b.BytePairs.length then some ((b.BytePairs.take hi).drop lo) else none

/-- The logical content `b.BytePairs[:b.Len]`. -/
def Buffer.content (b : Buffer) : Option (List TokenStateId) := b.slice 0 b.Len

/-- One lane: a read buffer and a write buffer. -/
structure Lane where
  read : Buffer
  write : Buffer
deriving DecidableEq, Repr

/-- Modelled from the spec: the lane pool, one buffer pair per lane. -/
structure MemPool where
  lanes : List Lane
deriving DecidableEq, Repr

/-- The empty buffer. -/
def Buffer.empty : Buffer := { BytePairs := [], Len := 0 }

/-- Modelled from the spec: a pool of `threadCount` lanes with empty buffers. -/
def NewMemPool (threadCount : Nat) : MemPool :=
  { lanes := List.replicate threadCount { read := Buffer.empty, write := Buffer.empty } }

/-- Modelled from the spec: `GetReadBuffer(i)`. -/
def MemPool.GetReadBuffer (p : MemPool) (i : Nat) : Option Buffer := (p.lanes.get? i).map Lane.read

/-- Modelled from the spec: `GetWriteBuffer(i)`. -/
def MemPool.GetWriteBuffer (p : MemPool) (i : Nat) : Option Buffer := (p.lanes.get? i).map Lane.write

/-- Storing a buffer back as the read buffer of lane `i` (the source mutates it
through the pointer that `GetReadBuffer` returns). -/
def MemPool.setRead (p : MemPool) (i : Nat) (b : Buffer) : MemPool :=
  { lanes := p.lanes.modify (fun ln => { ln with read := b }) i }

/-- Storing a buffer back as the write buffer of lane `i`. -/
def MemPool.setWrite (p : MemPool) (i : Nat) (b : Buffer) : MemPool :=
  { lanes := p.lanes.modify (fun ln => { ln with write := b }) i }

/-- Modelled from the spec: `Swap(i)` exchanges the two buffers of lane `i` and
resets the logical length of the new write buffer, keeping its storage. -/
def MemPool.Swap (p : MemPool) (i : Nat) : MemPool :=
  { lanes := p.lanes.modify
      (fun ln => { read := ln.write, write := { ln.read with Len := 0 } }) i }

/-- Modelled from the spec: `Reset` empties every lane. -/
def MemPool.Reset (p : MemPool) : MemPool :=
  { lanes := p.lanes.map fun _ => { read := Buffer.empty, write := Buffer.empty } }

/-! ## The system -/

/-- From `lsystem.go`: the `LSystem` record. The fixed-size arrays are functions
from the index; their sizes are `tableSize` and `paramsSize`. -/
structure LSystem (W : Type) where
  Axiom : Token
  Rules : List (Token × ProductionRule W)
  Variables : List Token
  Constants : List Token
  useWeightPreSampling : Bool
  EmptyTokenId : TokenStateId
  TokenBytes : TokenMap TokenStateId
  BytesToken : Nat → Token
  ByteRules : Nat → ByteProductionRule W
  ParamToByte : Nat → TokenStateId
  Params : Nat → Nat
  MemPool : MemPool

/-- The length of `BytesToken`, `ByteRules` and `ParamToByte`. -/
def tableSize : Nat := 255

/-- The length of `Params`. -/
def paramsSize : Nat := 128

/-! ## `encodeTokens` -/

/-- The variables that `encodeTokens` mutates while it builds the alphabet. -/
structure EncodeState where
  i : Nat
  j : Nat
  statefulVarParams : TokenMap Nat
  TokenBytes : TokenMap TokenStateId
  BytesToken : Nat → Token
  ParamToByte : Nat → TokenStateId
  Params : Nat → Nat

/-- The state at the start of `encodeTokens`. `ParamToByte` and `Params` are
never cleared by the source; they start as the record holds them. -/
def EncodeState.init (paramToByte : Nat → TokenStateId) (params : Nat → Nat) : EncodeState :=
  { i := 0, j := 0, statefulVarParams := fun _ => none, TokenBytes := fun _ => none
    BytesToken := fun _ => [], ParamToByte := paramToByte, Params := params }

/-- The update of `statefulVarParams` in the first loop of `encodeTokens`. -/
def recordLevel (m : TokenMap Nat) (baseVar : Token) (numberState : Nat) : TokenMap Nat :=
  let m1 := if (m baseVar).isNone then m.set baseVar numberState else m
  m1.set baseVar (max numberState ((m1 baseVar).getD 0))

/-- The three lines shared by the first two loops: a fresh non-stateful id for
`t`. Writing `BytesToken` outside its 255 entries panics. -/
def assignPlain (s : EncodeState) (t : Token) : Option EncodeState :=
  let bytePair := NewTokenStateId s.i false
  if bytePair < tableSize then
    some { s with
      TokenBytes := s.TokenBytes.set t bytePair
      BytesToken := setAt s.BytesToken bytePair t
      i := (s.i + 1) % 256 }
  else none

/-- The body of the loop over `l.Variables`. -/
def encodeVariable (s : EncodeState) (t : Token) : Option EncodeState :=
  match tryParseStatefulVariable t with
  | none => none
  | some (baseVar, numberState, isStateful) =>
    assignPlain
      (if isStateful then
        { s with statefulVarParams := recordLevel s.statefulVarParams baseVar numberState }
      else s) t

/-- The loop over `l.Variables`, in the order of the traversal. -/
def encodeVariables : List Token → EncodeState → Option EncodeState
  | [], s => some s
  | t :: ts, s => (encodeVariable s t).bind (encodeVariables ts)

/-- The loop over `l.Constants`, in the order of the traversal. -/
def encodeConstants : List Token → EncodeState → Option EncodeState
  | [], s => some s
  | t :: ts, s => (assignPlain s t).bind (encodeConstants ts)

/-- The body of the inner loop over the levels `k` of one stateful base. -/
def encodeLevel (baseVar : Token) (baseTokenId : TokenStateId) (s : EncodeState) (k : Nat) :
    Option EncodeState :=
  let bytePair := NewTokenStateId (s.j % 256) true
  if bytePair < tableSize ∧ s.j < paramsSize then
    some { s with
      TokenBytes := s.TokenBytes.set (baseVar ++ Itoa k) bytePair
      BytesToken := setAt s.BytesToken bytePair (baseVar ++ Itoa k)
      ParamToByte := setAt s.ParamToByte bytePair baseTokenId
      Params := setAt s.Params s.j (k % 256)
      j := s.j + 1 }
  else none

/-- The inner loop `for k := minIndex; k <= maxIndex; k++` over a list of levels. -/
def encodeLevels (baseVar : Token) (baseTokenId : TokenStateId) :
    List Nat → EncodeState → Option EncodeState
  | [], s => some s
  | k :: ks, s => (encodeLevel baseVar baseTokenId s k).bind (encodeLevels baseVar baseTokenId ks)

/-- The body of the loop over `statefulVarParams` for the key `baseVar`. -/
def encodeFamily (s : EncodeState) (baseVar : Token) : Option EncodeState :=
  match s.statefulVarParams baseVar with
  | none => some s
  | some maxState =>
    encodeLevels baseVar (s.TokenBytes.at baseVar) (List.range' 1 maxState) s

/-- The loop over `statefulVarParams`; `order` lists its keys in the order of
the traversal. -/
def encodeFamilies : List Token → EncodeState → Option EncodeState
  | [], s => some s
  | b :: bs, s => (encodeFamily s b).bind (encodeFamilies bs)

/-- The alphabet part of `encodeTokens`: the two loops over the sets, and the
loop over the stateful bases. The second component is `EmptyTokenId`, read
between the second and the third loop. -/
def encodeAlphabet (paramToByte : Nat → TokenStateId) (params : Nat → Nat)
    (vars consts order : List Token) : Option (EncodeState × TokenStateId) :=
  (encodeVariables vars (EncodeState.init paramToByte params)).bind fun s1 =>
  (encodeConstants consts s1).bind fun s2 =>
  (encodeFamilies order s2).map fun s3 => (s3, s2.TokenBytes.at [])

/-- The last loop of `encodeTokens`: compile every rule into `ByteRules`. -/
def encodeRules {W : Type} (tokenBytes : TokenMap TokenStateId) :
    List (Token × ProductionRule W) → (Nat → ByteProductionRule W) →
    Option (Nat → ByteProductionRule W)
  | [], br => some br
  | (t, rule) :: rest, br =>
    if tokenBytes.at t < tableSize then
      encodeRules tokenBytes rest (setAt br (tokenBytes.at t) (rule.EncodeTokens tokenBytes))
    else none

/-- The map `statefulVarParams` as the first loop leaves it, started from `m`. -/
def statefulMapFrom : List Token → TokenMap Nat → TokenMap Nat
  | [], m => m
  | t :: ts, m =>
    statefulMapFrom ts
      (match tryParseStatefulVariable t with
       | some (baseVar, numberState, true) => recordLevel m baseVar numberState
       | _ => m)

/-- The map `statefulVarParams` after the first loop of `encodeTokens`. -/
def statefulMap (vars : List Token) : TokenMap Nat := statefulMapFrom vars (fun _ => none)

/-- The keys of `statefulVarParams` as the first loop leaves them, each once. -/
def statefulKeysFrom : List Token → List Token → List Token
  | [], ks => ks
  | t :: ts, ks =>
    statefulKeysFrom ts
      (match tryParseStatefulVariable t with
       | some (baseVar, _, true) => if baseVar ∈ ks then ks else ks ++ [baseVar]
       | _ => ks)

/-- The keys of `statefulVarParams` after the first loop, each once. -/
def statefulKeys (vars : List Token) : List Token := statefulKeysFrom vars []

/-- The number of stateful level ids that the third loop allocates. -/
def totalLevels (vars order : List Token) : Nat :=
  (order.map fun b => (statefulMap vars b).getD 0).sum

/-- From `lsystem.go`: `encodeTokens`. `l.Variables`, `l.Constants` and `l.Rules`
are listed in the order in which the maps are ranged over, and `order` is the
order in which `statefulVarParams` is. -/
def LSystem.encodeTokens {W : Type} (l : LSystem W) (order : List Token) : Option (LSystem W) :=
  (encodeAlphabet l.ParamToByte l.Params l.Variables l.Constants order).bind fun (s, emptyId) =>
  (encodeRules s.TokenBytes l.Rules (fun _ => { Weights := none })).map fun br =>
    { l with
      TokenBytes := s.TokenBytes
      BytesToken := s.BytesToken
      EmptyTokenId := emptyId
      ParamToByte := s.ParamToByte
      Params := s.Params
      ByteRules := br }

/-- From `lsystem.go`: `Reset`. Lane 0 must exist. -/
def LSystem.Reset {W : Type} (l : LSystem W) : Option (LSystem W) :=
  let pool := l.MemPool.Reset
  (pool.GetReadBuffer 0).map fun b =>
    { l with MemPool := pool.setRead 0 { (b.Append (l.TokenBytes.at l.Axiom)) with Len := 1 } }

/-- The record that `NewLSystem` builds before it calls `encodeTokens`: the
arguments, a pool of `threadCount` lanes and zero values elsewhere. -/
def freshLSystem {W : Type} (axiomToken : Token) (rulesMap : List (Token × ProductionRule W))
    (vars consts : List Token) (useWeightPreSampling : Bool) (threadCount : Nat) : LSystem W :=
  { Axiom := axiomToken, Rules := rulesMap, Variables := vars, Constants := consts
    useWeightPreSampling := useWeightPreSampling
    EmptyTokenId := 0, TokenBytes := fun _ => none, BytesToken := fun _ => []
    ByteRules := fun _ => { Weights := none }, ParamToByte := fun _ => 0, Params := fun _ => 0
    MemPool := NewMemPool threadCount }

/-- From `lsystem.go`: `NewLSystem`. `threadCount` is the number of lanes of the
pool, `order` the traversal order of the stateful bases. -/
def NewLSystem {W : Type} (axiomToken : Token) (rulesMap : List (Token × ProductionRule W))
    (vars consts : List Token) (useWeightPreSampling : Bool)
    (threadCount : Nat) (order : List Token) : Option (LSystem W) :=
  let lSystem : LSystem W :=
    freshLSystem axiomToken rulesMap vars consts useWeightPreSampling threadCount
  (lSystem.encodeTokens order).bind LSystem.Reset

/-- From `lsystem.go`: `EncodeTokens`. A missing key reads as id 0. -/
def LSystem.EncodeTokens {W : Type} (l : LSystem W) (tokens : List Token) : List TokenStateId :=
  tokens.map l.TokenBytes.at

/-- The body of the loop of `DecodeBytes`. Reading `BytesToken` outside its 255
entries panics. -/
def LSystem.decodeByte {W : Type} (l : LSystem W) (bytePair : Nat) : Option Token :=
  if bytePair < tableSize then
    let v := l.BytesToken bytePair
    if v ≠ [] then some v
    else
      let base := TokenId bytePair
      if NewTokenStateId base false < tableSize then some (l.BytesToken (NewTokenStateId base false))
      else none
  else none

/-- From `lsystem.go`: `DecodeBytes`. -/
def LSystem.DecodeBytes {W : Type} (l : LSystem W) (bp : List TokenStateId) : Option (List Token) :=
  bp.mapM l.decodeByte

/-! ## Rewriting -/

/-- The successor selection `ChooseSuccessor`, which is not among the sources at
hand, as a parameter: from the compiled rule, the predecessor and the state of
the random source it gives the successor sequence, the rule as the call leaves
it (`applyRulesOnce` stores it back) and the next state of the random source. -/
abbrev Chooser (W σ : Type) :=
  ByteProductionRule W → TokenStateId → σ → List TokenStateId × ByteProductionRule W × σ

/-- The first statement of the loop body of `applyRulesOnce`: a stateful id whose
recorded level is above 1 is decremented. -/
def LSystem.lowerToken {W : Type} (l : LSystem W) (token : Nat) : Nat :=
  if HasParam token && decide (l.Params (TokenId token) > 1) then (token + 255) % 256 else token

/-- The loop of `applyRulesOnce` from position `tokenIdx` on; `rest` holds the
symbols still to be read. Reading `ByteRules` outside its 255 entries or the
predecessor outside the storage panics. -/
def applyRulesFrom {W σ : Type} (choose : Chooser W σ) (input : Buffer) :
    Nat → List TokenStateId → LSystem W × σ × Buffer → Option (LSystem W × σ × Buffer)
  | _, [], st => some st
  | tokenIdx, token :: rest, (l, g, output) =>
    let token := l.lowerToken token
    if token < tableSize then
      let rules := l.ByteRules token
      if rules.Weights.isNone then
        applyRulesFrom choose input (tokenIdx + 1) rest (l, g, output.Append token)
      else
        match (if tokenIdx > 0 then input.BytePairs.get? (tokenIdx - 1)
               else some l.EmptyTokenId) with
        | none => none
        | some predecessor =>
          let r := choose rules predecessor g
          applyRulesFrom choose input (tokenIdx + 1) rest
            ({ l with ByteRules := setAt l.ByteRules token r.2.1 }, r.2.2,
              output.AppendSlice r.1)
    else none

/-- From `lsystem.go`: `applyRulesOnce`. -/
def LSystem.applyRulesOnce {W σ : Type} (choose : Chooser W σ) (l : LSystem W) (g : σ)
    (input output : Buffer) : Option (LSystem W × σ × Buffer) :=
  input.content.bind fun toks => applyRulesFrom choose input 0 toks (l, g, output)

/-- From `lsystem.go`: `IterateOnce`. The result is the system and random state
after the step, and the returned slice. -/
def LSystem.IterateOnce {W σ : Type} (choose : Chooser W σ) (l : LSystem W) (g : σ) :
    Option (LSystem W × σ × List TokenStateId) :=
  (l.MemPool.GetReadBuffer 0).bind fun input =>
  (l.MemPool.GetWriteBuffer 0).bind fun output =>
  (l.applyRulesOnce choose g input output).bind fun (l1, g1, out) =>
    let pool := (l1.MemPool.setWrite 0 out).Swap 0
    (pool.GetReadBuffer 0).bind fun buffer =>
    buffer.content.map fun res => ({ l1 with MemPool := pool }, g1, res)

/-! ## Parsing -/

/-- Go's `unicode.IsSpace`. -/
def isSpace (c : Char) : Bool :=
  let n := c.toNat
  (9 ≤ n && n ≤ 13) || n = 32 || n = 0x85 || n = 0xA0 || n = 0x1680 ||
  (0x2000 ≤ n && n ≤ 0x200A) || n = 0x2028 || n = 0x2029 || n = 0x202F ||
  n = 0x205F || n = 0x3000

/-- Go's `strings.Fields`, with the field being read in `cur`. -/
def fieldsFrom : List Char → List Char → List (List Char)
  | [], cur => if cur = [] then [] else [cur]
  | c :: cs, cur =>
    if isSpace c then (if cur = [] then fieldsFrom cs [] else cur :: fieldsFrom cs [])
    else fieldsFrom cs (cur ++ [c])

/-- Go's `strings.Fields`. -/
def Fields (s : List Char) : List (List Char) := fieldsFrom s []

/-- Go's `strings.TrimSpace`. -/
def TrimSpace (s : List Char) : List Char :=
  ((s.dropWhile isSpace).reverse.dropWhile isSpace).reverse

/-- Go's `strings.Split(s, ";")`, with the piece being read in `cur`. -/
def splitFrom : List Char → List Char → List (List Char)
  | [], cur => [cur]
  | c :: cs, cur => if c = ';' then cur :: splitFrom cs [] else splitFrom cs (cur ++ [c])

/-- Go's `strings.ReplaceAll(str, "\n", "")`. -/
def removeNewlines (s : List Char) : List Char := s.filter fun c => c ≠ '\n'

/-- From `parse.go`: `symbolsToTokens`. -/
def symbolsToTokens (symbols : List (List Char)) : List Token := symbols

/-- The body of the loop of `ParseRule` on one group: `some none` is a group
that is skipped, `some (some w)` an alternative that is appended, `none` a
panic (`tokens[0]` or `tokens[1][0]` out of range). The weight parser
`strconv.ParseFloat` is the parameter `parseFloat`, `none` being its error. -/
def parseGroup {W : Type} (parseFloat : List Char → Option W) (group : List Char) :
    Option (Option (WeightedRule W)) :=
  if TrimSpace group = [] then some none
  else
    let tokens := Fields group
    match tokens with
    | [] => none
    | t0 :: rest =>
      match parseFloat t0 with
      | none => some none
      | some weight =>
        match rest with
        | [] => some (some { Probability := weight, Catalyst := [], Tokens := symbolsToTokens [] })
        | t1 :: rest2 =>
          match t1 with
          | [] => none
          | c :: t1tail =>
            if c = '*' then
              some (some { Probability := weight, Catalyst := t1tail,
                           Tokens := symbolsToTokens rest2 })
            else
              some (some { Probability := weight, Catalyst := [],
                           Tokens := symbolsToTokens (t1 :: rest2) })

/-- The loop of `ParseRule` over the groups. -/
def parseGroups {W : Type} (parseFloat : List Char → Option W) :
    List (List Char) → List (WeightedRule W) → Option (List (WeightedRule W))
  | [], acc => some acc
  | g :: gs, acc =>
    match parseGroup parseFloat g with
    | none => none
    | some none => parseGroups parseFloat gs acc
    | some (some w) => parseGroups parseFloat gs (acc ++ [w])

/-- From `parse.go`: `ParseRule`. -/
def ParseRule {W : Type} (parseFloat : List Char → Option W) (str : List Char) :
    Option (List (WeightedRule W)) :=
  parseGroups parseFloat (splitFrom (removeNewlines str) []) []

/-- From `parse.go`: `isCapitalized`. -/
def isCapitalized (t : Token) : Bool :=
  match t with
  | [] => false
  | firstLetter :: _ => decide (65 ≤ firstLetter.toNat) && decide (firstLetter.toNat ≤ 90)

/-- From `parse.go`: `isVariable`. -/
def isVariable (t : Token) : Bool :=
  let endsWithUnderscore := decide (t.length ≥ 1) && decide (t.getLast? = some '_')
  isCapitalized t && !endsWithUnderscore

/-- Modelled from the spec: `TokenSet.Add`, insertion into a set. -/
def TokenSet.Add (s : List Token) (t : Token) : List Token := if t ∈ s then s else s ++ [t]

/-- The closure `indexToken` of `ParseRules` on the pair `(vars, consts)`. -/
def indexToken (sets : List Token × List Token) (token : Token) : List Token × List Token :=
  if isVariable token then (TokenSet.Add sets.1 token, sets.2)
  else (sets.1, TokenSet.Add sets.2 token)

/-- Modelled from the spec: `NewProductionRule`. -/
def NewProductionRule {W : Type} (key : Token) (ws : List (WeightedRule W)) : ProductionRule W :=
  { Predecessor := key, Weights := ws }

/-- The loop of `ParseRules` over `rulesMap`, listed in the order of the
traversal; the state is `((vars, consts), parsedRules)`. -/
def parseRulesFrom {W : Type} (parseFloat : List Char → Option W) :
    List (Token × List Char) → (List Token × List Token) × List (Token × ProductionRule W) →
    Option ((List Token × List Token) × List (Token × ProductionRule W))
  | [], st => some st
  | (key, value) :: rest, (sets, parsedRules) =>
    match ParseRule parseFloat value with
    | none => none
    | some ws =>
      let rule := NewProductionRule key ws
      let sets1 := indexToken sets key
      let sets2 := rule.Weights.foldl
        (fun acc wt => wt.Tokens.foldl indexToken (indexToken acc wt.Catalyst)) sets1
      parseRulesFrom parseFloat rest (sets2, parsedRules ++ [(key, rule)])

/-- From `parse.go`: `ParseRules`; the result is `(vars, consts, parsedRules)`. -/
def ParseRules {W : Type} (parseFloat : List Char → Option W)
    (rulesMap : List (Token × List Char)) :
    Option (List Token × List Token × List (Token × ProductionRule W)) :=
  (parseRulesFrom parseFloat rulesMap (([], []), [])).map fun r => (r.1.1, r.1.2, r.2)

/-! ## Reference definitions, in the words of the specification -/

/-- The contribution of position `i` of a generation to the next one, in the
words of the contract: the (possibly level-lowered) symbol itself when it has no
compiled rule, otherwise the successors selected from its compiled rule and the
symbol before it (the sentinel at the start). -/
def specPiece {W : Type} (l : LSystem W)
    (select : ByteProductionRule W → TokenStateId → List TokenStateId)
    (toks : List TokenStateId) (i : Nat) : List TokenStateId :=
  let symbol := l.lowerToken (toks.getD i 0)
  if (l.ByteRules symbol).Weights.isNone then [symbol]
  else select (l.ByteRules symbol) (if i = 0 then l.EmptyTokenId else toks.getD (i - 1) 0)

/-- The next generation in the words of the contract: the in-order
concatenation of the contributions of all positions. -/
def specRewrite {W : Type} (l : LSystem W)
    (select : ByteProductionRule W → TokenStateId → List TokenStateId)
    (toks : List TokenStateId) : List TokenStateId :=
  (List.range toks.length).flatMap (specPiece l select toks)

/-! ## Fixtures: the grammar of `TestCounterVariables` -/

/-- A successor selection that takes the first alternative of the rule and
leaves rule and random state alone. -/
def firstAlternative : Chooser Nat Unit := fun r _ g =>
  (match r.Weights with
   | some (w :: _) => w.Tokens
   | _ => [], r, g)

/-- The parsed rules of `TestCounterVariables`. -/
def counterRules : List (Token × ProductionRule Nat) :=
  [("Seed".toList, ⟨"Seed".toList, [⟨1, [], ["L".toList, "u".toList, "S3".toList]⟩]⟩),
   ("L".toList, ⟨"L".toList, [⟨1, [], ["L".toList]⟩]⟩),
   ("S1".toList, ⟨"S1".toList, [⟨1, [], ["X".toList]⟩]⟩)]

/-- The variables of `TestCounterVariables`. -/
def counterVars : List Token :=
  ["Seed".toList, "L".toList, "S3".toList, "S1".toList, "X".toList]

/-- The constants of `TestCounterVariables`. -/
def counterConsts : List Token := ["u".toList, []]

/-- The record of `TestCounterVariables` before `encodeTokens`, with one lane. -/
def counterFresh : LSystem Nat :=
  freshLSystem "Seed".toList counterRules counterVars counterConsts false 1

/-- The system of `TestCounterVariables`, from the parsed rules of the test,
with one lane. -/
def counterSystem : Option (LSystem Nat) :=
  NewLSystem "Seed".toList counterRules counterVars counterConsts false 1 ["S".toList]

/-- A system with empty tables and one lane. -/
def blankSystem : LSystem Nat :=
  { Axiom := [], Rules := [], Variables := [], Constants := [], useWeightPreSampling := false
    EmptyTokenId := 0, TokenBytes := fun _ => none, BytesToken := fun _ => []
    ByteRules := fun _ => { Weights := none }, ParamToByte := fun _ => 0, Params := fun _ => 0
    MemPool := NewMemPool 1 }

/-! ## Stateful detection in the words of the specification -/

/-- The number that a string of decimal digits denotes. -/
def decimalValue (ds : List Char) : Nat := ds.foldl (fun n c => n * 10 + (c.toNat - 48)) 0

/-- The maximal trailing run of decimal digits of a token. -/
def trailingDigits (t : Token) : List Char := (t.reverse.takeWhile isDigitRune).reverse

/-- A token with its maximal trailing run of digits removed. -/
def stripTrailingDigits (t : Token) : Token := (t.reverse.dropWhile isDigitRune).reverse

/-- Stateful detection in the words of the specification: a token is stateful
exactly when it ends in a digit and its trailing run of digits denotes a number
of at least 1; the level is that number, at most 255, and the base is the token
without the run. -/
def specStateful (t : Token) : Token × Nat × Bool :=
  if trailingDigits t ≠ [] ∧ 1 ≤ decimalValue (trailingDigits t) then
    (stripTrailingDigits t, min (decimalValue (trailingDigits t)) 255, true)
  else ([], 0, false)

/-- The value of a digit string read after the number `v`. -/
def valueFrom (v : Nat) (ds : List Char) : Nat := ds.foldl (fun n c => n * 10 + (c.toNat - 48)) v

/-! ## Closed forms of the tables -/

/-- The map after the assignments `m[ts[0]] = i`, `m[ts[1]] = i + 1`, ... made in
this order. -/
def seqTB (tb : TokenMap TokenStateId) (i : Nat) : List Token → TokenMap TokenStateId
  | [] => tb
  | t :: ts => seqTB (tb.set t i) (i + 1) ts

/-- The array after the assignments `a[i] = xs[0]`, `a[i + 1] = xs[1]`, ... -/
def seqAt {α : Type} (a : Nat → α) (i : Nat) : List α → Nat → α
  | [] => a
  | x :: xs => seqAt (setAt a i x) (i + 1) xs

/-- The stateful names with their levels (as stored in `Params`), in the order in
which the third loop of `encodeTokens` allocates them. -/
def levelList (m : TokenMap Nat) : List Token → List (Token × Nat)
  | [] => []
  | b :: bs =>
    (match m b with
     | none => []
     | some maxState => (List.range' 1 maxState).map fun k => (b ++ Itoa k, k % 256))
    ++ levelList m bs

/-- The name-to-id map after the first two loops of `encodeTokens`. -/
def plainIds (vars consts : List Token) : TokenMap TokenStateId :=
  seqTB (fun _ => none) 0 (vars ++ consts)

/-- The stateful names in the order of their allocation. -/
def levelNames (vars order : List Token) : List Token :=
  (levelList (statefulMap vars) order).map Prod.fst

/-- The name-to-id map that `encodeTokens` builds. -/
def allIds (vars consts order : List Token) : TokenMap TokenStateId :=
  seqTB (plainIds vars consts) 128 (levelNames vars order)

/-- The id-to-name table that `encodeTokens` builds. -/
def allNames (vars consts order : List Token) : Nat → Token :=
  seqAt (seqAt (fun _ => []) 0 (vars ++ consts)) 128 (levelNames vars order)

/-- The level table that `encodeTokens` builds from the table `params`. -/
def allParams (params : Nat → Nat) (vars order : List Token) : Nat → Nat :=
  seqAt params 0 ((levelList (statefulMap vars) order).map Prod.snd)

/-- The rule table after the assignments of the last loop of `encodeTokens`. -/
def compileRules {W : Type} (tokenBytes : TokenMap TokenStateId) :
    List (Token × ProductionRule W) → (Nat → ByteProductionRule W) → Nat → ByteProductionRule W
  | [], br => br
  | (t, rule) :: rest, br =>
    compileRules tokenBytes rest (setAt br (tokenBytes.at t) (rule.EncodeTokens tokenBytes))

/-! ## The counter grammar with maximum level `M` -/

/-- The source text of the rules of `TestCounterVariables`, with the level `M`
in place of 3, as a map in one order of traversal. -/
def counterText (M : Nat) : List (Token × List Char) :=
  [("Seed".toList, "1 L u S".toList ++ Itoa M), ("L".toList, "1 L".toList),
   ("S1".toList, "1 X".toList)]

/-- The tokens that a parsed rule table mentions: predecessors, catalysts (the
empty token where there is none) and successors. -/
def mentionedTokens {W : Type} (rules : List (Token × ProductionRule W)) : List Token :=
  rules.flatMap fun kr => kr.1 :: kr.2.Weights.flatMap fun wt => wt.Catalyst :: wt.Tokens

/-- The rule table that `ParseRules` builds from a rules map when no rule
string makes `ParseRule` panic. -/
def parsedOf {W : Type} (parseFloat : List Char → Option W) (rulesMap : List (Token × List Char)) :
    List (Token × ProductionRule W) :=
  rulesMap.map fun kv => (kv.1, NewProductionRule kv.1 ((ParseRule parseFloat kv.2).getD []))

/-- The successors of the first alternative of a compiled rule. -/
def headTokens {W : Type} (r : ByteProductionRule W) : List TokenStateId :=
  match r.Weights with
  | some (w :: _) => w.Tokens
  | _ => []

/-- `n + 1` successive calls of `IterateOnce`; the result is that of the last. -/
def LSystem.iterateOnceTimes {W σ : Type} (choose : Chooser W σ) :
    Nat → LSystem W → σ → Option (LSystem W × σ × List TokenStateId)
  | 0, l, g => l.IterateOnce choose g
  | n + 1, l, g => (l.IterateOnce choose g).bind fun r => iterateOnceTimes choose n r.1 r.2.1

/-- Selection of the first alternative, as a function of rule and predecessor. -/
def headSelect {W : Type} (r : ByteProductionRule W) (_ : TokenStateId) : List TokenStateId :=
  headTokens r

/-- What the countdown needs of the compiled tables of the counter grammar:
`aSeed`, `aL`, `aU`, `aX` are the ids of `Seed`, `L`, `u`, `X` and `sid k` is
the id of `Sk`. -/
structure CounterTables {W : Type} (l : LSystem W) (w : W) (M aSeed aL aU aX : Nat)
    (sid : Nat → Nat) : Prop where
  ruleSeed : ∃ c, l.ByteRules aSeed = ⟨some [⟨w, c, [aL, aU, sid M]⟩]⟩
  ruleL : ∃ c, l.ByteRules aL = ⟨some [⟨w, c, [aL]⟩]⟩
  ruleS : ∃ c, l.ByteRules (sid 1) = ⟨some [⟨w, c, [aX]⟩]⟩
  noRule : ∀ n, n ≠ aSeed → n ≠ aL → n ≠ sid 1 → l.ByteRules n = ⟨none⟩
  lowSeed : l.lowerToken aSeed = aSeed
  lowL : l.lowerToken aL = aL
  lowU : l.lowerToken aU = aU
  lowS : ∀ k, 2 ≤ k → k ≤ M → l.lowerToken (sid k) = sid (k - 1)
  neU : aU ≠ aSeed ∧ aU ≠ aL ∧ aU ≠ sid 1
  neS : ∀ k, 2 ≤ k → k ≤ M → sid k ≠ aSeed ∧ sid k ≠ aL ∧ sid k ≠ sid 1

/-- The variables of the counter grammar with maximum level `M`. -/
def counterVarsOf (M : Nat) : List Token :=
  ["Seed".toList, "L".toList, "S".toList ++ Itoa M, "S1".toList, "X".toList]

/-- The parsed rules of the counter grammar with maximum level `M` and weight `w`. -/
def counterParsed {W : Type} (w : W) (M : Nat) : List (Token × ProductionRule W) :=
  [("Seed".toList, ⟨"Seed".toList, [⟨w, [], ["L".toList, "u".toList, "S".toList ++ Itoa M]⟩]⟩),
   ("L".toList, ⟨"L".toList, [⟨w, [], ["L".toList]⟩]⟩),
   ("S1".toList, ⟨"S1".toList, [⟨w, [], ["X".toList]⟩]⟩)]

/-- A stand-in for `strconv.ParseFloat` that reads the weight `1`. -/
def parseOne (s : List Char) : Option Nat := if s = "1".toList then some 1 else none

/-- The alternative that a group with weight `w` and the fields `rest` after the
weight field gives, in the words of the grammar: a first field that starts with
`*` is the catalyst, without the `*`, and the fields after it are the
successors; otherwise there is no catalyst and all fields are successors. -/
def specAlternative {W : Type} (w : W) (rest : List (List Char)) : WeightedRule W :=
  match rest with
  | ('*' :: cat) :: succs => { Probability := w, Catalyst := cat, Tokens := succs }
  | _ => { Probability := w, Catalyst := [], Tokens := rest }

/-- The alternative of one `;`-separated group in the words of the
specification: none for a blank group and for a group whose first field is not
read as a weight. -/
def specGroup {W : Type} (parseFloat : List Char → Option W) (group : List Char) :
    Option (WeightedRule W) :=
  if TrimSpace group = [] then none
  else
    match Fields group with
    | [] => none
    | f0 :: rest => (parseFloat f0).map fun w => specAlternative w rest

/-! ## Iteration over the lanes -/

/-- The loop body shared by `IterateUntil`, `prime` and `applyRules`:
`applyRulesOnce` from the read buffer of lane `i` into its write buffer, then
`Swap(i)`. -/
def LSystem.stepLane {W σ : Type} (choose : Chooser W σ) (i : Nat) (l : LSystem W) (g : σ) :
    Option (LSystem W × σ) :=
  (l.MemPool.GetReadBuffer i).bind fun input =>
  (l.MemPool.GetWriteBuffer i).bind fun output =>
  (l.applyRulesOnce choose g input output).map fun r =>
    ({ r.1 with MemPool := (r.1.MemPool.setWrite i r.2.2).Swap i }, r.2.1)

/-- The loop `for j := 0; j < n; j++` around `stepLane` on lane `i`. -/
def LSystem.stepLaneTimes {W σ : Type} (choose : Chooser W σ) (i : Nat) :
    Nat → LSystem W → σ → Option (LSystem W × σ)
  | 0, l, g => some (l, g)
  | n + 1, l, g => (l.stepLane choose i g).bind fun r => stepLaneTimes choose i n r.1 r.2

/-- The lanes `i`, `i + 1`, ... of `applyRules`, `count` of them, run one after
the other. -/
def applyRulesLanes {W σ : Type} (choose : Chooser W σ) (n : Nat) :
    Nat → Nat → LSystem W → σ → Option (LSystem W × σ)
  | _, 0, l, g => some (l, g)
  | i, count + 1, l, g =>
    (l.stepLaneTimes choose i n g).bind fun r => applyRulesLanes choose n (i + 1) count r.1 r.2

/-- From `lsystem.go`: `applyRules`, with `threadCount` lanes. The goroutines are
run one lane after the other: a lane reads and writes its own two buffers only,
and the one thing the lanes share and write, the rule that `applyRulesOnce`
stores back, does not change under a selection that hands the rule back as it
got it, which is what the theorems on `applyRules` assume. -/
def LSystem.applyRules {W σ : Type} (choose : Chooser W σ) (threadCount n : Nat)
    (l : LSystem W) (g : σ) : Option (LSystem W × σ) :=
  applyRulesLanes choose n 0 threadCount l g

/-- The body of the first loop of `distribute` for lane `i`. -/
def distributeLane (threadCount chunkSize i : Nat) (p : MemPool) : Option MemPool :=
  (p.GetReadBuffer 0).bind fun read0 =>
    let lo := i * chunkSize
    let hi := if i = threadCount - 1 then read0.Len else lo + chunkSize
    (p.GetWriteBuffer i).bind fun w =>
    (read0.slice lo hi).map fun s => p.setWrite i (w.AppendSlice s)

/-- The first loop of `distribute`, from lane `i` on, `count` lanes. -/
def distributeLanes (threadCount chunkSize : Nat) : Nat → Nat → MemPool → Option MemPool
  | _, 0, p => some p
  | i, count + 1, p =>
    (distributeLane threadCount chunkSize i p).bind
      (distributeLanes threadCount chunkSize (i + 1) count)

/-- The second loop of `distribute`: `Swap(i)` from lane `i` on, `count` lanes. -/
def swapLanes : Nat → Nat → MemPool → MemPool
  | _, 0, p => p
  | i, count + 1, p => swapLanes (i + 1) count (p.Swap i)

/-- From `lsystem.go`: `distribute`, on the pool. The division by a lane count of
zero panics. -/
def MemPool.distribute (threadCount : Nat) (p : MemPool) : Option MemPool :=
  if threadCount = 0 then none
  else
    (p.GetReadBuffer 0).bind fun read0 =>
      (distributeLanes threadCount (read0.Len / threadCount) 0 threadCount p).map
        (swapLanes 0 threadCount)

/-- From `lsystem.go`: `distribute`. -/
def LSystem.distribute {W : Type} (threadCount : Nat) (l : LSystem W) : Option (LSystem W) :=
  (l.MemPool.distribute threadCount).map fun p => { l with MemPool := p }

/-- From `lsystem.go`: `prime`. -/
def LSystem.prime {W σ : Type} (choose : Chooser W σ) (threadCount n : Nat)
    (l : LSystem W) (g : σ) : Option (LSystem W × σ) :=
  (l.stepLaneTimes choose 0 n g).bind fun r =>
    (r.1.distribute threadCount).map fun l2 => (l2, r.2)

/-- Modelled from the spec: `ReadAll` concatenates the read buffers of the lanes
in lane order. -/
def readAllLanes : List Lane → Option (List TokenStateId)
  | [] => some []
  | ln :: rest => ln.read.content.bind fun c => (readAllLanes rest).map fun cs => c ++ cs

/-- Modelled from the spec: `ReadAll`. -/
def MemPool.ReadAll (p : MemPool) : Option (List TokenStateId) := readAllLanes p.lanes

/-- From `lsystem.go`: `IterateUntil`, with `threadCount` lanes; the result is
the system and random state after the run and the returned generation. -/
def LSystem.IterateUntil {W σ : Type} (choose : Chooser W σ) (threadCount n : Nat)
    (l : LSystem W) (g : σ) : Option (LSystem W × σ × List TokenStateId) :=
  l.Reset.bind fun l0 =>
    (if n ≥ 15 then
      (l0.prime choose threadCount 10 g).bind fun r =>
        r.1.applyRules choose threadCount (n - 10) r.2
    else l0.stepLaneTimes choose 0 n g).bind fun r =>
      r.1.MemPool.ReadAll.map fun res => (r.1, r.2, res)

/-- From `lsystem.go`: `Iterate`. -/
def LSystem.Iterate {W σ : Type} (choose : Chooser W σ) (threadCount n : Nat)
    (l : LSystem W) (g : σ) : Option (LSystem W × σ × List TokenStateId) :=
  (l.applyRules choose threadCount n g).bind fun r =>
    r.1.MemPool.ReadAll.map fun res => (r.1, r.2, res)

/-- A grammar that doubles: `A` gives `A B`, `B` gives `B`. -/
def doublingFresh (threadCount : Nat) : LSystem Nat :=
  freshLSystem "A".toList
    [("A".toList, ⟨"A".toList, [⟨1, [], ["A".toList, "B".toList]⟩]⟩)]
    ["A".toList, "B".toList] [[]] false threadCount

/-- The part of a generation that lane `i` of `T` lanes is to read after the
distribution, in the words of the specification: `length / T` symbols from
position `i * (length / T)` on, and for the last lane all that remain. -/
def specChunk (T : Nat) (gen : List TokenStateId) (i : Nat) : List TokenStateId :=
  if i = T - 1 then gen.drop (i * (gen.length / T))
  else (gen.take ((i + 1) * (gen.length / T))).drop (i * (gen.length / T))

/-- Every lane `j` of the pool reads the generation `cont j` and has an empty
write buffer. -/
def PoolHolds (p : MemPool) (cont : Nat → List TokenStateId) : Prop :=
  ∀ j, j < p.lanes.length →
    ∃ ln, p.lanes.get? j = some ln ∧ ln.read.content = some (cont j) ∧ ln.write.Len = 0

/-- The doubling grammar compiled, with `threadCount` lanes. -/
def doublingSystem (threadCount : Nat) : LSystem Nat :=
  ((doublingFresh threadCount).encodeTokens []).getD (doublingFresh threadCount)
/-! # Theorems -/

/-! ## Buffers and the single rewriting step -/

theorem lowerToken_lt {W : Type} (l : LSystem W) (t : Nat) (h : t < tableSize) :
    l.lowerToken t < tableSize := by
  unfold LSystem.lowerToken
  split
  · rename_i hc
    simp only [HasParam, Bool.and_eq_true, decide_eq_true_eq] at hc
    have := hc.1
    unfold tableSize at *
    omega
  · exact h

theorem setAt_self {α : Type} (a : Nat → α) (i : Nat) : setAt a i (a i) = a := by
  funext n
  unfold setAt
  split
  · subst_vars; rfl
  · rfl

theorem Buffer.content_append_slice (b : Buffer) (xs ys : List TokenStateId)
    (h : b.content = some xs) : (b.AppendSlice ys).content = some (xs ++ ys) := by
  unfold Buffer.content Buffer.slice at *
  simp only [Buffer.AppendSlice]
  split at h
  · rename_i hb
    simp at h
    subst h
    simp [List.take_append_eq_append_take, hb.2]
    
  · cases h


theorem Buffer.content_append (b : Buffer) (xs : List TokenStateId) (y : TokenStateId)
    (h : b.content = some xs) : (b.Append y).content = some (xs ++ [y]) :=
  Buffer.content_append_slice b xs [y] h

theorem Buffer.content_eq {b : Buffer} {xs : List TokenStateId} (h : b.content = some xs) :
    b.Len ≤ b.BytePairs.length ∧ xs = b.BytePairs.take b.Len := by
  unfold Buffer.content Buffer.slice at h
  split at h
  · rename_i hb
    simp at h
    exact ⟨hb.2, h.symm⟩
  · cases h

theorem drop_cons_facts {α : Type} {l : List α} {n : Nat} {x : α} {r : List α}
    (h : l.drop n = x :: r) : l.get? n = some x ∧ l.drop (n + 1) = r ∧ n < l.length := by
  have hlt : n < l.length := by
    by_contra hc
    rw [List.drop_eq_nil_of_le (by omega)] at h
    cases h
  refine ⟨?_, ?_, hlt⟩
  · have := List.drop_eq_getElem_cons hlt
    rw [this] at h
    have h1 := (List.cons.inj h).1
    simp [List.get?_eq_getElem?, List.getElem?_eq_getElem hlt, h1]
  · have := List.drop_eq_getElem_cons hlt
    rw [this] at h
    exact (List.cons.inj h).2

theorem applyRulesFrom_pure {W σ : Type} (choose : Chooser W σ)
    (select : ByteProductionRule W → TokenStateId → List TokenStateId)
    (hpure : ∀ r p g, choose r p g = (select r p, r, g))
    (l : LSystem W) (g : σ) (input : Buffer) (toks : List Nat)
    (hin : input.content = some toks) :
    ∀ (rest : List Nat) (idx : Nat) (out : Buffer) (acc : List Nat),
      toks.drop idx = rest → out.content = some acc → (∀ t ∈ rest, t < tableSize) →
      ∃ out2, applyRulesFrom choose input idx rest (l, g, out) = some (l, g, out2) ∧
        out2.content = some (acc ++ (List.range' idx rest.length).flatMap (specPiece l select toks)) := by
  intro rest
  induction rest with
  | nil =>
    intro idx out acc _ hout _
    exact ⟨out, rfl, by simpa using hout⟩
  | cons t rest ih =>
    intro idx out acc hdrop hout hlt
    obtain ⟨hget, hdrop2, hidx⟩ := drop_cons_facts hdrop
    have ht : l.lowerToken t < tableSize := lowerToken_lt l t (hlt t (List.mem_cons_self _ _))
    have hrest : ∀ u ∈ rest, u < tableSize := fun u hu => hlt u (List.mem_cons_of_mem _ hu)
    have hgetD : toks.getD idx 0 = t := by
      rw [List.getD_eq_getElem?_getD, ← List.get?_eq_getElem?, hget]; rfl
    have hpiece : specPiece l select toks idx =
        if (l.ByteRules (l.lowerToken t)).Weights.isNone then [l.lowerToken t]
        else select (l.ByteRules (l.lowerToken t))
          (if idx = 0 then l.EmptyTokenId else toks.getD (idx - 1) 0) := by
      unfold specPiece
      rw [hgetD]
    simp only [applyRulesFrom, ht, if_true]
    by_cases hnil : (l.ByteRules (l.lowerToken t)).Weights.isNone
    · simp only [hnil, if_true]
      obtain ⟨out2, h1, h2⟩ := ih (idx + 1) (out.Append (l.lowerToken t)) (acc ++ [l.lowerToken t])
        hdrop2 (Buffer.content_append out acc _ hout) hrest
      refine ⟨out2, h1, ?_⟩
      rw [h2]
      simp [List.range'_succ, List.flatMap_cons, hpiece, hnil]
    · simp only [hnil]
      have hpred : (if idx > 0 then input.BytePairs.get? (idx - 1) else some l.EmptyTokenId)
          = some (if idx = 0 then l.EmptyTokenId else toks.getD (idx - 1) 0) := by
        by_cases h0 : idx = 0
        · simp [h0]
        · obtain ⟨hle, htk⟩ := Buffer.content_eq hin
          have hlen : toks.length ≤ input.Len := by rw [htk]; simp
          have hlen2 : toks.length = input.Len := by rw [htk]; simp; omega
          have : idx - 1 < toks.length := by omega
          have hlt1 : idx - 1 < input.Len := by omega
          have hlt2 : idx - 1 < input.BytePairs.length := by omega
          simp only [gt_iff_lt, Nat.pos_of_ne_zero h0, if_true, h0, if_false, htk,
            List.getD_eq_getElem?_getD, List.get?_eq_getElem?, List.getElem?_take, hlt1,
            List.getElem?_eq_getElem hlt2, Option.getD_some]
      rw [hpred]
      simp only [hpure, setAt_self]
      obtain ⟨out2, h1, h2⟩ := ih (idx + 1)
        (out.AppendSlice (select (l.ByteRules (l.lowerToken t))
          (if idx = 0 then l.EmptyTokenId else toks.getD (idx - 1) 0)))
        (acc ++ (select (l.ByteRules (l.lowerToken t))
          (if idx = 0 then l.EmptyTokenId else toks.getD (idx - 1) 0)))
        hdrop2 (Buffer.content_append_slice out acc _ hout) hrest
      refine ⟨out2, h1, ?_⟩
      rw [h2]
      simp [List.range'_succ, List.flatMap_cons, hpiece, hnil]

theorem Buffer.content_of_len_zero (b : Buffer) (h : b.Len = 0) : b.content = some [] := by
  simp [Buffer.content, Buffer.slice, h]

theorem applyRulesFrom_append {W σ : Type} (choose : Chooser W σ) (input : Buffer)
    (xs zs : List Nat) : ∀ (idx : Nat) (st : LSystem W × σ × Buffer),
    applyRulesFrom choose input idx (xs ++ zs) st =
      (applyRulesFrom choose input idx xs st).bind
        (applyRulesFrom choose input (idx + xs.length) zs) := by
  induction xs with
  | nil => intro idx st; simp [applyRulesFrom]
  | cons x xs ih =>
    intro idx st
    obtain ⟨l, g, out⟩ := st
    simp only [List.cons_append, applyRulesFrom, List.length_cons]
    have e : idx + (xs.length + 1) = idx + 1 + xs.length := by omega
    split
    · split
      · rw [e]; exact ih _ _
      · split
        · simp
        · rw [e]; exact ih _ _
    · simp

theorem applyRulesFrom_preserves {W σ : Type} (choose : Chooser W σ) (input : Buffer) (t : Nat)
    (rest : List Nat) : ∀ (idx : Nat) (st st2 : LSystem W × σ × Buffer),
    applyRulesFrom choose input idx rest st = some st2 →
    (st.1.ByteRules t).Weights = none →
    st2.1.ByteRules t = st.1.ByteRules t ∧ st2.1.Params = st.1.Params := by
  induction rest with
  | nil =>
    intro idx st st2 h _
    simp only [applyRulesFrom, Option.some.injEq] at h
    subst h
    exact ⟨rfl, rfl⟩
  | cons x rest ih =>
    intro idx st st2 h hnil
    obtain ⟨l, g, out⟩ := st
    simp only [applyRulesFrom] at h
    split at h
    · split at h
      · have key := ih _ _ _ h hnil
        exact key
      · rename_i hne
        split at h
        · cases h
        · have hx : l.lowerToken x ≠ t := by
            intro hx
            rw [hx] at hne
            simp only at hnil
            rw [hnil] at hne
            exact hne rfl
          have key := ih _ _ _ h (by simpa [setAt, Ne.symm hx] using hnil)
          simpa [setAt, Ne.symm hx] using key
    · cases h


/-- C1: with successor selection a function `select` of rule and predecessor,
`applyRulesOnce` on a generation of table ids and an empty output buffer returns,
leaves system and random state as they were, and writes exactly the in-order
concatenation over the positions of the input that the contract describes. -/
theorem applyRulesOnce_writes_concatenation {W σ : Type} (choose : Chooser W σ)
    (select : ByteProductionRule W → TokenStateId → List TokenStateId)
    (hpure : ∀ r p g, choose r p g = (select r p, r, g))
    (l : LSystem W) (g : σ) (input output : Buffer) (toks : List Nat)
    (hin : input.content = some toks) (hout : output.Len = 0)
    (hids : ∀ t ∈ toks, t < tableSize) :
    ∃ out, l.applyRulesOnce choose g input output = some (l, g, out) ∧
      out.content = some (specRewrite l select toks) := by
  obtain ⟨out, h1, h2⟩ := applyRulesFrom_pure choose select hpure l g input toks hin toks 0
    output [] (by simp) (Buffer.content_of_len_zero output hout) hids
  refine ⟨out, ?_, ?_⟩
  · simp only [LSystem.applyRulesOnce, hin, Option.some_bind]
    exact h1
  · rw [h2]
    simp [specRewrite, List.range_eq_range']

/-- C1, at a concrete input: the blank system with one compiled rule at id 1,
selection returning the predecessor, on the generation `[1, 2, 1]`. -/
theorem applyRulesOnce_writes_concatenation_witness :
    ∃ out, ({ blankSystem with ByteRules := setAt blankSystem.ByteRules 1 ⟨some []⟩ }
        : LSystem Nat).applyRulesOnce (fun r p (g : Unit) => ([p], r, g)) ()
          ⟨[1, 2, 1], 3⟩ Buffer.empty
        = some ({ blankSystem with ByteRules := setAt blankSystem.ByteRules 1 ⟨some []⟩ }, (), out) ∧
      out.content = some (specRewrite
        ({ blankSystem with ByteRules := setAt blankSystem.ByteRules 1 ⟨some []⟩ } : LSystem Nat)
        (fun _ p => [p]) [1, 2, 1]) :=
  applyRulesOnce_writes_concatenation (fun r p (g : Unit) => ([p], r, g)) (fun _ p => [p])
    (fun _ _ _ => rfl) _ () ⟨[1, 2, 1], 3⟩ Buffer.empty [1, 2, 1] (by decide) rfl (by decide)

set_option maxRecDepth 100000 in
/-- C2 fails as stated: in the counter system of the test, id 130 (`S3`) has no
compiled rule under its own id, yet one application emits 129 (`S2`) in its place. -/
theorem constant_copied_counterexample :
    (counterSystem.bind fun l =>
      some ((l.ByteRules 130).Weights.isNone,
        (l.applyRulesOnce firstAlternative () ⟨[130], 1⟩ Buffer.empty).bind
          fun r => r.2.2.content))
    = some (true, some [129]) := by
  decide

/-- C2 as amended: a symbol with no compiled rule under its own id that is not a
stateful id of recorded level above 1 is emitted unchanged at its place, after
the output of the symbols before it, and leaves rule table and random state as
the symbols before it left them: no successor selection is made for it. -/
theorem constant_copied_unchanged {W σ : Type} (choose : Chooser W σ)
    (l l1 : LSystem W) (g g1 : σ) (input output o1 : Buffer) (xs ys : List Nat) (t : Nat)
    (hnil : (l.ByteRules t).Weights = none)
    (hlevel : ¬ (HasParam t = true ∧ l.Params (TokenId t) > 1))
    (ht : t < tableSize)
    (hin : input.content = some (xs ++ t :: ys))
    (hpre : applyRulesFrom choose input 0 xs (l, g, output) = some (l1, g1, o1)) :
    l.applyRulesOnce choose g input output =
      applyRulesFrom choose input (xs.length + 1) ys (l1, g1, o1.Append t) := by
  obtain ⟨hbr, hpar⟩ := applyRulesFrom_preserves choose input t xs 0 _ _ hpre hnil
  simp only at hbr hpar
  have hlow : l1.lowerToken t = t := by
    unfold LSystem.lowerToken
    rw [hpar]
    split
    · rename_i hc
      simp only [Bool.and_eq_true, decide_eq_true_eq] at hc
      exact absurd hc hlevel
    · rfl
  simp only [LSystem.applyRulesOnce, hin, Option.some_bind]
  rw [applyRulesFrom_append, hpre]
  simp only [Option.some_bind, Nat.zero_add, applyRulesFrom, hlow, ht, if_true, hbr, hnil,
    Option.isNone_none]

/-- C2 as amended, at a concrete input: the ruleless id 5 after the ruleless
id 7 and before id 1, which has a compiled rule. -/
theorem constant_copied_unchanged_witness :
    ({ blankSystem with ByteRules := setAt blankSystem.ByteRules 1 ⟨some []⟩ }
        : LSystem Nat).applyRulesOnce (fun r p (g : Unit) => ([p], r, g)) ()
          ⟨[7, 5, 1], 3⟩ Buffer.empty
      = applyRulesFrom (fun r p (g : Unit) => ([p], r, g)) ⟨[7, 5, 1], 3⟩ 2 [1]
          ({ blankSystem with ByteRules := setAt blankSystem.ByteRules 1 ⟨some []⟩ }, (),
            (Buffer.empty.Append 7).Append 5) :=
  constant_copied_unchanged (fun r p (g : Unit) => ([p], r, g)) _ _ () () ⟨[7, 5, 1], 3⟩
    Buffer.empty (Buffer.empty.Append 7) [7] [1] 5 rfl (by decide) (by decide)
    (by decide) rfl

/-! ## Stateful detection -/

theorem wrapInt_of_small (x : Int) (h0 : 0 ≤ x) (h1 : x < 2 ^ 63) : wrapInt x = x := by
  unfold wrapInt
  norm_num at h1 ⊢
  omega

theorem isDigitRune_iff (c : Char) : isDigitRune c = true ↔ 48 ≤ c.toNat ∧ c.toNat ≤ 57 := by
  simp [isDigitRune]

theorem scan_letters (p : List Char) (hp : ∀ c ∈ p, isDigitRune c = false) :
    ∀ sb : List Char, p.foldl scanRune ((0 : Int), sb) = (0, sb ++ p) := by
  induction p with
  | nil => intro sb; simp
  | cons c p ih =>
    intro sb
    have hc : isDigitRune c = false := hp c (List.mem_cons_self _ _)
    simp only [List.foldl_cons, scanRune, hc, Bool.false_eq_true, if_false, if_true]
    rw [ih (fun d hd => hp d (List.mem_cons_of_mem _ hd))]
    simp

theorem scan_digits (ds : List Char) (hd : ∀ c ∈ ds, isDigitRune c = true) :
    ∀ (v : Nat) (sb : List Char), (v + 1) * 10 ^ ds.length ≤ 2 ^ 63 →
      ds.foldl scanRune ((v : Int), sb) = (((valueFrom v ds : Nat) : Int), sb) := by
  induction ds with
  | nil => intro v sb _; simp [valueFrom]
  | cons c ds ih =>
    intro v sb hb
    have hc : isDigitRune c = true := hd c (List.mem_cons_self _ _)
    obtain ⟨h48, h57⟩ := (isDigitRune_iff c).1 hc
    have hpos : 0 < 10 ^ ds.length := Nat.pos_pow_of_pos _ (by norm_num)
    have hb2 : (v * 10 + (c.toNat - 48) + 1) * 10 ^ ds.length ≤ 2 ^ 63 := by
      calc (v * 10 + (c.toNat - 48) + 1) * 10 ^ ds.length
          ≤ ((v + 1) * 10) * 10 ^ ds.length := by
            apply Nat.mul_le_mul_right; omega
        _ = (v + 1) * 10 ^ (ds.length + 1) := by ring
        _ ≤ 2 ^ 63 := by simpa using hb
    have hlt : v * 10 + (c.toNat - 48) < 2 ^ 63 := by
      have : (v * 10 + (c.toNat - 48) + 1) * 1 ≤ (v * 10 + (c.toNat - 48) + 1) * 10 ^ ds.length :=
        Nat.mul_le_mul_left _ hpos
      omega
    have hw : wrapInt ((v : Int) * 10 + ((c.toNat : Int) - 48))
        = ((v * 10 + (c.toNat - 48) : Nat) : Int) := by
      have e : ((v * 10 + (c.toNat - 48) : Nat) : Int) = (v : Int) * 10 + ((c.toNat : Int) - 48) := by
        omega
      rw [← e]
      apply wrapInt_of_small
      · omega
      · exact_mod_cast hlt
    simp only [List.foldl_cons, scanRune, hc, if_true, hw]
    rw [ih (fun d hd2 => hd d (List.mem_cons_of_mem _ hd2)) _ sb hb2]
    simp [valueFrom]


theorem valueFrom_zero (ds : List Char) : valueFrom 0 ds = decimalValue ds := rfl

theorem takeWhile_digits_none (q : List Char) (hq : ∀ c ∈ q, isDigitRune c = false) :
    q.takeWhile isDigitRune = [] ∧ q.dropWhile isDigitRune = q := by
  cases q with
  | nil => simp
  | cons c q =>
    have hc := hq c (List.mem_cons_self _ _)
    simp [List.takeWhile, List.dropWhile, hc]

theorem trailing_of_suffix_form (p ds : List Char) (hp : ∀ c ∈ p, isDigitRune c = false)
    (hd : ∀ c ∈ ds, isDigitRune c = true) :
    trailingDigits (p ++ ds) = ds ∧ stripTrailingDigits (p ++ ds) = p := by
  have h1 : ∀ c ∈ ds.reverse, isDigitRune c = true := fun c hc => hd c (List.mem_reverse.1 hc)
  have h2 : ∀ c ∈ p.reverse, isDigitRune c = false := fun c hc => hp c (List.mem_reverse.1 hc)
  obtain ⟨h3, h4⟩ := takeWhile_digits_none p.reverse h2
  unfold trailingDigits stripTrailingDigits
  rw [List.reverse_append, List.takeWhile_append_of_pos h1, List.dropWhile_append_of_pos h1, h3, h4]
  simp

theorem specStateful_suffix_form (p ds : List Char) (hp : ∀ c ∈ p, isDigitRune c = false)
    (hd : ∀ c ∈ ds, isDigitRune c = true) :
    specStateful (p ++ ds) =
      if ds ≠ [] ∧ 1 ≤ decimalValue ds then (p, min (decimalValue ds) 255, true)
      else ([], 0, false) := by
  obtain ⟨h1, h2⟩ := trailing_of_suffix_form p ds hp hd
  unfold specStateful
  rw [h1, h2]

theorem tryParse_suffix_form (p ds : List Char) (hp : ∀ c ∈ p, isDigitRune c = false)
    (hd : ∀ c ∈ ds, isDigitRune c = true) (hlen : ds.length ≤ 18) (hne : p ++ ds ≠ []) :
    tryParseStatefulVariable (p ++ ds) =
      some (if ds ≠ [] ∧ 1 ≤ decimalValue ds then (p, min (decimalValue ds) 255, true)
            else ([], 0, false)) := by
  have hscan : (p ++ ds).foldl scanRune ((0 : Int), []) = (((decimalValue ds : Nat) : Int), p) := by
    rw [List.foldl_append, scan_letters p hp []]
    have hb : (0 + 1) * 10 ^ ds.length ≤ 2 ^ 63 := by
      calc (0 + 1) * 10 ^ ds.length = 10 ^ ds.length := by ring
        _ ≤ 10 ^ 18 := Nat.pow_le_pow_right (by norm_num) hlen
        _ ≤ 2 ^ 63 := by norm_num
    have := scan_digits ds hd 0 ([] ++ p) hb
    simpa [valueFrom_zero] using this
  rcases List.eq_nil_or_concat ds with hnil | ⟨L, b, hL⟩
  · subst hnil
    simp only [List.append_nil] at hne ⊢
    rcases List.eq_nil_or_concat p with hpn | ⟨P, c, hP⟩
    · exact absurd hpn hne
    · have hc : isDigitRune c = false := hp c (by rw [hP]; simp)
      clear hscan
      unfold tryParseStatefulVariable
      rw [hP, List.concat_eq_append, List.getLast?_concat]
      simp [hc]
  · have hb : isDigitRune b = true := hd b (by rw [hL]; simp)
    have hdne : ds ≠ [] := by rw [hL]; simp
    have hlast : (p ++ ds).getLast? = some b := by
      rw [hL, List.concat_eq_append, ← List.append_assoc, List.getLast?_concat]
    unfold tryParseStatefulVariable
    rw [hlast]
    simp only [hb, Bool.not_true, Bool.false_eq_true, if_false, hscan]
    by_cases hz : decimalValue ds = 0
    · simp [hz]
    · have h1 : 1 ≤ decimalValue ds := Nat.one_le_iff_ne_zero.2 hz
      have hz2 : ¬ ((decimalValue ds : Nat) : Int) = 0 := by exact_mod_cast hz
      simp only [hz2, if_false, hdne, ne_eq, not_false_eq_true, h1, and_self, if_true]
      by_cases hbig : ((decimalValue ds : Nat) : Int) > 255
      · have : 255 < decimalValue ds := by exact_mod_cast hbig
        simp only [hbig, if_true]
        rw [Nat.min_eq_right (by omega)]
        rfl
      · have : decimalValue ds ≤ 255 := by
          have := Int.not_lt.1 hbig
          exact_mod_cast this
        simp only [hbig, if_false]
        rw [Nat.min_eq_left this]
        congr 3
        omega

/-- C9 fails as stated: on `A1B2` the code reads all digits as one number and
drops what follows the first digit, returning base `A` and level 12, where the
trailing run of digits is `2` and the token without it is `A1B`. -/
theorem tryParse_trailing_run_counterexample :
    tryParseStatefulVariable "A1B2".toList = some ("A".toList, 12, true) ∧
    specStateful "A1B2".toList = ("A1B".toList, 2, true) := by
  decide

/-- C9 as amended: on a non-empty token made of a digit-free part followed by at
most 18 digits, `tryParseStatefulVariable` returns what the specification says:
ok exactly when the token ends in a digit and its trailing run of digits denotes
a number of at least 1, with that number (at most 255) as level and the token
without the run as base, and not ok otherwise. -/
theorem tryParse_agrees_on_suffix_form (p ds : List Char)
    (hp : ∀ c ∈ p, isDigitRune c = false) (hd : ∀ c ∈ ds, isDigitRune c = true)
    (hlen : ds.length ≤ 18) (hne : p ++ ds ≠ []) :
    tryParseStatefulVariable (p ++ ds) = some (specStateful (p ++ ds)) ∧
    specStateful (p ++ ds) =
      (if ds ≠ [] ∧ 1 ≤ decimalValue ds then (p, min (decimalValue ds) 255, true)
       else ([], 0, false)) := by
  rw [specStateful_suffix_form p ds hp hd]
  exact ⟨tryParse_suffix_form p ds hp hd hlen hne, rfl⟩

/-- C9 as amended, at the token `S300`. -/
theorem tryParse_agrees_on_suffix_form_witness :
    tryParseStatefulVariable ("S".toList ++ "300".toList)
        = some (specStateful ("S".toList ++ "300".toList)) ∧
    specStateful ("S".toList ++ "300".toList) =
      (if "300".toList ≠ [] ∧ 1 ≤ decimalValue "300".toList
       then ("S".toList, min (decimalValue "300".toList) 255, true)
       else ([], 0, false)) :=
  tryParse_agrees_on_suffix_form "S".toList "300".toList (by decide) (by decide) (by decide)
    (by decide)

/-! ## Sequential assignment -/

theorem seqTB_append (ts us : List Token) : ∀ (tb : TokenMap TokenStateId) (i : Nat),
    seqTB tb i (ts ++ us) = seqTB (seqTB tb i ts) (i + ts.length) us := by
  induction ts with
  | nil => intro tb i; rfl
  | cons t ts ih =>
    intro tb i
    show seqTB (tb.set t i) (i + 1) (ts ++ us)
      = seqTB (seqTB (tb.set t i) (i + 1) ts) (i + (ts.length + 1)) us
    rw [ih, show i + 1 + ts.length = i + (ts.length + 1) by omega]

theorem seqAt_append {α : Type} (xs ys : List α) : ∀ (a : Nat → α) (i : Nat),
    seqAt a i (xs ++ ys) = seqAt (seqAt a i xs) (i + xs.length) ys := by
  induction xs with
  | nil => intro a i; rfl
  | cons x xs ih =>
    intro a i
    show seqAt (setAt a i x) (i + 1) (xs ++ ys)
      = seqAt (seqAt (setAt a i x) (i + 1) xs) (i + (xs.length + 1)) ys
    rw [ih, show i + 1 + xs.length = i + (xs.length + 1) by omega]

theorem seqTB_not_mem (ts : List Token) (t : Token) (h : t ∉ ts) :
    ∀ (tb : TokenMap TokenStateId) (i : Nat), seqTB tb i ts t = tb t := by
  induction ts with
  | nil => intro tb i; rfl
  | cons u ts ih =>
    intro tb i
    simp only [List.mem_cons, not_or] at h
    simp only [seqTB]
    rw [ih h.2]
    simp [TokenMap.set, h.1]

/-- Every key of the list is bound to the position of one of its occurrences. -/
theorem seqTB_mem (ts : List Token) (t : Token) (h : t ∈ ts) :
    ∀ (tb : TokenMap TokenStateId) (i : Nat),
      ∃ idx, idx < ts.length ∧ ts.get? idx = some t ∧ seqTB tb i ts t = some (i + idx) := by
  induction ts with
  | nil => cases h
  | cons u ts ih =>
    intro tb i
    by_cases hin : t ∈ ts
    · obtain ⟨idx, h1, h2, h3⟩ := ih hin (tb.set u i) (i + 1)
      refine ⟨idx + 1, by simpa using h1, by simpa using h2, ?_⟩
      simp only [seqTB]
      rw [h3]
      congr 1
      omega
    · have hu : t = u := by
        rcases List.mem_cons.1 h with h | h
        · exact h
        · exact absurd h hin
      refine ⟨0, by simp, by simp [hu], ?_⟩
      simp only [seqTB]
      rw [seqTB_not_mem ts t hin]
      simp [TokenMap.set, hu]

theorem seqTB_range (ts : List Token) (t : Token) :
    ∀ (tb : TokenMap TokenStateId) (i n : Nat), seqTB tb i ts t = some n →
      tb t = some n ∨ (i ≤ n ∧ n < i + ts.length) := by
  intro tb i n h
  by_cases hin : t ∈ ts
  · obtain ⟨idx, h1, _, h3⟩ := seqTB_mem ts t hin tb i
    rw [h3] at h
    simp only [Option.some.injEq] at h
    right
    omega
  · rw [seqTB_not_mem ts t hin] at h
    exact Or.inl h

theorem seqTB_nodup (ts : List Token) (hnd : ts.Nodup) (idx : Nat) (t : Token)
    (hget : ts.get? idx = some t) (tb : TokenMap TokenStateId) (i : Nat) :
    seqTB tb i ts t = some (i + idx) := by
  have hmem : t ∈ ts := List.get?_mem hget
  obtain ⟨idx2, h1, h2, h3⟩ := seqTB_mem ts t hmem tb i
  have : idx2 = idx := by
    have hidx : idx < ts.length := by
      by_contra hc
      rw [List.get?_eq_none.2 (by omega)] at hget
      cases hget
    rw [List.get?_eq_get h1] at h2
    rw [List.get?_eq_get hidx] at hget
    have e : ts.get ⟨idx2, h1⟩ = ts.get ⟨idx, hidx⟩ := by
      simp only [Option.some.injEq] at h2 hget
      rw [h2, hget]
    have := (List.Nodup.get_inj_iff hnd).1 e
    simpa using this
  rw [h3, this]

theorem seqAt_outside {α : Type} (xs : List α) : ∀ (a : Nat → α) (i n : Nat),
    (n < i ∨ i + xs.length ≤ n) → seqAt a i xs n = a n := by
  induction xs with
  | nil => intro a i n _; rfl
  | cons x xs ih =>
    intro a i n h
    simp only [seqAt]
    rw [ih _ _ _ (by simp only [List.length_cons] at h; omega)]
    have : n ≠ i := by simp only [List.length_cons] at h; omega
    simp [setAt, this]

theorem seqAt_inside {α : Type} (xs : List α) : ∀ (a : Nat → α) (i idx : Nat) (x : α),
    xs.get? idx = some x → seqAt a i xs (i + idx) = x := by
  induction xs with
  | nil => intro a i idx x h; cases h
  | cons y xs ih =>
    intro a i idx x h
    simp only [seqAt]
    cases idx with
    | zero =>
      simp only [List.get?_cons_zero, Option.some.injEq] at h
      rw [seqAt_outside _ _ _ _ (by omega)]
      simp [setAt, h]
    | succ k =>
      simp only [List.get?_cons_succ] at h
      have := ih (setAt a i y) (i + 1) k x h
      rw [← this]
      congr 1
      omega

/-! ## The loops of encodeTokens -/

theorem tryParse_isSome (t : Token) (h : t ≠ []) : ∃ r, tryParseStatefulVariable t = some r := by
  rcases List.eq_nil_or_concat t with hn | ⟨L, c, hL⟩
  · exact absurd hn h
  · unfold tryParseStatefulVariable
    rw [hL, List.concat_eq_append, List.getLast?_concat]
    simp only
    split
    · exact ⟨_, rfl⟩
    · split
      · exact ⟨_, rfl⟩
      · exact ⟨_, rfl⟩

theorem assignPlain_eq (s : EncodeState) (t : Token) (h : s.i < 255) :
    assignPlain s t = some { s with
      TokenBytes := s.TokenBytes.set t s.i
      BytesToken := setAt s.BytesToken s.i t
      i := s.i + 1 } := by
  unfold assignPlain
  simp only [NewTokenStateId, Bool.false_eq_true, if_false, tableSize, h, if_true]
  rw [Nat.mod_eq_of_lt (by omega)]

theorem encodeConstants_eq (ts : List Token) : ∀ (s : EncodeState), s.i + ts.length ≤ 255 →
    encodeConstants ts s = some { s with
      TokenBytes := seqTB s.TokenBytes s.i ts
      BytesToken := seqAt s.BytesToken s.i ts
      i := s.i + ts.length } := by
  induction ts with
  | nil => intro s _; rfl
  | cons t ts ih =>
    intro s h
    simp only [List.length_cons] at h
    simp only [encodeConstants, assignPlain_eq s t (by omega), Option.some_bind]
    rw [ih _ (by simp only; omega)]
    simp only [seqTB, seqAt, List.length_cons, Option.some.injEq, EncodeState.mk.injEq, true_and,
      and_true]
    omega

theorem encodeVariables_eq (ts : List Token) (hne : ∀ v ∈ ts, v ≠ []) :
    ∀ (s : EncodeState), s.i + ts.length ≤ 255 →
    encodeVariables ts s = some { s with
      statefulVarParams := statefulMapFrom ts s.statefulVarParams
      TokenBytes := seqTB s.TokenBytes s.i ts
      BytesToken := seqAt s.BytesToken s.i ts
      i := s.i + ts.length } := by
  induction ts with
  | nil => intro s _; rfl
  | cons t ts ih =>
    intro s h
    simp only [List.length_cons] at h
    obtain ⟨⟨b, n, ok⟩, hr⟩ := tryParse_isSome t (hne t (List.mem_cons_self _ _))
    have ih2 := ih (fun v hv => hne v (List.mem_cons_of_mem _ hv))
    cases ok with
    | false =>
      simp only [encodeVariables, encodeVariable, hr, Bool.false_eq_true, if_false,
        assignPlain_eq s t (by omega), Option.some_bind]
      rw [ih2 _ (by simp only; omega)]
      simp only [seqTB, seqAt, List.length_cons, statefulMapFrom, hr, Option.some.injEq,
        EncodeState.mk.injEq, true_and, and_true]
      omega
    | true =>
      simp only [encodeVariables, encodeVariable, hr, if_true]
      rw [assignPlain_eq _ t (by simp only; omega)]
      simp only [Option.some_bind]
      rw [ih2 _ (by simp only; omega)]
      simp only [seqTB, seqAt, List.length_cons, statefulMapFrom, hr, Option.some.injEq,
        EncodeState.mk.injEq, true_and, and_true]
      omega

theorem encodeLevels_eq (b : Token) (bid : Nat) (ks : List Nat) :
    ∀ (s : EncodeState), s.j + ks.length ≤ 127 →
    ∃ ptb, encodeLevels b bid ks s = some { s with
      TokenBytes := seqTB s.TokenBytes (128 + s.j) (ks.map fun k => b ++ Itoa k)
      BytesToken := seqAt s.BytesToken (128 + s.j) (ks.map fun k => b ++ Itoa k)
      ParamToByte := ptb
      Params := seqAt s.Params s.j (ks.map fun k => k % 256)
      j := s.j + ks.length } := by
  induction ks with
  | nil => intro s _; exact ⟨s.ParamToByte, rfl⟩
  | cons k ks ih =>
    intro s h
    simp only [List.length_cons] at h
    have h1 : NewTokenStateId (s.j % 256) true = 128 + s.j := by
      simp only [NewTokenStateId, if_true]
      omega
    have hstep : encodeLevel b bid s k = some { s with
        TokenBytes := s.TokenBytes.set (b ++ Itoa k) (128 + s.j)
        BytesToken := setAt s.BytesToken (128 + s.j) (b ++ Itoa k)
        ParamToByte := setAt s.ParamToByte (128 + s.j) bid
        Params := setAt s.Params s.j (k % 256)
        j := s.j + 1 } := by
      unfold encodeLevel
      simp only [h1, tableSize, paramsSize]
      rw [if_pos (by omega)]
    obtain ⟨ptb, hrest⟩ := ih { s with
        TokenBytes := s.TokenBytes.set (b ++ Itoa k) (128 + s.j)
        BytesToken := setAt s.BytesToken (128 + s.j) (b ++ Itoa k)
        ParamToByte := setAt s.ParamToByte (128 + s.j) bid
        Params := setAt s.Params s.j (k % 256)
        j := s.j + 1 } (by simp only; omega)
    refine ⟨ptb, ?_⟩
    dsimp only at hrest
    have e1 : 128 + (s.j + 1) = 128 + s.j + 1 := by omega
    have e2 : s.j + 1 + ks.length = s.j + (ks.length + 1) := by omega
    simp only [encodeLevels, hstep, Option.some_bind, hrest, seqTB, seqAt, List.map_cons,
      List.length_cons, e1, e2]

theorem levelList_length_le (m : TokenMap Nat) (b : Token) (bs : List Token) :
    (levelList m bs).length ≤ (levelList m (b :: bs)).length := by
  simp [levelList]

theorem encodeFamilies_eq (order : List Token) :
    ∀ (s : EncodeState), s.j + (levelList s.statefulVarParams order).length ≤ 127 →
    ∃ ptb, encodeFamilies order s = some { s with
      TokenBytes := seqTB s.TokenBytes (128 + s.j)
        ((levelList s.statefulVarParams order).map Prod.fst)
      BytesToken := seqAt s.BytesToken (128 + s.j)
        ((levelList s.statefulVarParams order).map Prod.fst)
      ParamToByte := ptb
      Params := seqAt s.Params s.j ((levelList s.statefulVarParams order).map Prod.snd)
      j := s.j + (levelList s.statefulVarParams order).length } := by
  induction order with
  | nil => intro s _; exact ⟨s.ParamToByte, rfl⟩
  | cons b bs ih =>
    intro s h
    cases hm : s.statefulVarParams b with
    | none =>
      have hl : levelList s.statefulVarParams (b :: bs) = levelList s.statefulVarParams bs := by
        simp [levelList, hm]
      rw [hl] at h ⊢
      obtain ⟨ptb, hrest⟩ := ih s h
      refine ⟨ptb, ?_⟩
      simp only [encodeFamilies, encodeFamily, hm, Option.some_bind, hrest]
    | some M =>
      have hl : levelList s.statefulVarParams (b :: bs) =
          ((List.range' 1 M).map fun k => (b ++ Itoa k, k % 256))
            ++ levelList s.statefulVarParams bs := by
        simp [levelList, hm]
      rw [hl] at h ⊢
      simp only [List.length_append, List.length_map, List.length_range'] at h
      obtain ⟨ptb1, h1⟩ := encodeLevels_eq b (s.TokenBytes.at b) (List.range' 1 M) s
        (by simp only [List.length_range']; omega)
      simp only [List.length_range'] at h1
      obtain ⟨ptb, hrest⟩ := ih { s with
          TokenBytes := seqTB s.TokenBytes (128 + s.j) (List.map (fun k => b ++ Itoa k) (List.range' 1 M))
          BytesToken := seqAt s.BytesToken (128 + s.j) (List.map (fun k => b ++ Itoa k) (List.range' 1 M))
          ParamToByte := ptb1
          Params := seqAt s.Params s.j (List.map (fun k => k % 256) (List.range' 1 M))
          j := s.j + M } (by simp only; omega)
      refine ⟨ptb, ?_⟩
      dsimp only at hrest
      simp only [encodeFamilies, encodeFamily, hm, h1, Option.some_bind, hrest, List.map_append,
        List.map_map, List.length_append, List.length_map, List.length_range', seqTB_append,
        seqAt_append, Nat.add_assoc]
      rfl

/-! ## The tables that encodeTokens builds -/

theorem levelList_length (m : TokenMap Nat) (order : List Token) :
    (levelList m order).length = (order.map fun b => (m b).getD 0).sum := by
  induction order with
  | nil => rfl
  | cons b bs ih =>
    cases hm : m b with
    | none => simp [levelList, hm, ih]
    | some M => simp [levelList, hm, ih]

theorem levelNames_length (vars order : List Token) :
    (levelNames vars order).length = totalLevels vars order := by
  simp [levelNames, totalLevels, levelList_length]

theorem encodeAlphabet_eq (ptb0 : Nat → TokenStateId) (pr0 : Nat → Nat)
    (vars consts order : List Token) (hne : ∀ v ∈ vars, v ≠ [])
    (hsz : vars.length + consts.length ≤ 255) (hlv : totalLevels vars order ≤ 127) :
    ∃ s, encodeAlphabet ptb0 pr0 vars consts order = some (s, (plainIds vars consts).at []) ∧
      s.TokenBytes = allIds vars consts order ∧
      s.BytesToken = allNames vars consts order ∧
      s.Params = allParams pr0 vars order := by
  have h1 := encodeVariables_eq vars hne (EncodeState.init ptb0 pr0) (by simp [EncodeState.init]; omega)
  have h2 := encodeConstants_eq consts { EncodeState.init ptb0 pr0 with
      statefulVarParams := statefulMapFrom vars (EncodeState.init ptb0 pr0).statefulVarParams
      TokenBytes := seqTB (EncodeState.init ptb0 pr0).TokenBytes (EncodeState.init ptb0 pr0).i vars
      BytesToken := seqAt (EncodeState.init ptb0 pr0).BytesToken (EncodeState.init ptb0 pr0).i vars
      i := (EncodeState.init ptb0 pr0).i + vars.length } (by simp [EncodeState.init]; omega)
  have hl : (levelList (statefulMap vars) order).length ≤ 127 := by
    rw [levelList_length]; exact hlv
  obtain ⟨ptb, h3⟩ := encodeFamilies_eq order { EncodeState.init ptb0 pr0 with
      statefulVarParams := statefulMapFrom vars (EncodeState.init ptb0 pr0).statefulVarParams
      TokenBytes := seqTB (seqTB (EncodeState.init ptb0 pr0).TokenBytes (EncodeState.init ptb0 pr0).i vars)
        ((EncodeState.init ptb0 pr0).i + vars.length) consts
      BytesToken := seqAt (seqAt (EncodeState.init ptb0 pr0).BytesToken (EncodeState.init ptb0 pr0).i vars)
        ((EncodeState.init ptb0 pr0).i + vars.length) consts
      i := (EncodeState.init ptb0 pr0).i + vars.length + consts.length }
    (by simpa [EncodeState.init, statefulMap] using hl)
  dsimp only at h2 h3
  have e0 : (plainIds vars consts).at [] =
      (seqTB (seqTB (EncodeState.init ptb0 pr0).TokenBytes (EncodeState.init ptb0 pr0).i vars)
        ((EncodeState.init ptb0 pr0).i + vars.length) consts).at [] := by
    simp only [EncodeState.init, plainIds, seqTB_append, Nat.zero_add]
  simp only [encodeAlphabet, h1, h2, h3, Option.some_bind, Option.map_some', e0]
  refine ⟨_, rfl, ?_, ?_, ?_⟩
  · simp [EncodeState.init, allIds, plainIds, levelNames, statefulMap, seqTB_append]
  · simp [EncodeState.init, allNames, levelNames, statefulMap, seqAt_append]
  · simp [EncodeState.init, allParams, statefulMap]

theorem encodeRules_eq {W : Type} (tb : TokenMap TokenStateId) (hlt : ∀ t, tb.at t < tableSize)
    (rules : List (Token × ProductionRule W)) : ∀ br : Nat → ByteProductionRule W,
    encodeRules tb rules br = some (compileRules tb rules br) := by
  induction rules with
  | nil => intro br; rfl
  | cons r rules ih =>
    intro br
    obtain ⟨t, rule⟩ := r
    simp only [encodeRules, hlt t, if_true, compileRules]
    exact ih _

theorem plainIds_lt (vars consts : List Token) (t : Token) (n : Nat)
    (h : plainIds vars consts t = some n) : n < vars.length + consts.length := by
  rcases seqTB_range _ t _ 0 n h with h | h
  · cases h
  · simpa using h.2

theorem allIds_lt (vars consts order : List Token) (hsz : vars.length + consts.length ≤ 255)
    (hlv : totalLevels vars order ≤ 127) (t : Token) :
    (allIds vars consts order).at t < tableSize := by
  unfold TokenMap.at tableSize
  cases h : allIds vars consts order t with
  | none => simp
  | some n =>
    simp only [Option.getD_some]
    rcases seqTB_range _ t _ 128 n h with h | h
    · have := plainIds_lt vars consts t n h
      omega
    · rw [levelNames_length] at h
      omega

/-- `encodeTokens` returns when no variable is the empty token, at most 255
tokens are declared and at most 127 stateful levels are allocated, and then the
tables are the closed forms above. -/
theorem encodeTokens_eq {W : Type} (l : LSystem W) (order : List Token)
    (hne : ∀ v ∈ l.Variables, v ≠ [])
    (hsz : l.Variables.length + l.Constants.length ≤ 255)
    (hlv : totalLevels l.Variables order ≤ 127) :
    ∃ l2, l.encodeTokens order = some l2 ∧
      l2.TokenBytes = allIds l.Variables l.Constants order ∧
      l2.BytesToken = allNames l.Variables l.Constants order ∧
      l2.Params = allParams l.Params l.Variables order ∧
      l2.EmptyTokenId = (plainIds l.Variables l.Constants).at [] ∧
      l2.ByteRules = compileRules (allIds l.Variables l.Constants order) l.Rules
        (fun _ => { Weights := none }) ∧
      l2.MemPool = l.MemPool ∧ l2.Axiom = l.Axiom := by
  obtain ⟨s, h1, h2, h3, h4⟩ := encodeAlphabet_eq l.ParamToByte l.Params l.Variables l.Constants order hne hsz hlv
  have h5 := encodeRules_eq (W := W) s.TokenBytes
    (by rw [h2]; exact allIds_lt _ _ _ hsz hlv) l.Rules (fun _ => { Weights := none })
  simp only [LSystem.encodeTokens, h1, Option.some_bind, h5, Option.map_some']
  refine ⟨_, rfl, ?_⟩
  simp only [h2, h3, h4, and_self]

/-! ## Decimal names -/

theorem digitChar_toNat (m : Nat) (h : m < 10) : (Nat.digitChar m).toNat = 48 + m := by
  interval_cases m <;> rfl

theorem valueFrom_append (xs ys : List Char) (v : Nat) :
    valueFrom v (xs ++ ys) = valueFrom (valueFrom v xs) ys := by
  simp [valueFrom, List.foldl_append]

theorem toDigitsCore_spec : ∀ (fuel n : Nat) (acc : List Char), n < fuel →
    ∃ ds, Nat.toDigitsCore 10 fuel n acc = ds ++ acc ∧ ds ≠ [] ∧
      (∀ c ∈ ds, isDigitRune c = true) ∧ decimalValue ds = n := by
  intro fuel
  induction fuel with
  | zero => intro n acc h; omega
  | succ fuel ih =>
    intro n acc h
    have hd : (Nat.digitChar (n % 10)).toNat = 48 + n % 10 :=
      digitChar_toNat _ (Nat.mod_lt _ (by norm_num))
    have hdig : isDigitRune (Nat.digitChar (n % 10)) = true := by
      rw [isDigitRune_iff, hd]
      omega
    unfold Nat.toDigitsCore
    by_cases h0 : n / 10 = 0
    · simp only [h0, if_true]
      refine ⟨[Nat.digitChar (n % 10)], rfl, by simp, ?_, ?_⟩
      · intro c hc
        simp only [List.mem_singleton] at hc
        rw [hc]; exact hdig
      · simp only [decimalValue, List.foldl_cons, List.foldl_nil, hd]
        omega
    · simp only [h0, if_false]
      obtain ⟨ds, h1, _, h3, h4⟩ := ih (n / 10) (Nat.digitChar (n % 10) :: acc) (by omega)
      refine ⟨ds ++ [Nat.digitChar (n % 10)], by simp [h1], by simp, ?_, ?_⟩
      · intro c hc
        rcases List.mem_append.1 hc with hc | hc
        · exact h3 c hc
        · simp only [List.mem_singleton] at hc
          rw [hc]; exact hdig
      · rw [← valueFrom_zero, valueFrom_append, valueFrom_zero, h4]
        simp only [valueFrom, List.foldl_cons, List.foldl_nil, hd]
        omega

theorem Itoa_spec (k : Nat) :
    Itoa k ≠ [] ∧ (∀ c ∈ Itoa k, isDigitRune c = true) ∧ decimalValue (Itoa k) = k := by
  obtain ⟨ds, h1, h2, h3, h4⟩ := toDigitsCore_spec (k + 1) k [] (by omega)
  have : Itoa k = ds := by simpa [Itoa, Nat.toDigits] using h1
  rw [this]
  exact ⟨h2, h3, h4⟩

theorem Itoa_injective {j k : Nat} (h : Itoa j = Itoa k) : j = k := by
  rw [← (Itoa_spec j).2.2, ← (Itoa_spec k).2.2, h]

/-- A stateful name determines its digit-free base and its level. -/
theorem level_name_injective {b c : Token} {j k : Nat}
    (hb : ∀ x ∈ b, isDigitRune x = false) (hc : ∀ x ∈ c, isDigitRune x = false)
    (h : b ++ Itoa j = c ++ Itoa k) : b = c ∧ j = k := by
  obtain ⟨h1, h2⟩ := trailing_of_suffix_form b (Itoa j) hb (Itoa_spec j).2.1
  obtain ⟨h3, h4⟩ := trailing_of_suffix_form c (Itoa k) hc (Itoa_spec k).2.1
  rw [h] at h1 h2
  exact ⟨by rw [← h2, h4], Itoa_injective (by rw [← h1, h3])⟩

theorem scan_no_digit (t : List Char) : ∀ (st : Int × List Char),
    (∀ x ∈ st.2, isDigitRune x = false) →
    ∀ x ∈ (t.foldl scanRune st).2, isDigitRune x = false := by
  induction t with
  | nil => intro st h; simpa using h
  | cons c t ih =>
    intro st h
    simp only [List.foldl_cons]
    apply ih
    unfold scanRune
    split
    · exact h
    · rename_i hc
      split
      · intro x hx
        rcases List.mem_append.1 hx with hx | hx
        · exact h x hx
        · simp only [List.mem_singleton] at hx
          rw [hx]
          simpa using hc
      · exact h

/-- What `tryParseStatefulVariable` returns with `ok`: a digit-free base and a
level below 256. -/
theorem tryParse_ok_facts {t b : Token} {n : Nat}
    (h : tryParseStatefulVariable t = some (b, n, true)) :
    (∀ x ∈ b, isDigitRune x = false) ∧ n ≤ 255 := by
  unfold tryParseStatefulVariable at h
  split at h
  · cases h
  · split at h
    · simp at h
    · dsimp only at h
      split at h
      · simp at h
      · simp only [Option.some.injEq, Prod.mk.injEq, and_true] at h
        obtain ⟨h1, h2⟩ := h
        refine ⟨?_, ?_⟩
        · rw [← h1]
          exact scan_no_digit t (0, []) (by simp)
        · rw [← h2]
          omega

/-! ## The map of stateful bases -/

theorem recordLevel_apply (m : TokenMap Nat) (b : Token) (n : Nat) (x : Token) :
    recordLevel m b n x = if x = b then some (max n ((m b).getD n)) else m x := by
  unfold recordLevel
  by_cases hx : x = b
  · subst hx
    cases hm : m x with
    | none => simp [TokenMap.set, hm]
    | some M => simp [TokenMap.set, hm]
  · cases hm : m b with
    | none => simp [TokenMap.set, hm, hx]
    | some M => simp [TokenMap.set, hm, hx]

theorem statefulMapFrom_cons_ok {t c : Token} {n : Nat} (ts : List Token) (m : TokenMap Nat)
    (hp : tryParseStatefulVariable t = some (c, n, true)) :
    statefulMapFrom (t :: ts) m = statefulMapFrom ts (recordLevel m c n) := by
  simp only [statefulMapFrom, hp]

theorem statefulMapFrom_cons_no {t : Token} (ts : List Token) (m : TokenMap Nat)
    (hno : ∀ c n, tryParseStatefulVariable t ≠ some (c, n, true)) :
    statefulMapFrom (t :: ts) m = statefulMapFrom ts m := by
  simp only [statefulMapFrom]

theorem statefulKeysFrom_cons_ok {t c : Token} {n : Nat} (ts ks : List Token)
    (hp : tryParseStatefulVariable t = some (c, n, true)) :
    statefulKeysFrom (t :: ts) ks = statefulKeysFrom ts (if c ∈ ks then ks else ks ++ [c]) := by
  simp only [statefulKeysFrom, hp]

theorem statefulKeysFrom_cons_no {t : Token} (ts ks : List Token)
    (hno : ∀ c n, tryParseStatefulVariable t ≠ some (c, n, true)) :
    statefulKeysFrom (t :: ts) ks = statefulKeysFrom ts ks := by
  simp only [statefulKeysFrom]

theorem tryParse_ok_or_not (t : Token) :
    (∃ c n, tryParseStatefulVariable t = some (c, n, true)) ∨
    (∀ c n, tryParseStatefulVariable t ≠ some (c, n, true)) := by
  by_cases h : ∃ c n, tryParseStatefulVariable t = some (c, n, true)
  · exact Or.inl h
  · right
    intro c n hp
    exact h ⟨c, n, hp⟩

theorem statefulMapFrom_some (ts : List Token) : ∀ (m : TokenMap Nat) (b : Token) (M : Nat),
    statefulMapFrom ts m b = some M →
    m b = some M ∨ ∃ v ∈ ts, tryParseStatefulVariable v = some (b, M, true) := by
  induction ts with
  | nil => intro m b M h; exact Or.inl h
  | cons t ts ih =>
    intro m b M h
    rcases tryParse_ok_or_not t with ⟨c, n, hp⟩ | hno
    · rw [statefulMapFrom_cons_ok ts m hp] at h
      rcases ih _ b M h with h1 | ⟨v, hv, h2⟩
      · rw [recordLevel_apply] at h1
        by_cases hb : b = c
        · subst hb
          simp only [if_true, Option.some.injEq] at h1
          cases hm : m b with
          | none =>
            rw [hm] at h1
            simp only [Option.getD_none, max_self] at h1
            exact Or.inr ⟨t, List.mem_cons_self _ _, by rw [hp, h1]⟩
          | some M0 =>
            rw [hm] at h1
            simp only [Option.getD_some] at h1
            rcases Nat.le_total n M0 with hle | hle
            · left; rw [← h1, Nat.max_eq_right hle]
            · right
              exact ⟨t, List.mem_cons_self _ _, by rw [hp, ← h1, Nat.max_eq_left hle]⟩
        · simp only [hb, if_false] at h1
          exact Or.inl h1
      · exact Or.inr ⟨v, List.mem_cons_of_mem _ hv, h2⟩
    · rw [statefulMapFrom_cons_no ts m hno] at h
      rcases ih _ b M h with h1 | ⟨v, hv, h2⟩
      · exact Or.inl h1
      · exact Or.inr ⟨v, List.mem_cons_of_mem _ hv, h2⟩

theorem statefulMapFrom_mono (ts : List Token) : ∀ (m : TokenMap Nat) (b : Token) (M0 : Nat),
    m b = some M0 → ∃ M, statefulMapFrom ts m b = some M ∧ M0 ≤ M := by
  induction ts with
  | nil => intro m b M0 h; exact ⟨M0, h, le_refl _⟩
  | cons t ts ih =>
    intro m b M0 h
    rcases tryParse_ok_or_not t with ⟨c, n, hp⟩ | hno
    · rw [statefulMapFrom_cons_ok ts m hp]
      by_cases hb : b = c
      · subst hb
        obtain ⟨M, h1, h2⟩ := ih (recordLevel m b n) b (max n M0)
          (by rw [recordLevel_apply]; simp [h])
        exact ⟨M, h1, le_trans (le_max_right _ _) h2⟩
      · exact ih _ b M0 (by rw [recordLevel_apply]; simp [hb, h])
    · rw [statefulMapFrom_cons_no ts m hno]
      exact ih _ b M0 h

theorem statefulMapFrom_ge (ts : List Token) : ∀ (m : TokenMap Nat) (v b : Token) (n : Nat),
    v ∈ ts → tryParseStatefulVariable v = some (b, n, true) →
    ∃ M, statefulMapFrom ts m b = some M ∧ n ≤ M := by
  induction ts with
  | nil => intro m v b n hv; cases hv
  | cons t ts ih =>
    intro m v b n hv hp
    rcases tryParse_ok_or_not t with ⟨c, k, hpt⟩ | hno
    · rw [statefulMapFrom_cons_ok ts m hpt]
      rcases List.mem_cons.1 hv with hv | hv
      · subst hv
        rw [hp] at hpt
        simp only [Option.some.injEq, Prod.mk.injEq, and_true] at hpt
        obtain ⟨e1, e2⟩ := hpt
        subst e1 e2
        obtain ⟨M, h1, h2⟩ := statefulMapFrom_mono ts (recordLevel m b n) b
          (max n ((m b).getD n)) (by rw [recordLevel_apply]; simp)
        exact ⟨M, h1, le_trans (le_max_left _ _) h2⟩
      · exact ih _ v b n hv hp
    · rw [statefulMapFrom_cons_no ts m hno]
      rcases List.mem_cons.1 hv with hv | hv
      · subst hv
        exact absurd hp (hno b n)
      · exact ih _ v b n hv hp

theorem statefulKeysFrom_spec (ts : List Token) : ∀ (m : TokenMap Nat) (ks : List Token),
    (∀ b, b ∈ ks ↔ (m b).isSome = true) → ks.Nodup →
    (∀ b, b ∈ statefulKeysFrom ts ks ↔ (statefulMapFrom ts m b).isSome = true) ∧
      (statefulKeysFrom ts ks).Nodup := by
  induction ts with
  | nil => intro m ks h1 h2; exact ⟨h1, h2⟩
  | cons t ts ih =>
    intro m ks h1 h2
    rcases tryParse_ok_or_not t with ⟨c, n, hp⟩ | hno
    · rw [statefulMapFrom_cons_ok ts m hp, statefulKeysFrom_cons_ok ts ks hp]
      apply ih
      · intro b
        rw [recordLevel_apply]
        by_cases hc : c ∈ ks
        · simp only [hc, if_true]
          by_cases hb : b = c
          · subst hb; simp [hc]
          · simp [hb, h1 b]
        · simp only [hc, if_false, List.mem_append, List.mem_singleton]
          by_cases hb : b = c
          · subst hb; simp
          · simp [hb, h1 b]
      · by_cases hc : c ∈ ks
        · simpa [hc] using h2
        · simp only [hc, if_false]
          exact List.Nodup.append h2 (List.nodup_singleton c) (by simpa using hc)
    · rw [statefulMapFrom_cons_no ts m hno, statefulKeysFrom_cons_no ts ks hno]
      exact ih m ks h1 h2

theorem statefulKeys_spec (vars : List Token) :
    (∀ b, b ∈ statefulKeys vars ↔ (statefulMap vars b).isSome = true) ∧
      (statefulKeys vars).Nodup :=
  statefulKeysFrom_spec vars (fun _ => none) [] (by simp) List.nodup_nil

/-- The entries of `statefulVarParams`: the base is digit-free, the level is
that of a declared variable with this base and no such variable has a higher one. -/
theorem statefulMap_facts {vars : List Token} {b : Token} {M : Nat}
    (h : statefulMap vars b = some M) :
    (∀ x ∈ b, isDigitRune x = false) ∧ M ≤ 255 ∧
    (∃ v ∈ vars, tryParseStatefulVariable v = some (b, M, true)) ∧
    (∀ v ∈ vars, ∀ n, tryParseStatefulVariable v = some (b, n, true) → n ≤ M) := by
  rcases statefulMapFrom_some vars _ b M h with h1 | ⟨v, hv, hp⟩
  · cases h1
  · obtain ⟨h2, h3⟩ := tryParse_ok_facts hp
    refine ⟨h2, h3, ⟨v, hv, hp⟩, ?_⟩
    intro w hw n hpw
    obtain ⟨M2, h4, h5⟩ := statefulMapFrom_ge vars (fun _ => none) w b n hw hpw
    have : statefulMap vars b = some M2 := h4
    rw [h] at this
    cases this
    exact h5

/-! ## The allocation order of stateful names -/

theorem mem_levelList (m : TokenMap Nat) (order : List Token) (name : Token) (lv : Nat) :
    (name, lv) ∈ levelList m order ↔
      ∃ b ∈ order, ∃ M, m b = some M ∧ ∃ k, 1 ≤ k ∧ k ≤ M ∧ name = b ++ Itoa k ∧ lv = k % 256 := by
  induction order with
  | nil => simp [levelList]
  | cons c cs ih =>
    simp only [levelList, List.mem_append, ih, List.mem_cons]
    constructor
    · rintro (h | ⟨b, hb, M, hm, k, h1, h2, h3, h4⟩)
      · cases hm : m c with
        | none => rw [hm] at h; cases h
        | some M =>
          rw [hm] at h
          simp only [List.mem_map, List.mem_range'_1, Prod.mk.injEq] at h
          obtain ⟨k, ⟨h1, h2⟩, h3, h4⟩ := h
          exact ⟨c, Or.inl rfl, M, hm, k, h1, by omega, h3.symm, h4.symm⟩
      · exact ⟨b, Or.inr hb, M, hm, k, h1, h2, h3, h4⟩
    · rintro ⟨b, hb | hb, M, hm, k, h1, h2, h3, h4⟩
      · subst hb
        left
        rw [hm]
        simp only [List.mem_map, List.mem_range'_1, Prod.mk.injEq]
        exact ⟨k, ⟨h1, by omega⟩, h3.symm, h4.symm⟩
      · exact Or.inr ⟨b, hb, M, hm, k, h1, h2, h3, h4⟩

theorem mem_levelNames (vars order : List Token) (name : Token) :
    name ∈ levelNames vars order ↔
      ∃ b ∈ order, ∃ M, statefulMap vars b = some M ∧ ∃ k, 1 ≤ k ∧ k ≤ M ∧ name = b ++ Itoa k := by
  unfold levelNames
  simp only [List.mem_map, Prod.exists, exists_and_right, exists_eq_right, mem_levelList]
  constructor
  · rintro ⟨lv, b, hb, M, hm, k, h1, h2, h3, _⟩
    exact ⟨b, hb, M, hm, k, h1, h2, h3⟩
  · rintro ⟨b, hb, M, hm, k, h1, h2, h3⟩
    exact ⟨k % 256, b, hb, M, hm, k, h1, h2, h3, rfl⟩

/-- The levels of one base are allocated next to each other, in rising order. -/
theorem levelList_block (m : TokenMap Nat) (order : List Token) (b : Token) (M : Nat)
    (hb : b ∈ order) (hm : m b = some M) :
    ∃ off, ∀ k, 1 ≤ k → k ≤ M →
      (levelList m order).get? (off + (k - 1)) = some (b ++ Itoa k, k % 256) := by
  induction order with
  | nil => cases hb
  | cons c cs ih =>
    by_cases hc : b = c
    · subst hc
      refine ⟨0, ?_⟩
      intro k h1 h2
      simp only [levelList, hm, Nat.zero_add]
      have hlt : k - 1 < M := by omega
      rw [List.get?_eq_getElem?, List.getElem?_append_left (by simpa using hlt)]
      rw [List.getElem?_map, List.getElem?_range' 1 1 hlt]
      simp only [Option.map_some', Nat.one_mul]
      rw [show 1 + (k - 1) = k by omega]
    · have hb2 : b ∈ cs := by
        rcases List.mem_cons.1 hb with h | h
        · exact absurd h hc
        · exact h
      obtain ⟨off, hoff⟩ := ih hb2
      cases hmc : m c with
      | none =>
        refine ⟨off, ?_⟩
        intro k h1 h2
        simpa [levelList, hmc] using hoff k h1 h2
      | some Mc =>
        refine ⟨Mc + off, ?_⟩
        intro k h1 h2
        simp only [levelList, hmc]
        rw [List.get?_eq_getElem?, List.getElem?_append_right (by simp; omega)]
        simp only [List.length_map, List.length_range']
        rw [show Mc + off + (k - 1) - Mc = off + (k - 1) by omega, ← List.get?_eq_getElem?]
        exact hoff k h1 h2

theorem levelList_names_nodup (m : TokenMap Nat) (order : List Token) (hnd : order.Nodup)
    (hdf : ∀ b M, m b = some M → ∀ x ∈ b, isDigitRune x = false) :
    ((levelList m order).map Prod.fst).Nodup := by
  induction order with
  | nil => simp [levelList]
  | cons c cs ih =>
    obtain ⟨hc, hcs⟩ := List.nodup_cons.1 hnd
    simp only [levelList, List.map_append]
    apply List.Nodup.append _ (ih hcs)
    · intro name h1 h2
      simp only [List.mem_map, Prod.exists, exists_and_right, exists_eq_right, mem_levelList] at h2
      obtain ⟨_, b, hb, M, hm, k, _, _, h3, _⟩ := h2
      cases hmc : m c with
      | none => rw [hmc] at h1; simp at h1
      | some Mc =>
        rw [hmc] at h1
        simp only [List.map_map, List.mem_map, List.mem_range'_1, Function.comp] at h1
        obtain ⟨j, _, h4⟩ := h1
        have := (level_name_injective (hdf c Mc hmc) (hdf b M hm) (h4.trans h3)).1
        rw [this] at hc
        exact hc hb
    · cases hmc : m c with
      | none => simp
      | some Mc =>
        simp only [List.map_map]
        apply List.Nodup.map_on _ (List.nodup_range' 1 Mc)
        intro j _ k _ h
        simp only [Function.comp] at h
        exact (level_name_injective (hdf c Mc hmc) (hdf c Mc hmc) h).2

/-! ## Stateful families -/

/-- The ids, names and levels of one stateful family in the tables. -/
theorem stateful_family_facts (params : Nat → Nat) (vars consts order : List Token)
    (b : Token) (M : Nat)
    (hord : order.Perm (statefulKeys vars)) (hlv : totalLevels vars order ≤ 127)
    (hm : statefulMap vars b = some M) :
    ∃ off, ∀ k, 1 ≤ k → k ≤ M → off + (k - 1) < 127 ∧
      allIds vars consts order (b ++ Itoa k) = some (128 + (off + (k - 1))) ∧
      allNames vars consts order (128 + (off + (k - 1))) = b ++ Itoa k ∧
      allParams params vars order (off + (k - 1)) = k := by
  obtain ⟨hkeys, hnd⟩ := statefulKeys_spec vars
  have hb : b ∈ order := hord.mem_iff.2 ((hkeys b).2 (by rw [hm]; rfl))
  have hnd2 : order.Nodup := hord.nodup_iff.2 hnd
  obtain ⟨off, hoff⟩ := levelList_block (statefulMap vars) order b M hb hm
  have hnames := levelList_names_nodup (statefulMap vars) order hnd2
    (fun c Mc hc => (statefulMap_facts hc).1)
  refine ⟨off, ?_⟩
  intro k h1 h2
  have hget := hoff k h1 h2
  have hgn : (levelNames vars order).get? (off + (k - 1)) = some (b ++ Itoa k) := by
    simp only [levelNames, List.get?_eq_getElem?, List.getElem?_map] at hget ⊢
    rw [hget]; rfl
  have hgl : ((levelList (statefulMap vars) order).map Prod.snd).get? (off + (k - 1))
      = some (k % 256) := by
    simp only [List.get?_eq_getElem?, List.getElem?_map] at hget ⊢
    rw [hget]; rfl
  have hlt : off + (k - 1) < 127 := by
    have : off + (k - 1) < (levelNames vars order).length := by
      by_contra hc
      rw [List.get?_eq_none.2 (by omega)] at hgn
      cases hgn
    rw [levelNames_length] at this
    omega
  have hk : k % 256 = k := Nat.mod_eq_of_lt (by have := (statefulMap_facts hm).2.1; omega)
  refine ⟨hlt, ?_, ?_, ?_⟩
  · exact seqTB_nodup _ hnames _ _ hgn _ _
  · exact seqAt_inside _ _ _ _ _ hgn
  · have := seqAt_inside _ params 0 _ _ hgl
    rw [Nat.zero_add, hk] at this
    exact this

/-- The level recorded for a base is the highest level among the declared
variables with this base. -/
theorem statefulMap_of_max {vars : List Token} {b : Token} {M : Nat}
    (hmax : ∃ v ∈ vars, tryParseStatefulVariable v = some (b, M, true))
    (hle : ∀ v ∈ vars, ∀ n, tryParseStatefulVariable v = some (b, n, true) → n ≤ M) :
    statefulMap vars b = some M := by
  obtain ⟨v, hv, hp⟩ := hmax
  obtain ⟨M2, h1, h2⟩ := statefulMapFrom_ge vars (fun _ => none) v b M hv hp
  have h3 : statefulMap vars b = some M2 := h1
  obtain ⟨w, hw, hpw⟩ := (statefulMap_facts h3).2.2.1
  have := hle w hw M2 hpw
  rw [h3, show M2 = M by omega]

theorem TokenMap.at_of_some {m : TokenMap TokenStateId} {t : Token} {n : Nat} (h : m t = some n) :
    m.at t = n := by
  simp [TokenMap.at, h]

/-- C8: for a stateful base `b` whose highest level among the declared variables
is `M` (the entry of `statefulVarParams`, see `statefulMap_facts` and
`statefulMap_of_max`), `encodeTokens` (on at most 255 declared tokens, none of them an empty
variable, and at most 127 levels in all) returns and has allocated, for every
`k` from 1 to `M`, a stateful id for the name `b` followed by decimal `k`:
`TokenBytes` and `BytesToken` are inverse on it and `Params` at its index is `k`. -/
theorem encodeTokens_allocates_every_level {W : Type} (l : LSystem W) (order : List Token)
    (b : Token) (M : Nat)
    (hne : ∀ v ∈ l.Variables, v ≠ [])
    (hsz : l.Variables.length + l.Constants.length ≤ 255)
    (hord : order.Perm (statefulKeys l.Variables))
    (hlv : totalLevels l.Variables order ≤ 127)
    (hm : statefulMap l.Variables b = some M) :
    ∃ l2, l.encodeTokens order = some l2 ∧
      ∀ k, 1 ≤ k → k ≤ M →
        ∃ id : Nat, l2.TokenBytes (b ++ Itoa k) = some id ∧ HasParam id = true ∧ id < tableSize ∧
          l2.BytesToken id = b ++ Itoa k ∧ l2.Params (TokenId id) = k := by
  obtain ⟨l2, h1, h2, h3, h4, _⟩ := encodeTokens_eq l order hne hsz hlv
  obtain ⟨off, hoff⟩ := stateful_family_facts l.Params l.Variables l.Constants order b M hord hlv
    hm
  refine ⟨l2, h1, ?_⟩
  intro k hk1 hk2
  obtain ⟨hlt, e1, e2, e3⟩ := hoff k hk1 hk2
  refine ⟨128 + (off + (k - 1)), by rw [h2, e1], by simp [HasParam], by unfold tableSize; omega,
    by rw [h3, e2], ?_⟩
  have e4 : TokenId (128 + (off + (k - 1))) = off + (k - 1) := by
    simp only [TokenId]
    omega
  rw [h4, e4, e3]

/-- C8 at the test's grammar: base `S` with highest level 3. -/
theorem encodeTokens_allocates_every_level_witness :
    ∃ l2, counterFresh.encodeTokens ["S".toList] = some l2 ∧
      ∀ k, 1 ≤ k → k ≤ 3 →
        ∃ id : Nat, l2.TokenBytes ("S".toList ++ Itoa k) = some id ∧ HasParam id = true ∧
          id < tableSize ∧
          l2.BytesToken id = "S".toList ++ Itoa k ∧ l2.Params (TokenId id) = k :=
  encodeTokens_allocates_every_level counterFresh ["S".toList] "S".toList 3
    (by decide) (by decide) (by decide) (by decide) (by decide)

/-! ## Claims about the alphabet -/

theorem mapM_decode {α β : Type} (f : α → Option β) (xs : List α) (ys : List β)
    (h : List.Forall₂ (fun x y => f x = some y) xs ys) : xs.mapM f = some ys := by
  induction h with
  | nil => rfl
  | cons h1 _ ih => rw [List.mapM_cons, h1, ih]; rfl

theorem decode_encode_one {W : Type} (l2 : LSystem W) (vars consts order : List Token)
    (t : Token) (hsz : vars.length + consts.length ≤ 128) (hlv : totalLevels vars order ≤ 127)
    (h2 : l2.TokenBytes = allIds vars consts order)
    (h3 : l2.BytesToken = allNames vars consts order)
    (ht : t ∈ vars ∨ t ∈ consts ∨ t ∈ levelNames vars order) :
    l2.decodeByte (l2.TokenBytes.at t) = some t := by
  by_cases hlev : t ∈ levelNames vars order
  · obtain ⟨idx, h4, h5, h6⟩ := seqTB_mem _ t hlev (plainIds vars consts) 128
    rw [levelNames_length] at h4
    have hid : l2.TokenBytes.at t = 128 + idx := by
      rw [h2]; exact TokenMap.at_of_some h6
    have hname : l2.BytesToken (128 + idx) = t := by
      rw [h3]; exact seqAt_inside _ _ _ _ _ h5
    have hne : t ≠ [] := by
      obtain ⟨b, _, M, _, k, _, _, hk⟩ := (mem_levelNames vars order t).1 hlev
      rw [hk]
      intro hc
      exact (Itoa_spec k).1 (List.append_eq_nil.1 hc).2
    unfold LSystem.decodeByte
    rw [hid]
    simp only [tableSize, hname]
    rw [if_pos (by omega), if_pos hne]
  · have hmem : t ∈ vars ++ consts := by
      rcases ht with h | h | h
      · exact List.mem_append_left _ h
      · exact List.mem_append_right _ h
      · exact absurd h hlev
    obtain ⟨idx, h4, h5, h6⟩ := seqTB_mem _ t hmem (fun _ => none) 0
    rw [List.length_append] at h4
    have hid : l2.TokenBytes.at t = idx := by
      rw [h2]
      apply TokenMap.at_of_some
      unfold allIds
      rw [seqTB_not_mem _ t hlev]
      simpa [plainIds] using h6
    have hname : l2.BytesToken idx = t := by
      rw [h3]
      unfold allNames
      rw [seqAt_outside _ _ _ _ (by omega)]
      have := seqAt_inside _ (fun _ => ([] : Token)) 0 idx t h5
      simpa using this
    unfold LSystem.decodeByte
    rw [hid]
    simp only [tableSize, hname, NewTokenStateId, TokenId, Bool.false_eq_true, if_false]
    rw [if_pos (by omega), Nat.mod_eq_of_lt (by omega), hname]
    by_cases hnil : t = []
    · simp [hnil]
      omega
    · simp [hnil]

/-- C5: after `encodeTokens` on fewer than 128 declared tokens and fewer than 128
stateful levels, decoding the encoding of any list of declared tokens or
generated level names gives the list back. -/
theorem decode_encode_roundtrip {W : Type} (l : LSystem W) (order : List Token)
    (hne : ∀ v ∈ l.Variables, v ≠ [])
    (hsz : l.Variables.length + l.Constants.length < 128)
    (hlv : totalLevels l.Variables order < 128) :
    ∃ l2, l.encodeTokens order = some l2 ∧
      ∀ ts : List Token,
        (∀ t ∈ ts, t ∈ l.Variables ∨ t ∈ l.Constants ∨
          ∃ b ∈ order, ∃ M, statefulMap l.Variables b = some M ∧
            ∃ k, 1 ≤ k ∧ k ≤ M ∧ t = b ++ Itoa k) →
        l2.DecodeBytes (l2.EncodeTokens ts) = some ts := by
  obtain ⟨l2, h1, h2, h3, _⟩ := encodeTokens_eq l order hne (by omega) (by omega)
  refine ⟨l2, h1, ?_⟩
  intro ts hts
  unfold LSystem.DecodeBytes LSystem.EncodeTokens
  apply mapM_decode
  rw [List.forall₂_map_left_iff, List.forall₂_same]
  intro t ht
  apply decode_encode_one l2 l.Variables l.Constants order t (by omega) (by omega) h2 h3
  rcases hts t ht with h | h | h
  · exact Or.inl h
  · exact Or.inr (Or.inl h)
  · exact Or.inr (Or.inr ((mem_levelNames _ _ _).2 h))

/-- C5 at the test's grammar, on a list with plain tokens, the empty token and
level names, among them `S2`, which no rule mentions. -/
theorem decode_encode_roundtrip_witness :
    ∃ l2, counterFresh.encodeTokens ["S".toList] = some l2 ∧
      l2.DecodeBytes (l2.EncodeTokens ["L".toList, [], "S2".toList, "u".toList, "S3".toList])
        = some ["L".toList, [], "S2".toList, "u".toList, "S3".toList] := by
  obtain ⟨l2, h1, h2⟩ := decode_encode_roundtrip counterFresh ["S".toList]
    (by decide) (by decide) (by decide)
  refine ⟨l2, h1, h2 _ ?_⟩
  intro t ht
  simp only [List.mem_cons, List.mem_singleton, List.not_mem_nil, or_false] at ht
  rcases ht with h | h | h | h | h
  · subst h; exact Or.inl (by decide)
  · subst h; exact Or.inr (Or.inl (by decide))
  · subst h
    exact Or.inr (Or.inr ⟨"S".toList, by decide, 3, by decide, 2, by decide, by decide, by decide⟩)
  · subst h; exact Or.inr (Or.inl (by decide))
  · subst h; exact Or.inl (by decide)

theorem applyRulesOnce_single {W σ : Type} (choose : Chooser W σ) (l : LSystem W) (g : σ)
    (input out : Buffer) (t : Nat) (hin : input.content = some [t])
    (ht : l.lowerToken t < tableSize) :
    l.applyRulesOnce choose g input out =
      if (l.ByteRules (l.lowerToken t)).Weights.isNone then
        some (l, g, out.Append (l.lowerToken t))
      else
        some ({ l with
                ByteRules := setAt l.ByteRules (l.lowerToken t)
                  (choose (l.ByteRules (l.lowerToken t)) l.EmptyTokenId g).2.1 },
              (choose (l.ByteRules (l.lowerToken t)) l.EmptyTokenId g).2.2,
              out.AppendSlice (choose (l.ByteRules (l.lowerToken t)) l.EmptyTokenId g).1) := by
  simp only [LSystem.applyRulesOnce, hin, Option.some_bind, applyRulesFrom, ht, if_true,
    gt_iff_lt, Nat.lt_irrefl, if_false]

/-- C3: a stateful id allocated by `encodeTokens` for level `k > 1` of a base is
lowered by `applyRulesOnce` to the id allocated for level `k - 1` of the same
base: the rule is looked up under that id, and that id is emitted when it has
no rule. -/
theorem lowered_id_is_next_level {W σ : Type} (choose : Chooser W σ) (l : LSystem W)
    (order : List Token) (b : Token) (M k : Nat)
    (hne : ∀ v ∈ l.Variables, v ≠ [])
    (hsz : l.Variables.length + l.Constants.length ≤ 255)
    (hord : order.Perm (statefulKeys l.Variables))
    (hlv : totalLevels l.Variables order ≤ 127)
    (hm : statefulMap l.Variables b = some M) (hk1 : 1 < k) (hk2 : k ≤ M) :
    ∃ (l2 : LSystem W) (idk idl : Nat), l.encodeTokens order = some l2 ∧
      l2.TokenBytes (b ++ Itoa k) = some idk ∧ l2.TokenBytes (b ++ Itoa (k - 1)) = some idl ∧
      HasParam idk = true ∧ l2.Params (TokenId idk) = k ∧
      HasParam idl = true ∧ l2.Params (TokenId idl) = k - 1 ∧
      l2.lowerToken idk = idl ∧
      ∀ (g : σ) (input out : Buffer), input.content = some [idk] →
        l2.applyRulesOnce choose g input out =
          if (l2.ByteRules idl).Weights.isNone then some (l2, g, out.Append idl)
          else
            some ({ l2 with
                    ByteRules := setAt l2.ByteRules idl
                      (choose (l2.ByteRules idl) l2.EmptyTokenId g).2.1 },
                  (choose (l2.ByteRules idl) l2.EmptyTokenId g).2.2,
                  out.AppendSlice (choose (l2.ByteRules idl) l2.EmptyTokenId g).1) := by
  obtain ⟨l2, h1, h2, h3, h4, _⟩ := encodeTokens_eq l order hne hsz hlv
  obtain ⟨off, hoff⟩ := stateful_family_facts l.Params l.Variables l.Constants order b M hord hlv hm
  obtain ⟨hlt, e1, _, e3⟩ := hoff k (by omega) hk2
  obtain ⟨hlt2, f1, _, f3⟩ := hoff (k - 1) (by omega) (by omega)
  have e4 : TokenId (128 + (off + (k - 1))) = off + (k - 1) := by
    simp only [TokenId]; omega
  have f4 : TokenId (128 + (off + (k - 1 - 1))) = off + (k - 1 - 1) := by
    simp only [TokenId]; omega
  have hlow : l2.lowerToken (128 + (off + (k - 1))) = 128 + (off + (k - 1 - 1)) := by
    unfold LSystem.lowerToken
    rw [h4, e4, e3]
    simp only [HasParam, Nat.le_add_right, decide_True, Bool.true_and, gt_iff_lt, hk1,
      if_true]
    omega
  refine ⟨l2, 128 + (off + (k - 1)), 128 + (off + (k - 1 - 1)), h1, by rw [h2, e1],
    by rw [h2, f1], by simp [HasParam], by rw [h4, e4, e3], by simp [HasParam],
    by rw [h4, f4, f3], hlow, ?_⟩
  intro g input out hin
  rw [applyRulesOnce_single choose l2 g input out _ hin (by rw [hlow]; unfold tableSize; omega),
    hlow]

/-- C3 at the test's grammar: `S3` is lowered to `S2`. -/
theorem lowered_id_is_next_level_witness :
    ∃ (l2 : LSystem Nat) (idk idl : Nat), counterFresh.encodeTokens ["S".toList] = some l2 ∧
      l2.TokenBytes ("S".toList ++ Itoa 3) = some idk ∧
      l2.TokenBytes ("S".toList ++ Itoa (3 - 1)) = some idl ∧
      HasParam idk = true ∧ l2.Params (TokenId idk) = 3 ∧
      HasParam idl = true ∧ l2.Params (TokenId idl) = 3 - 1 ∧
      l2.lowerToken idk = idl ∧
      ∀ (g : Unit) (input out : Buffer), input.content = some [idk] →
        l2.applyRulesOnce firstAlternative g input out =
          if (l2.ByteRules idl).Weights.isNone then some (l2, g, out.Append idl)
          else
            some ({ l2 with
                    ByteRules := setAt l2.ByteRules idl
                      (firstAlternative (l2.ByteRules idl) l2.EmptyTokenId g).2.1 },
                  (firstAlternative (l2.ByteRules idl) l2.EmptyTokenId g).2.2,
                  out.AppendSlice (firstAlternative (l2.ByteRules idl) l2.EmptyTokenId g).1) :=
  lowered_id_is_next_level firstAlternative counterFresh ["S".toList] "S".toList 3 3
    (by decide) (by decide) (by decide) (by decide) (by decide) (by decide) (by decide)

/-- C6 fails as stated: with variables `A`, `B`, `C` and no constant (the sets of
the grammar `A: 1 *B C`, where every alternative has a catalyst), no id is
reserved and `EmptyTokenId` is 0, the id of the declared variable `A`. -/
theorem sentinel_id_counterexample :
    ((freshLSystem (W := Nat) "A".toList [] ["A".toList, "B".toList, "C".toList] [] false
        1).encodeTokens []).map (fun l2 => (l2.EmptyTokenId, l2.TokenBytes "A".toList))
      = some (0, some 0) := by
  decide

/-- C6 as amended: when the empty token is among the declared constants and at
most 128 tokens are declared, `encodeTokens` returns and `EmptyTokenId` differs
from the id of every declared non-empty token and of every generated level name. -/
theorem sentinel_id_distinct {W : Type} (l : LSystem W) (order : List Token)
    (hne : ∀ v ∈ l.Variables, v ≠ [])
    (hempty : [] ∈ l.Constants)
    (hsz : l.Variables.length + l.Constants.length ≤ 128)
    (hlv : totalLevels l.Variables order ≤ 127) :
    ∃ l2, l.encodeTokens order = some l2 ∧
      ∀ t : Token, t ≠ [] →
        (t ∈ l.Variables ∨ t ∈ l.Constants ∨ t ∈ levelNames l.Variables order) →
        l2.TokenBytes.at t ≠ l2.EmptyTokenId := by
  obtain ⟨l2, h1, h2, _, _, h5, _⟩ := encodeTokens_eq l order hne (by omega) hlv
  refine ⟨l2, h1, ?_⟩
  intro t htne ht
  obtain ⟨i0, a1, a2, a3⟩ := seqTB_mem (l.Variables ++ l.Constants) []
    (List.mem_append_right _ hempty) (fun _ => none) 0
  rw [List.length_append] at a1
  have he : l2.EmptyTokenId = i0 := by
    rw [h5]
    apply TokenMap.at_of_some
    simpa [plainIds] using a3
  rw [he, h2]
  by_cases hlev : t ∈ levelNames l.Variables order
  · obtain ⟨idx, _, _, b3⟩ := seqTB_mem _ t hlev (plainIds l.Variables l.Constants) 128
    have : (allIds l.Variables l.Constants order).at t = 128 + idx := TokenMap.at_of_some b3
    omega
  · have hmem : t ∈ l.Variables ++ l.Constants := by
      rcases ht with h | h | h
      · exact List.mem_append_left _ h
      · exact List.mem_append_right _ h
      · exact absurd h hlev
    obtain ⟨idx, _, c2, c3⟩ := seqTB_mem _ t hmem (fun _ => none) 0
    have hid : (allIds l.Variables l.Constants order).at t = idx := by
      apply TokenMap.at_of_some
      unfold allIds
      rw [seqTB_not_mem _ t hlev]
      simpa [plainIds] using c3
    rw [hid]
    intro hc
    rw [hc, a2] at c2
    simp only [Option.some.injEq] at c2
    exact htne c2.symm

/-- C6 as amended, at the test's grammar. -/
theorem sentinel_id_distinct_witness :
    ∃ l2, counterFresh.encodeTokens ["S".toList] = some l2 ∧
      ∀ t : Token, t ≠ [] →
        (t ∈ counterFresh.Variables ∨ t ∈ counterFresh.Constants ∨
          t ∈ levelNames counterFresh.Variables ["S".toList]) →
        l2.TokenBytes.at t ≠ l2.EmptyTokenId :=
  sentinel_id_distinct counterFresh ["S".toList] (by decide) (by decide) (by decide) (by decide)

/-- C7 fails as stated: no failure is reported for the undeclared name `Q`;
`EncodeTokens` maps it to id 0, the id of the declared token `Seed`, and with
`Q` as axiom `NewLSystem` returns a system whose generation is `[0]`. -/
theorem undeclared_name_counterexample :
    counterSystem.map (fun l => (l.EncodeTokens ["Q".toList], l.EncodeTokens ["Seed".toList]))
      = some ([0], [0]) ∧
    (NewLSystem "Q".toList counterRules counterVars counterConsts false 1 ["S".toList]).bind
      (fun l => (l.MemPool.GetReadBuffer 0).bind Buffer.content) = some [0] := by
  decide

/-- C7 as amended: an undeclared name is not reported; `EncodeTokens` maps it to
id 0, the zero value of the map read, and as the axiom it makes `Reset` start
the run from id 0. -/
theorem undeclared_name_reads_zero {W : Type} (l : LSystem W) (order : List Token) (t : Token)
    (hne : ∀ v ∈ l.Variables, v ≠ [])
    (hsz : l.Variables.length + l.Constants.length ≤ 255)
    (hlv : totalLevels l.Variables order ≤ 127)
    (hv : t ∉ l.Variables) (hc : t ∉ l.Constants) (hn : t ∉ levelNames l.Variables order) :
    ∃ l2, l.encodeTokens order = some l2 ∧ l2.EncodeTokens [t] = [0] ∧
      (l.Axiom = t → l.MemPool.lanes ≠ [] →
        ∃ l3, l2.Reset = some l3 ∧
          (l3.MemPool.GetReadBuffer 0).bind Buffer.content = some [0]) := by
  obtain ⟨l2, h1, h2, _, _, _, _, h7, h8⟩ := encodeTokens_eq l order hne hsz hlv
  have hid : l2.TokenBytes.at t = 0 := by
    rw [h2]
    unfold allIds TokenMap.at
    rw [seqTB_not_mem _ t hn]
    unfold plainIds
    rw [seqTB_not_mem _ t (by simp [hv, hc])]
    rfl
  refine ⟨l2, h1, by simp [LSystem.EncodeTokens, hid], ?_⟩
  intro hax hl
  rw [← h7] at hl
  rw [← h8] at hax
  cases hlanes : l2.MemPool.lanes with
  | nil => exact absurd hlanes hl
  | cons ln rest =>
    simp only [LSystem.Reset, MemPool.Reset, hlanes, MemPool.GetReadBuffer, List.map_cons,
      List.get?_cons_zero, Option.map_some', hax, hid, MemPool.setRead,
      List.modify, List.modifyHead, Option.some_bind]
    refine ⟨_, rfl, ?_⟩
    simp [Buffer.content, Buffer.slice, Buffer.Append, Buffer.empty]

/-- C7 as amended, at the test's grammar with the undeclared axiom `Q`. -/
theorem undeclared_name_reads_zero_witness :
    ∃ l2, (freshLSystem "Q".toList counterRules counterVars counterConsts false 1).encodeTokens
        ["S".toList] = some l2 ∧ l2.EncodeTokens ["Q".toList] = [0] ∧
      ((freshLSystem "Q".toList counterRules counterVars counterConsts false 1).Axiom = "Q".toList →
        (freshLSystem "Q".toList counterRules counterVars counterConsts false 1).MemPool.lanes ≠ [] →
        ∃ l3, l2.Reset = some l3 ∧
          (l3.MemPool.GetReadBuffer 0).bind Buffer.content = some [0]) :=
  undeclared_name_reads_zero
    (freshLSystem "Q".toList counterRules counterVars counterConsts false 1) ["S".toList]
    "Q".toList (by decide) (by decide) (by decide) (by decide) (by decide) (by decide)

/-- C10 fails as stated: in the test's grammar `S` is not a declared variable,
yet `S3` and `S1` make `S` a stateful base and the names `S1`, `S2`, `S3` get the
stateful ids 128, 129, 130. -/
theorem stateful_without_declared_base_counterexample :
    "S".toList ∉ counterFresh.Variables ∧
    (counterFresh.encodeTokens ["S".toList]).map
      (fun l2 => ["S1".toList, "S2".toList, "S3".toList].map l2.TokenBytes.at)
      = some [128, 129, 130] := by
  decide

/-- C10 as amended: every declared variable that `tryParseStatefulVariable`
accepts, with base `b` and level `n`, makes `encodeTokens` allocate stateful ids
for the names `b1` to `bn`, whether or not `b` is itself a declared variable;
and, with at most 128 declared tokens, a name has a stateful id only if it is
such a level name of a base taken from an accepted declared variable. -/
theorem stateful_ids_follow_detection {W : Type} (l : LSystem W) (order : List Token)
    (hne : ∀ v ∈ l.Variables, v ≠ [])
    (hsz : l.Variables.length + l.Constants.length ≤ 255)
    (hord : order.Perm (statefulKeys l.Variables))
    (hlv : totalLevels l.Variables order ≤ 127) :
    ∃ l2, l.encodeTokens order = some l2 ∧
      (∀ v ∈ l.Variables, ∀ (b : Token) (n : Nat),
        tryParseStatefulVariable v = some (b, n, true) →
        ∀ k, 1 ≤ k → k ≤ n →
          ∃ id : Nat, l2.TokenBytes (b ++ Itoa k) = some id ∧ HasParam id = true) ∧
      (l.Variables.length + l.Constants.length ≤ 128 →
        ∀ t : Token, HasParam (l2.TokenBytes.at t) = true →
          ∃ v ∈ l.Variables, ∃ (b : Token) (n k : Nat),
            tryParseStatefulVariable v = some (b, n, true) ∧ 1 ≤ k ∧ k ≤ n ∧ t = b ++ Itoa k) := by
  obtain ⟨l2, h1, h2, _⟩ := encodeTokens_eq l order hne hsz hlv
  refine ⟨l2, h1, ?_, ?_⟩
  · intro v hv b n hp k hk1 hk2
    obtain ⟨M, hm, hle⟩ := statefulMapFrom_ge l.Variables (fun _ => none) v b n hv hp
    obtain ⟨off, hoff⟩ := stateful_family_facts l.Params l.Variables l.Constants order b M hord hlv hm
    obtain ⟨_, e1, _⟩ := hoff k hk1 (by omega)
    exact ⟨128 + (off + (k - 1)), by rw [h2, e1], by simp [HasParam]⟩
  · intro hsz2 t ht
    by_cases hlev : t ∈ levelNames l.Variables order
    · obtain ⟨b, _, M, hm, k, hk1, hk2, hk3⟩ := (mem_levelNames _ _ _).1 hlev
      obtain ⟨v, hv, hp⟩ := (statefulMap_facts hm).2.2.1
      exact ⟨v, hv, b, M, k, hp, hk1, hk2, hk3⟩
    · exfalso
      rw [h2] at ht
      unfold allIds TokenMap.at at ht
      rw [seqTB_not_mem _ t hlev] at ht
      cases hp : plainIds l.Variables l.Constants t with
      | none => rw [hp] at ht; simp [HasParam] at ht
      | some n =>
        rw [hp] at ht
        have := plainIds_lt _ _ _ _ hp
        simp only [Option.getD_some, HasParam, decide_eq_true_eq] at ht
        omega

/-- C10 as amended, at the test's grammar, where `S` is not declared. -/
theorem stateful_ids_follow_detection_witness :
    ∃ l2, counterFresh.encodeTokens ["S".toList] = some l2 ∧
      (∀ v ∈ counterFresh.Variables, ∀ (b : Token) (n : Nat),
        tryParseStatefulVariable v = some (b, n, true) →
        ∀ k, 1 ≤ k → k ≤ n →
          ∃ id : Nat, l2.TokenBytes (b ++ Itoa k) = some id ∧ HasParam id = true) ∧
      (counterFresh.Variables.length + counterFresh.Constants.length ≤ 128 →
        ∀ t : Token, HasParam (l2.TokenBytes.at t) = true →
          ∃ v ∈ counterFresh.Variables, ∃ (b : Token) (n k : Nat),
            tryParseStatefulVariable v = some (b, n, true) ∧ 1 ≤ k ∧ k ≤ n ∧ t = b ++ Itoa k) :=
  stateful_ids_follow_detection counterFresh ["S".toList] (by decide) (by decide) (by decide)
    (by decide)

/-! ## Parsing the rules of the counter test -/

theorem digit_not_separator (c : Char) (h : isDigitRune c = true) :
    isSpace c = false ∧ c ≠ ';' ∧ c ≠ '\n' := by
  obtain ⟨h1, h2⟩ := (isDigitRune_iff c).1 h
  refine ⟨?_, ?_, ?_⟩
  · simp only [isSpace, Bool.or_eq_false_iff, Bool.and_eq_false_iff, decide_eq_false_iff_not]
    omega
  · intro hc; rw [hc] at h1 h2; revert h2; decide
  · intro hc; rw [hc] at h1 h2; revert h1; decide

theorem fieldsFrom_nospace (ds : List Char) (hd : ∀ c ∈ ds, isSpace c = false) :
    ∀ cur : List Char, cur ≠ [] → fieldsFrom ds cur = [cur ++ ds] := by
  induction ds with
  | nil => intro cur hc; simp [fieldsFrom, hc]
  | cons d ds ih =>
    intro cur hc
    have h1 := hd d (List.mem_cons_self _ _)
    simp only [fieldsFrom, h1, Bool.false_eq_true, if_false]
    rw [ih (fun c hc2 => hd c (List.mem_cons_of_mem _ hc2)) _ (by simp)]
    simp

theorem splitFrom_nosemi (s : List Char) (hs : ∀ c ∈ s, c ≠ ';') :
    ∀ cur : List Char, splitFrom s cur = [cur ++ s] := by
  induction s with
  | nil => intro cur; simp [splitFrom]
  | cons d ds ih =>
    intro cur
    have h1 := hs d (List.mem_cons_self _ _)
    simp only [splitFrom, h1, if_false]
    rw [ih (fun c hc2 => hs c (List.mem_cons_of_mem _ hc2))]
    simp

theorem removeNewlines_id (s : List Char) (hs : ∀ c ∈ s, c ≠ '\n') : removeNewlines s = s := by
  unfold removeNewlines
  rw [List.filter_eq_self]
  intro c hc
  simpa using hs c hc

theorem TrimSpace_ne_nil (c : Char) (s : List Char) (hc : isSpace c = false) :
    TrimSpace (c :: s) ≠ [] := by
  unfold TrimSpace
  simp only [List.dropWhile_cons, hc, Bool.false_eq_true, if_false, ne_eq,
    List.reverse_eq_nil_iff]
  rw [List.reverse_cons]
  intro h
  have h2 : ∀ x ∈ s.reverse ++ [c], isSpace x = true := by
    intro x hx
    by_contra hn
    have := List.dropWhile_eq_nil_iff.1 h x hx
    exact hn this
  have := h2 c (by simp)
  rw [hc] at this
  cases this


theorem parseGroup_plain {W : Type} (pf : List Char → Option W) (w : W) (group t0 t1 : List Char)
    (c : Char) (rest : List (List Char))
    (htrim : TrimSpace group ≠ []) (hf : Fields group = t0 :: (c :: t1) :: rest)
    (hpf : pf t0 = some w) (hc : c ≠ '*') :
    parseGroup pf group
      = some (some { Probability := w, Catalyst := [], Tokens := (c :: t1) :: rest }) := by
  simp only [parseGroup, htrim, if_false, hf, hpf, hc, symbolsToTokens]

theorem parseRule_single {W : Type} (pf : List Char → Option W) (s grp : List Char)
    (wr : WeightedRule W) (h1 : splitFrom (removeNewlines s) [] = [grp])
    (h2 : parseGroup pf grp = some (some wr)) : ParseRule pf s = some [wr] := by
  unfold ParseRule
  rw [h1]
  unfold parseGroups
  rw [h2]
  rfl

theorem parseRule_text_L {W : Type} (pf : List Char → Option W) (w : W)
    (hpf : pf "1".toList = some w) :
    ParseRule pf "1 L".toList = some [{ Probability := w, Catalyst := [], Tokens := ["L".toList] }] := by
  have h1 : splitFrom (removeNewlines "1 L".toList) [] = ["1 L".toList] := by decide
  have h2 := parseGroup_plain pf w "1 L".toList "1".toList [] 'L' [] (by decide) (by decide) hpf
    (by decide)
  exact parseRule_single pf _ _ _ h1 h2

theorem parseRule_text_X {W : Type} (pf : List Char → Option W) (w : W)
    (hpf : pf "1".toList = some w) :
    ParseRule pf "1 X".toList = some [{ Probability := w, Catalyst := [], Tokens := ["X".toList] }] := by
  have h1 : splitFrom (removeNewlines "1 X".toList) [] = ["1 X".toList] := by decide
  have h2 := parseGroup_plain pf w "1 X".toList "1".toList [] 'X' [] (by decide) (by decide) hpf
    (by decide)
  exact parseRule_single pf _ _ _ h1 h2

theorem parseRule_text_seed {W : Type} (pf : List Char → Option W) (w : W)
    (hpf : pf "1".toList = some w) (M : Nat) :
    ParseRule pf ("1 L u S".toList ++ Itoa M) =
      some [{ Probability := w, Catalyst := [],
              Tokens := ["L".toList, "u".toList, "S".toList ++ Itoa M] }] := by
  have hd := (Itoa_spec M).2.1
  have hsep : ∀ c ∈ "1 L u S".toList ++ Itoa M, c ≠ ';' ∧ c ≠ '\n' := by
    intro c hc
    have hpre : ∀ c ∈ "1 L u S".toList, c ≠ ';' ∧ c ≠ '\n' := by decide
    rcases List.mem_append.1 hc with h | h
    · exact hpre c h
    · exact (digit_not_separator c (hd c h)).2
  have h1 : splitFrom (removeNewlines ("1 L u S".toList ++ Itoa M)) []
      = ["1 L u S".toList ++ Itoa M] := by
    rw [removeNewlines_id _ (fun c hc => (hsep c hc).2), splitFrom_nosemi _ (fun c hc => (hsep c hc).1)]
    rfl
  have hf : Fields ("1 L u S".toList ++ Itoa M)
      = "1".toList :: ('L' :: []) :: ["u".toList, "S".toList ++ Itoa M] := by
    have e : "1 L u S".toList ++ Itoa M
        = '1' :: ' ' :: 'L' :: ' ' :: 'u' :: ' ' :: 'S' :: Itoa M := rfl
    have hs : isSpace ' ' = true := by decide
    have h1 : isSpace '1' = false := by decide
    have hL : isSpace 'L' = false := by decide
    have hu : isSpace 'u' = false := by decide
    have hS : isSpace 'S' = false := by decide
    rw [e]
    simp only [Fields, fieldsFrom, hs, h1, hL, hu, hS, if_true, if_false, Bool.false_eq_true,
      List.nil_append, List.cons_ne_nil]
    rw [fieldsFrom_nospace _ (fun c hc => (digit_not_separator c (hd c hc)).1) _ (by simp)]
    rfl
  have h2 := parseGroup_plain pf w ("1 L u S".toList ++ Itoa M) "1".toList [] 'L'
    ["u".toList, "S".toList ++ Itoa M] (TrimSpace_ne_nil '1' _ (by decide)) hf hpf (by decide)
  exact parseRule_single pf _ _ _ h1 h2

/-! ## What ParseRules returns -/

theorem indexWeights_eq {W : Type} (ws : List (WeightedRule W)) :
    ∀ sets : List Token × List Token,
    ws.foldl (fun acc wt => wt.Tokens.foldl indexToken (indexToken acc wt.Catalyst)) sets
      = (ws.flatMap fun wt => wt.Catalyst :: wt.Tokens).foldl indexToken sets := by
  induction ws with
  | nil => intro sets; rfl
  | cons wt ws ih =>
    intro sets
    simp only [List.foldl_cons, List.flatMap_cons, List.foldl_append, List.cons_append]
    rw [ih]

theorem parseRulesFrom_eq {W : Type} (pf : List Char → Option W)
    (rm : List (Token × List Char)) (hok : ∀ kv ∈ rm, (ParseRule pf kv.2).isSome = true) :
    ∀ (sets : List Token × List Token) (pr : List (Token × ProductionRule W)),
    parseRulesFrom pf rm (sets, pr)
      = some ((mentionedTokens (parsedOf pf rm)).foldl indexToken sets, pr ++ parsedOf pf rm) := by
  induction rm with
  | nil => intro sets pr; simp [parseRulesFrom, parsedOf, mentionedTokens]
  | cons kv rm ih =>
    intro sets pr
    obtain ⟨key, value⟩ := kv
    have h1 := hok (key, value) (List.mem_cons_self _ _)
    obtain ⟨ws, hws⟩ := Option.isSome_iff_exists.1 h1
    simp only at hws
    simp only [parseRulesFrom, hws]
    rw [ih (fun kv hkv => hok kv (List.mem_cons_of_mem _ hkv))]
    simp only [parsedOf, List.map_cons, hws, Option.getD_some, mentionedTokens,
      List.flatMap_cons, List.foldl_append, List.foldl_cons, NewProductionRule,
      indexWeights_eq, List.cons_append, List.append_assoc, List.singleton_append,
      List.nil_append]

theorem TokenSet.mem_Add (s : List Token) (x t : Token) :
    t ∈ TokenSet.Add s x ↔ t ∈ s ∨ t = x := by
  unfold TokenSet.Add
  by_cases h : x ∈ s
  · simp only [h, if_true]
    constructor
    · exact Or.inl
    · rintro (h1 | h1)
      · exact h1
      · rw [h1]; exact h
  · simp [h]

theorem TokenSet.nodup_Add (s : List Token) (x : Token) (h : s.Nodup) :
    (TokenSet.Add s x).Nodup := by
  unfold TokenSet.Add
  by_cases hx : x ∈ s
  · simpa [hx] using h
  · simp only [hx, if_false]
    exact List.Nodup.append h (List.nodup_singleton x) (by simpa using hx)

theorem indexTokens_spec (xs : List Token) : ∀ sets : List Token × List Token,
    sets.1.Nodup → sets.2.Nodup →
    (xs.foldl indexToken sets).1.Nodup ∧ (xs.foldl indexToken sets).2.Nodup ∧
    (∀ t, t ∈ (xs.foldl indexToken sets).1 ↔ t ∈ sets.1 ∨ (t ∈ xs ∧ isVariable t = true)) ∧
    (∀ t, t ∈ (xs.foldl indexToken sets).2 ↔ t ∈ sets.2 ∨ (t ∈ xs ∧ isVariable t = false)) := by
  induction xs with
  | nil => intro sets h1 h2; simp [h1, h2]
  | cons x xs ih =>
    intro sets h1 h2
    simp only [List.foldl_cons]
    by_cases hx : isVariable x = true
    · have e : indexToken sets x = (TokenSet.Add sets.1 x, sets.2) := by
        simp [indexToken, hx]
      rw [e]
      obtain ⟨a1, a2, a3, a4⟩ := ih (TokenSet.Add sets.1 x, sets.2)
        (TokenSet.nodup_Add _ _ h1) h2
      refine ⟨a1, a2, ?_, ?_⟩
      · intro t
        rw [a3, TokenSet.mem_Add]
        simp only [List.mem_cons]
        constructor
        · rintro ((h | h) | h)
          · exact Or.inl h
          · exact Or.inr ⟨Or.inl h, by rw [h]; exact hx⟩
          · exact Or.inr ⟨Or.inr h.1, h.2⟩
        · rintro (h | ⟨h | h, h3⟩)
          · exact Or.inl (Or.inl h)
          · exact Or.inl (Or.inr h)
          · exact Or.inr ⟨h, h3⟩
      · intro t
        rw [a4]
        simp only [List.mem_cons]
        constructor
        · rintro (h | h)
          · exact Or.inl h
          · exact Or.inr ⟨Or.inr h.1, h.2⟩
        · rintro (h | ⟨h | h, h3⟩)
          · exact Or.inl h
          · rw [h, hx] at h3; cases h3
          · exact Or.inr ⟨h, h3⟩
    · have hx2 : isVariable x = false := by simpa using hx
      have e : indexToken sets x = (sets.1, TokenSet.Add sets.2 x) := by
        simp [indexToken, hx2]
      rw [e]
      obtain ⟨a1, a2, a3, a4⟩ := ih (sets.1, TokenSet.Add sets.2 x) h1
        (TokenSet.nodup_Add _ _ h2)
      refine ⟨a1, a2, ?_, ?_⟩
      · intro t
        rw [a3]
        simp only [List.mem_cons]
        constructor
        · rintro (h | h)
          · exact Or.inl h
          · exact Or.inr ⟨Or.inr h.1, h.2⟩
        · rintro (h | ⟨h | h, h3⟩)
          · exact Or.inl h
          · rw [h, hx2] at h3; cases h3
          · exact Or.inr ⟨h, h3⟩
      · intro t
        rw [a4, TokenSet.mem_Add]
        simp only [List.mem_cons]
        constructor
        · rintro ((h | h) | h)
          · exact Or.inl h
          · exact Or.inr ⟨Or.inl h, by rw [h]; exact hx2⟩
          · exact Or.inr ⟨Or.inr h.1, h.2⟩
        · rintro (h | ⟨h | h, h3⟩)
          · exact Or.inl (Or.inl h)
          · exact Or.inl (Or.inr h)
          · exact Or.inr ⟨h, h3⟩

/-- What `ParseRules` returns on a rules map none of whose rule strings makes
`ParseRule` panic: the parsed rules in the order of the traversal, and two
duplicate-free lists holding the mentioned tokens that are variables and those
that are not. -/
theorem parseRules_spec {W : Type} (pf : List Char → Option W) (rm : List (Token × List Char))
    (hok : ∀ kv ∈ rm, (ParseRule pf kv.2).isSome = true) :
    ∃ vs cs, ParseRules pf rm = some (vs, cs, parsedOf pf rm) ∧ vs.Nodup ∧ cs.Nodup ∧
      (∀ t, t ∈ vs ↔ t ∈ mentionedTokens (parsedOf pf rm) ∧ isVariable t = true) ∧
      (∀ t, t ∈ cs ↔ t ∈ mentionedTokens (parsedOf pf rm) ∧ isVariable t = false) := by
  obtain ⟨a1, a2, a3, a4⟩ := indexTokens_spec (mentionedTokens (parsedOf pf rm)) ([], [])
    List.nodup_nil List.nodup_nil
  refine ⟨_, _, ?_, a1, a2, ?_, ?_⟩
  · simp only [ParseRules, parseRulesFrom_eq pf rm hok, Option.map_some', List.nil_append]
  · intro t; rw [a3]; simp
  · intro t; rw [a4]; simp

/-! ## Iteration with rules of one alternative -/

theorem compileRules_not_mem {W : Type} (tb : TokenMap TokenStateId) (n : Nat)
    (rules : List (Token × ProductionRule W)) (h : ∀ kr ∈ rules, tb.at kr.1 ≠ n) :
    ∀ br : Nat → ByteProductionRule W, compileRules tb rules br n = br n := by
  induction rules with
  | nil => intro br; rfl
  | cons kr rules ih =>
    intro br
    obtain ⟨t, rule⟩ := kr
    simp only [compileRules]
    rw [ih (fun kr hkr => h kr (List.mem_cons_of_mem _ hkr))]
    have := h (t, rule) (List.mem_cons_self _ _)
    simp [setAt, Ne.symm this]

theorem compileRules_mem {W : Type} (tb : TokenMap TokenStateId)
    (rules : List (Token × ProductionRule W))
    (hnd : (rules.map fun kr => tb.at kr.1).Nodup) (t : Token) (rule : ProductionRule W)
    (hmem : (t, rule) ∈ rules) :
    ∀ br : Nat → ByteProductionRule W,
      compileRules tb rules br (tb.at t) = rule.EncodeTokens tb := by
  induction rules with
  | nil => cases hmem
  | cons kr rules ih =>
    intro br
    obtain ⟨t2, rule2⟩ := kr
    simp only [List.map_cons, List.nodup_cons, List.mem_map, not_exists, not_and] at hnd
    simp only [compileRules]
    rcases List.mem_cons.1 hmem with h | h
    · simp only [Prod.mk.injEq] at h
      obtain ⟨e1, e2⟩ := h
      subst e1 e2
      rw [compileRules_not_mem tb (tb.at t) rules (fun kr hkr => hnd.1 kr hkr)]
      simp [setAt]
    · exact ih hnd.2 h _

/-- The loop of `applyRulesOnce` when, on the rules of the table, selection
returns `select` of rule and predecessor and leaves the rule as it is. -/
theorem applyRulesFrom_table {W σ : Type} (choose : Chooser W σ)
    (select : ByteProductionRule W → TokenStateId → List TokenStateId)
    (l : LSystem W)
    (hsel : ∀ n p g, (l.ByteRules n).Weights.isNone = false →
      (choose (l.ByteRules n) p g).1 = select (l.ByteRules n) p ∧
      (choose (l.ByteRules n) p g).2.1 = l.ByteRules n)
    (input : Buffer) (toks : List Nat) (hin : input.content = some toks) :
    ∀ (rest : List Nat) (idx : Nat) (g : σ) (out : Buffer) (acc : List Nat),
      toks.drop idx = rest → out.content = some acc → (∀ t ∈ rest, t < tableSize) →
      ∃ g2 out2, applyRulesFrom choose input idx rest (l, g, out) = some (l, g2, out2) ∧
        out2.content = some (acc ++ (List.range' idx rest.length).flatMap (specPiece l select toks)) := by
  intro rest
  induction rest with
  | nil =>
    intro idx g out acc _ hout _
    exact ⟨g, out, rfl, by simpa using hout⟩
  | cons t rest ih =>
    intro idx g out acc hdrop hout hlt
    obtain ⟨hget, hdrop2, hidx⟩ := drop_cons_facts hdrop
    have ht : l.lowerToken t < tableSize := lowerToken_lt l t (hlt t (List.mem_cons_self _ _))
    have hrest : ∀ u ∈ rest, u < tableSize := fun u hu => hlt u (List.mem_cons_of_mem _ hu)
    have hgetD : toks.getD idx 0 = t := by
      rw [List.getD_eq_getElem?_getD, ← List.get?_eq_getElem?, hget]; rfl
    have hpiece : specPiece l select toks idx =
        if (l.ByteRules (l.lowerToken t)).Weights.isNone then [l.lowerToken t]
        else select (l.ByteRules (l.lowerToken t))
          (if idx = 0 then l.EmptyTokenId else toks.getD (idx - 1) 0) := by
      unfold specPiece
      rw [hgetD]
    simp only [applyRulesFrom, ht, if_true]
    by_cases hnil : (l.ByteRules (l.lowerToken t)).Weights.isNone
    · simp only [hnil, if_true]
      obtain ⟨g2, out2, h1, h2⟩ := ih (idx + 1) g (out.Append (l.lowerToken t))
        (acc ++ [l.lowerToken t]) hdrop2 (Buffer.content_append out acc _ hout) hrest
      refine ⟨g2, out2, h1, ?_⟩
      rw [h2]
      simp [List.range'_succ, List.flatMap_cons, hpiece, hnil]
    · simp only [hnil]
      have hpred : (if idx > 0 then input.BytePairs.get? (idx - 1) else some l.EmptyTokenId)
          = some (if idx = 0 then l.EmptyTokenId else toks.getD (idx - 1) 0) := by
        by_cases h0 : idx = 0
        · simp [h0]
        · obtain ⟨hle, htk⟩ := Buffer.content_eq hin
          have hlen : toks.length ≤ input.Len := by rw [htk]; simp
          have hlen2 : toks.length = input.Len := by rw [htk]; simp; omega
          have hlt1 : idx - 1 < input.Len := by omega
          have hlt2 : idx - 1 < input.BytePairs.length := by omega
          simp only [gt_iff_lt, Nat.pos_of_ne_zero h0, if_true, h0, if_false, htk,
            List.getD_eq_getElem?_getD, List.get?_eq_getElem?, List.getElem?_take, hlt1,
            List.getElem?_eq_getElem hlt2, Option.getD_some]
      rw [hpred]
      obtain ⟨s1, s2⟩ := hsel (l.lowerToken t)
        (if idx = 0 then l.EmptyTokenId else toks.getD (idx - 1) 0) g
        (Bool.eq_false_iff.2 hnil)
      simp only [s1, s2, setAt_self]
      obtain ⟨g2, out2, h1, h2⟩ := ih (idx + 1) _
        (out.AppendSlice (select (l.ByteRules (l.lowerToken t))
          (if idx = 0 then l.EmptyTokenId else toks.getD (idx - 1) 0)))
        (acc ++ (select (l.ByteRules (l.lowerToken t))
          (if idx = 0 then l.EmptyTokenId else toks.getD (idx - 1) 0)))
        hdrop2 (Buffer.content_append_slice out acc _ hout) hrest
      refine ⟨g2, out2, h1, ?_⟩
      rw [h2]
      simp [List.range'_succ, List.flatMap_cons, hpiece, hnil]

theorem MemPool.swap_setWrite_zero (rd wr out : Buffer) (rest : List Lane) :
    ((MemPool.mk (⟨rd, wr⟩ :: rest)).setWrite 0 out).Swap 0
      = ⟨⟨out, { rd with Len := 0 }⟩ :: rest⟩ := rfl

theorem MemPool.getRead_zero (rd wr : Buffer) (rest : List Lane) :
    (MemPool.mk (⟨rd, wr⟩ :: rest)).GetReadBuffer 0 = some rd := rfl

theorem MemPool.getWrite_zero (rd wr : Buffer) (rest : List Lane) :
    (MemPool.mk (⟨rd, wr⟩ :: rest)).GetWriteBuffer 0 = some wr := rfl

theorem iterateOnce_table {W σ : Type} (choose : Chooser W σ)
    (select : ByteProductionRule W → TokenStateId → List TokenStateId)
    (l : LSystem W)
    (hsel : ∀ n p g, (l.ByteRules n).Weights.isNone = false →
      (choose (l.ByteRules n) p g).1 = select (l.ByteRules n) p ∧
      (choose (l.ByteRules n) p g).2.1 = l.ByteRules n)
    (g : σ) (rd wr : Buffer) (rest : List Lane) (toks : List Nat)
    (hl : l.MemPool.lanes = ⟨rd, wr⟩ :: rest)
    (hrd : rd.content = some toks) (hwr : wr.Len = 0) (hids : ∀ t ∈ toks, t < tableSize) :
    ∃ g2 rd2 wr2, l.IterateOnce choose g
        = some ({ l with MemPool := ⟨⟨rd2, wr2⟩ :: rest⟩ }, g2, specRewrite l select toks) ∧
      rd2.content = some (specRewrite l select toks) ∧ wr2.Len = 0 := by
  obtain ⟨g2, out2, h1, h2⟩ := applyRulesFrom_table choose select l hsel rd toks hrd toks 0 g wr []
    (by simp) (Buffer.content_of_len_zero wr hwr) hids
  have h3 : out2.content = some (specRewrite l select toks) := by
    rw [h2]; simp [specRewrite, List.range_eq_range']
  refine ⟨g2, out2, { rd with Len := 0 }, ?_, h3, rfl⟩
  have hp : l.MemPool = ⟨⟨rd, wr⟩ :: rest⟩ := by
    cases hm : l.MemPool with
    | mk lanes => rw [hm] at hl; simp only at hl; rw [hl]
  simp only [LSystem.IterateOnce, hp, MemPool.getRead_zero, MemPool.getWrite_zero,
    Option.some_bind, LSystem.applyRulesOnce, hrd, h1, MemPool.swap_setWrite_zero, h3,
    Option.map_some']

theorem iterateOnceTimes_table {W σ : Type} (choose : Chooser W σ)
    (select : ByteProductionRule W → TokenStateId → List TokenStateId)
    (l0 : LSystem W)
    (hsel : ∀ n p g, (l0.ByteRules n).Weights.isNone = false →
      (choose (l0.ByteRules n) p g).1 = select (l0.ByteRules n) p ∧
      (choose (l0.ByteRules n) p g).2.1 = l0.ByteRules n) (rest : List Lane) :
    ∀ (n : Nat) (g : σ) (rd wr : Buffer) (toks : List Nat),
      rd.content = some toks → wr.Len = 0 →
      (∀ k, k ≤ n → ∀ t ∈ (specRewrite l0 select)^[k] toks, t < tableSize) →
      ∃ g2 rd2 wr2, LSystem.iterateOnceTimes choose n { l0 with MemPool := ⟨⟨rd, wr⟩ :: rest⟩ } g
        = some ({ l0 with MemPool := ⟨⟨rd2, wr2⟩ :: rest⟩ }, g2,
            (specRewrite l0 select)^[n + 1] toks) := by
  intro n
  induction n with
  | zero =>
    intro g rd wr toks hrd hwr hids
    obtain ⟨g2, rd2, wr2, h1, _, _⟩ := iterateOnce_table choose select
      { l0 with MemPool := ⟨⟨rd, wr⟩ :: rest⟩ } hsel g rd wr rest toks rfl hrd hwr
      (hids 0 (le_refl _))
    exact ⟨g2, rd2, wr2, h1⟩
  | succ n ih =>
    intro g rd wr toks hrd hwr hids
    obtain ⟨g1, rd1, wr1, h1, h2, h3⟩ := iterateOnce_table choose select
      { l0 with MemPool := ⟨⟨rd, wr⟩ :: rest⟩ } hsel g rd wr rest toks rfl hrd hwr
      (hids 0 (Nat.zero_le _))
    obtain ⟨g2, rd2, wr2, h4⟩ := ih g1 rd1 wr1 (specRewrite l0 select toks) h2 h3 (by
      intro k hk t ht
      exact hids (k + 1) (by omega) t (by simpa [Function.iterate_succ_apply] using ht))
    refine ⟨g2, rd2, wr2, ?_⟩
    simp only [LSystem.iterateOnceTimes, h1, Option.some_bind]
    rw [Function.iterate_succ_apply]
    exact h4

/-! ## The countdown of the counter grammar -/

theorem CounterTables.step_seed {W : Type} {l : LSystem W} {w : W} {M aSeed aL aU aX : Nat}
    {sid : Nat → Nat} (h : CounterTables l w M aSeed aL aU aX sid) :
    specRewrite l headSelect [aSeed] = [aL, aU, sid M] := by
  obtain ⟨c, hc⟩ := h.ruleSeed
  simp [specRewrite, List.range_succ, specPiece, h.lowSeed, hc, headSelect, headTokens]

theorem CounterTables.step_level {W : Type} {l : LSystem W} {w : W} {M aSeed aL aU aX : Nat}
    {sid : Nat → Nat} (h : CounterTables l w M aSeed aL aU aX sid) (k : Nat) (hk1 : 2 ≤ k)
    (hk2 : k ≤ M) :
    specRewrite l headSelect [aL, aU, sid k] = [aL, aU, if k = 2 then aX else sid (k - 1)] := by
  obtain ⟨c, hc⟩ := h.ruleL
  obtain ⟨c2, hc2⟩ := h.ruleS
  have hu := h.noRule aU h.neU.1 h.neU.2.1 h.neU.2.2
  have e : List.range 3 = [0, 1, 2] := rfl
  by_cases h2 : k = 2
  · subst h2
    have hl := h.lowS 2 (le_refl _) hk2
    simp [specRewrite, e, specPiece, h.lowL, h.lowU, hl, hc, hc2, hu, headSelect, headTokens]
  · have hl := h.lowS k hk1 hk2
    obtain ⟨n1, n2, n3⟩ := h.neS (k - 1) (by omega) (by omega)
    have hs := h.noRule (sid (k - 1)) n1 n2 n3
    simp [specRewrite, e, specPiece, h.lowL, h.lowU, hl, hc, hs, hu, headSelect, headTokens, h2]

/-- The generations of the countdown: `S<M>` after the first step, one level
less after each further step, and `X` after step `M`. -/
theorem CounterTables.generation {W : Type} {l : LSystem W} {w : W} {M aSeed aL aU aX : Nat}
    {sid : Nat → Nat} (h : CounterTables l w M aSeed aL aU aX sid) (hM : 2 ≤ M) :
    ∀ n, 1 ≤ n → n ≤ M →
      (specRewrite l headSelect)^[n] [aSeed] = [aL, aU, if n = M then aX else sid (M + 1 - n)] := by
  intro n
  induction n with
  | zero => intro h0; omega
  | succ n ih =>
    intro _ hn
    rw [Function.iterate_succ_apply']
    by_cases h0 : n = 0
    · subst h0
      simp only [Function.iterate_zero, id_eq, h.step_seed]
      rw [if_neg (by omega)]
      simp
    · rw [ih (by omega) (by omega), if_neg (by omega), h.step_level _ (by omega) (by omega)]
      by_cases hl : n + 1 = M
      · rw [if_pos (by omega), if_pos hl]
      · rw [if_neg (by omega), if_neg hl, show M + 1 - n - 1 = M + 1 - (n + 1) by omega]

theorem Itoa_length_le (M : Nat) (h : M < 1000) : (Itoa M).length ≤ 3 :=
  Nat.toDigitsCore_length 10 (by norm_num) (M + 1) M 3 (by simpa using h) (by norm_num)

theorem tryParse_level_name (M : Nat) (h1 : 1 ≤ M) (h2 : M ≤ 255) :
    tryParseStatefulVariable ("S".toList ++ Itoa M) = some ("S".toList, M, true) := by
  obtain ⟨a1, a2, a3⟩ := Itoa_spec M
  rw [tryParse_suffix_form "S".toList (Itoa M) (by decide) a2
    (le_trans (Itoa_length_le M (by omega)) (by norm_num)) (by simp)]
  rw [a3, if_pos ⟨a1, h1⟩, Nat.min_eq_left h2]

theorem Itoa_one : Itoa 1 = "1".toList := by decide

theorem counterVars_parse (M : Nat) (h1 : 2 ≤ M) (h2 : M ≤ 127) (v b : Token) (n : Nat)
    (hv : v ∈ counterVarsOf M) (hp : tryParseStatefulVariable v = some (b, n, true)) :
    b = "S".toList ∧ n ≤ M := by
  simp only [counterVarsOf, List.mem_cons, List.mem_singleton, List.not_mem_nil, or_false] at hv
  have e1 : tryParseStatefulVariable "Seed".toList = some ([], 0, false) := by decide
  have e2 : tryParseStatefulVariable "L".toList = some ([], 0, false) := by decide
  have e3 : tryParseStatefulVariable "S1".toList = some ("S".toList, 1, true) := by decide
  have e4 : tryParseStatefulVariable "X".toList = some ([], 0, false) := by decide
  rcases hv with h | h | h | h | h
  · rw [h, e1] at hp; simp at hp
  · rw [h, e2] at hp; simp at hp
  · rw [h, tryParse_level_name M (by omega) (by omega)] at hp
    simp only [Option.some.injEq, Prod.mk.injEq, and_true] at hp
    exact ⟨hp.1.symm, by omega⟩
  · rw [h, e3] at hp
    simp only [Option.some.injEq, Prod.mk.injEq, and_true] at hp
    exact ⟨hp.1.symm, by omega⟩
  · rw [h, e4] at hp; simp at hp

/-- The stateful bases of the counter grammar, for every order of its variables. -/
theorem counterVars_stateful (M : Nat) (h1 : 2 ≤ M) (h2 : M ≤ 127) (vars order : List Token)
    (hv : vars.Perm (counterVarsOf M)) (ho : order.Perm (statefulKeys vars)) :
    (∀ v ∈ vars, v ≠ []) ∧ statefulMap vars "S".toList = some M ∧ order = ["S".toList] ∧
      totalLevels vars order = M := by
  have hmem : ∀ v, v ∈ vars ↔ v ∈ counterVarsOf M := fun v => hv.mem_iff
  have hmap : statefulMap vars "S".toList = some M := by
    apply statefulMap_of_max
    · exact ⟨"S".toList ++ Itoa M, (hmem _).2 (by simp [counterVarsOf]),
        tryParse_level_name M (by omega) (by omega)⟩
    · intro v hv2 n hp
      exact (counterVars_parse M h1 h2 v _ n ((hmem v).1 hv2) hp).2
  obtain ⟨hkeys, hnd⟩ := statefulKeys_spec vars
  have hk : (statefulKeys vars).Perm ["S".toList] := by
    rw [List.perm_ext_iff_of_nodup hnd (List.nodup_singleton _)]
    intro b
    rw [hkeys b, List.mem_singleton]
    constructor
    · intro hb
      obtain ⟨M2, hM2⟩ := Option.isSome_iff_exists.1 hb
      obtain ⟨v, hv2, hp⟩ := (statefulMap_facts hM2).2.2.1
      exact (counterVars_parse M h1 h2 v b M2 ((hmem v).1 hv2) hp).1
    · intro hb
      rw [hb, hmap]; rfl
  have hord : order = ["S".toList] := List.perm_singleton.1 (ho.trans hk)
  refine ⟨?_, hmap, hord, ?_⟩
  · intro v hv2
    have := (hmem v).1 hv2
    simp only [counterVarsOf, List.mem_cons, List.mem_singleton, List.not_mem_nil,
      or_false] at this
    rcases this with h | h | h | h | h <;> rw [h] <;> simp
  · rw [hord]
    simp only [totalLevels, List.map_cons, List.map_nil, List.sum_cons, List.sum_nil, hmap,
      Option.getD_some, Nat.add_zero]

theorem counter_levelNames (M : Nat) (vars : List Token)
    (hmap : statefulMap vars "S".toList = some M) (t : Token) :
    t ∈ levelNames vars ["S".toList] ↔ ∃ k, 1 ≤ k ∧ k ≤ M ∧ t = "S".toList ++ Itoa k := by
  rw [mem_levelNames]
  constructor
  · rintro ⟨b, hb, M2, hm, k, h1, h2, h3⟩
    rw [List.mem_singleton] at hb
    subst hb
    rw [hmap] at hm
    cases hm
    exact ⟨k, h1, h2, h3⟩
  · rintro ⟨k, h1, h2, h3⟩
    exact ⟨"S".toList, List.mem_singleton_self _, M, hmap, k, h1, h2, h3⟩

theorem not_level_name_of_head (t : Token) (c : Char) (rest : List Char) (ht : t = c :: rest)
    (hc : c ≠ 'S') (k : Nat) : t ≠ "S".toList ++ Itoa k := by
  intro h
  rw [ht] at h
  exact hc (List.cons.inj h).1

theorem seed_not_level_name (k : Nat) : "Seed".toList ≠ "S".toList ++ Itoa k := by
  intro h
  have h2 : "eed".toList = Itoa k := (List.cons.inj h).2
  have := (Itoa_spec k).2.1 'e' (by rw [← h2]; decide)
  revert this
  decide

/-- The compiled tables of the counter grammar, for every order of traversal of
its variables, constants, rules and stateful bases. -/
theorem counter_tables {W : Type} (l : LSystem W) (w : W) (M : Nat) (order : List Token)
    (h1 : 2 ≤ M) (h2 : M ≤ 127)
    (hv : l.Variables.Perm (counterVarsOf M)) (hc : l.Constants.Perm counterConsts)
    (hr : l.Rules.Perm (counterParsed w M)) (ho : order.Perm (statefulKeys l.Variables)) :
    ∃ l2, l.encodeTokens order = some l2 ∧ l2.MemPool = l.MemPool ∧ l2.Axiom = l.Axiom ∧
      CounterTables l2 w M (l2.TokenBytes.at "Seed".toList) (l2.TokenBytes.at "L".toList)
        (l2.TokenBytes.at "u".toList) (l2.TokenBytes.at "X".toList)
        (fun k => l2.TokenBytes.at ("S".toList ++ Itoa k)) ∧
      (∀ t, l2.TokenBytes.at t < tableSize) ∧
      (∀ t, (t ∈ counterVarsOf M ∨ t ∈ counterConsts ∨
          ∃ k, 1 ≤ k ∧ k ≤ M ∧ t = "S".toList ++ Itoa k) →
        l2.decodeByte (l2.TokenBytes.at t) = some t) := by
  obtain ⟨hne, hmap, hord, htot⟩ := counterVars_stateful M h1 h2 l.Variables order hv ho
  have hlenV : l.Variables.length = 5 := by rw [hv.length_eq]; rfl
  have hlenC : l.Constants.length = 2 := by rw [hc.length_eq]; rfl
  obtain ⟨l2, e1, e2, e3, e4, e5, e6, e7, e8⟩ := encodeTokens_eq l order hne
    (by omega) (by omega)
  -- decoding and injectivity on the declared names
  have hdec : ∀ t, (t ∈ counterVarsOf M ∨ t ∈ counterConsts ∨
      ∃ k, 1 ≤ k ∧ k ≤ M ∧ t = "S".toList ++ Itoa k) →
      l2.decodeByte (l2.TokenBytes.at t) = some t := by
    intro t ht
    apply decode_encode_one l2 l.Variables l.Constants order t (by omega) (by omega) e2 e3
    rcases ht with h | h | h
    · exact Or.inl (hv.mem_iff.2 h)
    · exact Or.inr (Or.inl (hc.mem_iff.2 h))
    · right; right
      rw [hord]
      exact (counter_levelNames M _ hmap t).2 h
  have hinj : ∀ t u, (t ∈ counterVarsOf M ∨ t ∈ counterConsts ∨
      ∃ k, 1 ≤ k ∧ k ≤ M ∧ t = "S".toList ++ Itoa k) →
      (u ∈ counterVarsOf M ∨ u ∈ counterConsts ∨
      ∃ k, 1 ≤ k ∧ k ≤ M ∧ u = "S".toList ++ Itoa k) →
      l2.TokenBytes.at t = l2.TokenBytes.at u → t = u := by
    intro t u ht hu h
    have a := hdec t ht
    rw [h, hdec u hu] at a
    exact (Option.some.inj a).symm
  have dSeed : "Seed".toList ∈ counterVarsOf M ∨ "Seed".toList ∈ counterConsts ∨
      ∃ k, 1 ≤ k ∧ k ≤ M ∧ "Seed".toList = "S".toList ++ Itoa k := Or.inl (by simp [counterVarsOf])
  have dL : "L".toList ∈ counterVarsOf M ∨ "L".toList ∈ counterConsts ∨
      ∃ k, 1 ≤ k ∧ k ≤ M ∧ "L".toList = "S".toList ++ Itoa k := Or.inl (by simp [counterVarsOf])
  have dU : "u".toList ∈ counterVarsOf M ∨ "u".toList ∈ counterConsts ∨
      ∃ k, 1 ≤ k ∧ k ≤ M ∧ "u".toList = "S".toList ++ Itoa k :=
    Or.inr (Or.inl (by decide))
  have dS : ∀ k, 1 ≤ k → k ≤ M → ("S".toList ++ Itoa k ∈ counterVarsOf M ∨
      "S".toList ++ Itoa k ∈ counterConsts ∨
      ∃ j, 1 ≤ j ∧ j ≤ M ∧ "S".toList ++ Itoa k = "S".toList ++ Itoa j) :=
    fun k hk1 hk2 => Or.inr (Or.inr ⟨k, hk1, hk2, rfl⟩)
  have hS1 : "S1".toList = "S".toList ++ Itoa 1 := by decide
  have neSk : ∀ j k, "S".toList ++ Itoa j = "S".toList ++ Itoa k → j = k := by
    intro j k h
    exact Itoa_injective (List.append_cancel_left h)
  -- plain ids carry no flag
  have hplain : ∀ t, t ∈ l.Variables ++ l.Constants → (∀ k, t ≠ "S".toList ++ Itoa k) →
      l2.lowerToken (l2.TokenBytes.at t) = l2.TokenBytes.at t := by
    intro t ht hk
    have hlev : t ∉ levelNames l.Variables order := by
      rw [hord, counter_levelNames M _ hmap t]
      rintro ⟨k, _, _, h⟩
      exact hk k h
    obtain ⟨idx, a1, _, a3⟩ := seqTB_mem _ t ht (fun _ => none) 0
    rw [List.length_append] at a1
    have hid : l2.TokenBytes.at t = idx := by
      rw [e2]
      apply TokenMap.at_of_some
      unfold allIds
      rw [seqTB_not_mem _ t hlev]
      simpa [plainIds] using a3
    rw [hid]
    unfold LSystem.lowerToken
    have : HasParam idx = false := by simp [HasParam]; omega
    simp [this]
  have mSeed : "Seed".toList ∈ l.Variables ++ l.Constants :=
    List.mem_append_left _ (hv.mem_iff.2 (by simp [counterVarsOf]))
  have mL : "L".toList ∈ l.Variables ++ l.Constants :=
    List.mem_append_left _ (hv.mem_iff.2 (by simp [counterVarsOf]))
  have mU : "u".toList ∈ l.Variables ++ l.Constants :=
    List.mem_append_right _ (hc.mem_iff.2 (by decide))
  -- the stateful ids
  obtain ⟨off, hoff⟩ := stateful_family_facts l.Params l.Variables l.Constants order "S".toList M ho
    (by omega) hmap
  have hsid : ∀ k, 1 ≤ k → k ≤ M →
      l2.TokenBytes.at ("S".toList ++ Itoa k) = 128 + (off + (k - 1)) ∧ off + (k - 1) < 127 ∧
      l2.Params (off + (k - 1)) = k := by
    intro k hk1 hk2
    obtain ⟨b1, b2, _, b4⟩ := hoff k hk1 hk2
    exact ⟨by rw [e2]; exact TokenMap.at_of_some b2, b1, by rw [e4]; exact b4⟩
  have hlow : ∀ k, 2 ≤ k → k ≤ M →
      l2.lowerToken (l2.TokenBytes.at ("S".toList ++ Itoa k))
        = l2.TokenBytes.at ("S".toList ++ Itoa (k - 1)) := by
    intro k hk1 hk2
    obtain ⟨c1, c2, c3⟩ := hsid k (by omega) hk2
    obtain ⟨d1, _, _⟩ := hsid (k - 1) (by omega) (by omega)
    rw [c1, d1]
    unfold LSystem.lowerToken
    have e : TokenId (128 + (off + (k - 1))) = off + (k - 1) := by
      simp only [TokenId]; omega
    rw [e, c3]
    simp only [HasParam, Nat.le_add_right, decide_True, Bool.true_and, gt_iff_lt,
      show 1 < k by omega, if_true]
    omega
  -- the rule table
  have hkeys : ∀ kr ∈ l.Rules, kr.1 = "Seed".toList ∨ kr.1 = "L".toList ∨ kr.1 = "S1".toList := by
    intro kr hkr
    have := hr.mem_iff.1 hkr
    simp only [counterParsed, List.mem_cons, List.mem_singleton, List.not_mem_nil, or_false] at this
    rcases this with h | h | h <;> rw [h] <;> simp
  have dS1 := dS 1 (le_refl _) (by omega)
  rw [← hS1] at dS1
  have hnd : (l.Rules.map fun kr => (allIds l.Variables l.Constants order).at kr.1).Nodup := by
    rw [(hr.map _).nodup_iff, ← e2]
    simp only [counterParsed, List.map_cons, List.map_nil, List.nodup_cons, List.mem_cons,
      List.mem_singleton, List.not_mem_nil, or_false, not_or, List.nodup_nil, and_true,
      not_false_eq_true]
    refine ⟨⟨?_, ?_⟩, ?_⟩
    · intro h; exact absurd (hinj _ _ dSeed dL h) (by decide)
    · intro h; exact absurd (hinj _ _ dSeed dS1 h) (by decide)
    · intro h; exact absurd (hinj _ _ dL dS1 h) (by decide)
  have hrule : ∀ t rule, (t, rule) ∈ counterParsed w M →
      l2.ByteRules (l2.TokenBytes.at t) = rule.EncodeTokens l2.TokenBytes := by
    intro t rule hm
    rw [e6, e2]
    exact compileRules_mem _ _ hnd t rule (hr.mem_iff.2 hm) _
  refine ⟨l2, e1, e7, e8, ?_, ?_, hdec⟩
  · constructor
    · exact ⟨l2.TokenBytes.at [], by
        rw [hrule _ _ (List.mem_cons_self _ _)]; rfl⟩
    · exact ⟨l2.TokenBytes.at [], by
        rw [hrule "L".toList ⟨"L".toList, [⟨w, [], ["L".toList]⟩]⟩ (by simp [counterParsed])]; rfl⟩
    · refine ⟨l2.TokenBytes.at [], ?_⟩
      show l2.ByteRules (l2.TokenBytes.at ("S".toList ++ Itoa 1)) = _
      rw [← hS1, hrule "S1".toList ⟨"S1".toList, [⟨w, [], ["X".toList]⟩]⟩
        (by simp [counterParsed])]
      rfl
    · intro n n1 n2 n3
      rw [e6]
      apply compileRules_not_mem
      intro kr hkr
      rw [← e2]
      rcases hkeys kr hkr with h | h | h
      · rw [h]; exact Ne.symm n1
      · rw [h]; exact Ne.symm n2
      · rw [h, hS1]; exact Ne.symm n3
    · exact hplain _ mSeed seed_not_level_name
    · exact hplain _ mL (not_level_name_of_head _ 'L' [] rfl (by decide))
    · exact hplain _ mU (not_level_name_of_head _ 'u' [] rfl (by decide))
    · exact hlow
    · refine ⟨?_, ?_, ?_⟩
      · intro h; exact absurd (hinj _ _ dU dSeed h) (by decide)
      · intro h; exact absurd (hinj _ _ dU dL h) (by decide)
      · intro h
        have := hinj _ _ dU (dS 1 (le_refl _) (by omega)) h
        rw [← hS1] at this
        revert this; decide
    · intro k hk1 hk2
      refine ⟨?_, ?_, ?_⟩
      · intro h
        exact seed_not_level_name k (hinj _ _ (dS k (by omega) hk2) dSeed h).symm
      · intro h
        exact not_level_name_of_head _ 'L' [] rfl (by decide) k
          (hinj _ _ (dS k (by omega) hk2) dL h).symm
      · intro h
        have := neSk _ _ (hinj _ _ (dS k (by omega) hk2) (dS 1 (le_refl _) (by omega)) h)
        omega
  · intro t
    rw [e2]
    exact allIds_lt _ _ _ (by omega) (by omega) t

theorem isVariable_level_name (M : Nat) : isVariable ("S".toList ++ Itoa M) = true := by
  obtain ⟨a1, a2, _⟩ := Itoa_spec M
  rcases List.eq_nil_or_concat (Itoa M) with h | ⟨L, c, hL⟩
  · exact absurd h a1
  · have hc : isDigitRune c = true := a2 c (by rw [hL]; simp)
    have hne : c ≠ '_' := by
      intro h
      rw [h] at hc
      revert hc; decide
    have hlast : ("S".toList ++ Itoa M).getLast? = some c := by
      rw [hL, List.concat_eq_append, ← List.append_assoc, List.getLast?_concat]
    unfold isVariable
    rw [hlast]
    have e : "S".toList ++ Itoa M = 'S' :: Itoa M := rfl
    simp [e, isCapitalized, hne]

theorem counterVarsOf_nodup (M : Nat) (h : 2 ≤ M) : (counterVarsOf M).Nodup := by
  have hS1 : "S1".toList = "S".toList ++ Itoa 1 := by decide
  have n1 : "Seed".toList ≠ "S".toList ++ Itoa M := seed_not_level_name M
  have n2 : "L".toList ≠ "S".toList ++ Itoa M :=
    not_level_name_of_head _ 'L' [] rfl (by decide) M
  have n3 : "X".toList ≠ "S".toList ++ Itoa M :=
    not_level_name_of_head _ 'X' [] rfl (by decide) M
  have n4 : "S".toList ++ Itoa M ≠ "S1".toList := by
    rw [hS1]
    intro hc
    have := Itoa_injective (List.append_cancel_left hc)
    omega
  have d1 : "Seed".toList ≠ "L".toList := by decide
  have d2 : "Seed".toList ≠ "S1".toList := by decide
  have d3 : "Seed".toList ≠ "X".toList := by decide
  have d4 : "L".toList ≠ "S1".toList := by decide
  have d5 : "L".toList ≠ "X".toList := by decide
  have d6 : "S1".toList ≠ "X".toList := by decide
  simp only [counterVarsOf, List.nodup_cons, List.mem_cons, List.mem_singleton,
    List.not_mem_nil, or_false, not_or, List.nodup_nil, and_true, not_false_eq_true]
  exact ⟨⟨d1, n1, d2, d3⟩, ⟨n2, d4, d5⟩, ⟨n4, Ne.symm n3⟩, d6⟩

/-- What `ParseRules` returns on the text of the counter grammar, for every
order of traversal of the rules map. -/
theorem parseRules_counter {W : Type} (pf : List Char → Option W) (w : W) (M : Nat)
    (hM : 2 ≤ M) (hpf : pf "1".toList = some w) (rm : List (Token × List Char))
    (hrm : rm.Perm (counterText M)) :
    ∃ vs cs rs, ParseRules pf rm = some (vs, cs, rs) ∧ vs.Perm (counterVarsOf M) ∧
      cs.Perm counterConsts ∧ rs.Perm (counterParsed w M) := by
  have hok : ∀ kv ∈ rm, (ParseRule pf kv.2).isSome = true := by
    intro kv hkv
    have := hrm.mem_iff.1 hkv
    simp only [counterText, List.mem_cons, List.mem_singleton, List.not_mem_nil, or_false] at this
    rcases this with h | h | h
    · rw [h]; simp only; rw [parseRule_text_seed pf w hpf M]; rfl
    · rw [h]; simp only; rw [parseRule_text_L pf w hpf]; rfl
    · rw [h]; simp only; rw [parseRule_text_X pf w hpf]; rfl
  obtain ⟨vs, cs, h1, h2, h3, h4, h5⟩ := parseRules_spec pf rm hok
  have hrs : (parsedOf pf rm).Perm (counterParsed w M) := by
    have e : parsedOf pf (counterText M) = counterParsed w M := by
      simp only [parsedOf, counterText, List.map_cons, List.map_nil, parseRule_text_seed pf w hpf M,
        parseRule_text_L pf w hpf, parseRule_text_X pf w hpf, Option.getD_some,
        NewProductionRule, counterParsed]
    rw [← e]
    exact hrm.map _
  have hment : ∀ t, t ∈ mentionedTokens (parsedOf pf rm) ↔
      t ∈ ["Seed".toList, [], "L".toList, "u".toList, "S".toList ++ Itoa M, "L".toList, [],
        "L".toList, "S1".toList, [], "X".toList] := by
    intro t
    have : (mentionedTokens (parsedOf pf rm)).Perm (mentionedTokens (counterParsed w M)) :=
      List.Perm.flatMap_right _ hrs
    rw [this.mem_iff]
    rfl
  have v1 : isVariable "Seed".toList = true := by decide
  have v2 : isVariable ([] : Token) = false := by decide
  have v3 : isVariable "L".toList = true := by decide
  have v4 : isVariable "u".toList = false := by decide
  have v5 := isVariable_level_name M
  have v6 : isVariable "S1".toList = true := by decide
  have v7 : isVariable "X".toList = true := by decide
  refine ⟨vs, cs, parsedOf pf rm, h1, ?_, ?_, hrs⟩
  · rw [List.perm_ext_iff_of_nodup h2 (counterVarsOf_nodup M hM)]
    intro t
    rw [h4, hment]
    simp only [counterVarsOf, List.mem_cons, List.mem_singleton, List.not_mem_nil, or_false]
    constructor
    · rintro ⟨h | h | h | h | h | h | h | h | h | h | h, hv⟩
      all_goals first
        | (rw [h, v2] at hv; cases hv)
        | (rw [h, v4] at hv; cases hv)
        | (simp only [h, true_or, or_true])
    · rintro (h | h | h | h | h)
      · exact ⟨Or.inl h, by rw [h]; exact v1⟩
      · exact ⟨Or.inr (Or.inr (Or.inl h)), by rw [h]; exact v3⟩
      · exact ⟨Or.inr (Or.inr (Or.inr (Or.inr (Or.inl h)))), by rw [h]; exact v5⟩
      · exact ⟨by simp [h], by rw [h]; exact v6⟩
      · exact ⟨by simp [h], by rw [h]; exact v7⟩
  · rw [List.perm_ext_iff_of_nodup h3 (by decide)]
    intro t
    rw [h5, hment]
    simp only [counterConsts, List.mem_cons, List.mem_singleton, List.not_mem_nil, or_false]
    constructor
    · rintro ⟨h | h | h | h | h | h | h | h | h | h | h, hv⟩
      all_goals first
        | (rw [h, v1] at hv; cases hv)
        | (rw [h, v3] at hv; cases hv)
        | (rw [h, v5] at hv; cases hv)
        | (rw [h, v6] at hv; cases hv)
        | (rw [h, v7] at hv; cases hv)
        | (simp only [h, true_or, or_true])
    · rintro (h | h)
      · exact ⟨by simp [h], by rw [h]; exact v4⟩
      · exact ⟨by simp [h], by rw [h]; exact v2⟩

theorem newLSystem_counter {W : Type} (w : W) (M : Nat) (h1 : 2 ≤ M) (h2 : M ≤ 127)
    (vars consts order : List Token) (rules : List (Token × ProductionRule W)) (ups : Bool)
    (threadCount : Nat)
    (hv : vars.Perm (counterVarsOf M)) (hc : consts.Perm counterConsts)
    (hr : rules.Perm (counterParsed w M)) (ho : order.Perm (statefulKeys vars))
    (ht : 0 < threadCount) :
    ∃ (l2 : LSystem W) (rest : List Lane),
      NewLSystem "Seed".toList rules vars consts ups threadCount order
        = some { l2 with
            MemPool := ⟨⟨⟨[l2.TokenBytes.at "Seed".toList], 1⟩, Buffer.empty⟩ :: rest⟩ } ∧
      CounterTables l2 w M (l2.TokenBytes.at "Seed".toList) (l2.TokenBytes.at "L".toList)
        (l2.TokenBytes.at "u".toList) (l2.TokenBytes.at "X".toList)
        (fun k => l2.TokenBytes.at ("S".toList ++ Itoa k)) ∧
      (∀ t, l2.TokenBytes.at t < tableSize) ∧
      (∀ t, (t ∈ counterVarsOf M ∨ t ∈ counterConsts ∨
          ∃ k, 1 ≤ k ∧ k ≤ M ∧ t = "S".toList ++ Itoa k) →
        l2.decodeByte (l2.TokenBytes.at t) = some t) := by
  obtain ⟨l2, e1, e2, e3, e4, e5, e6⟩ := counter_tables
    (freshLSystem "Seed".toList rules vars consts ups threadCount) w M order h1 h2 hv hc hr ho
  obtain ⟨n, hn⟩ : ∃ n, threadCount = n + 1 := ⟨threadCount - 1, by omega⟩
  refine ⟨l2, List.replicate n ⟨Buffer.empty, Buffer.empty⟩, ?_, e4, e5, e6⟩
  have hp : l2.MemPool = ⟨⟨Buffer.empty, Buffer.empty⟩ ::
      List.replicate n ⟨Buffer.empty, Buffer.empty⟩⟩ := by
    rw [e2, hn]; rfl
  have ha : l2.Axiom = "Seed".toList := by rw [e3]; rfl
  simp only [NewLSystem, e1, Option.some_bind, LSystem.Reset, hp, MemPool.Reset, List.map_cons,
    List.map_replicate, MemPool.getRead_zero, Option.map_some', ha]
  rfl

/-- C4: in the system built from `ParseRules` of the counter grammar with maximum
level `M` (2 ≤ M ≤ 127), for every order in which the maps are ranged over and
every selection that yields the one alternative of a one-alternative rule, the
`n`-th `IterateOnce` returns and decodes to `[L, u, S<M+1-n>]` for `n < M` and to
`[L, u, X]` for `n = M`. -/
theorem counter_countdown {W σ : Type} (parseFloat : List Char → Option W)
    (choose : Chooser W σ) (w : W) (M : Nat) (rulesMap : List (Token × List Char))
    (hM1 : 2 ≤ M) (hM2 : M ≤ 127)
    (hpf : parseFloat "1".toList = some w)
    (hch : ∀ r wr p g, r.Weights = some [wr] →
      (choose r p g).1 = wr.Tokens ∧ (choose r p g).2.1 = r)
    (hrm : rulesMap.Perm (counterText M)) :
    ∃ vs cs rs, ParseRules parseFloat rulesMap = some (vs, cs, rs) ∧
      ∀ (vars consts order : List Token) (rules : List (Token × ProductionRule W))
        (ups : Bool) (threadCount : Nat),
        vars.Perm vs → consts.Perm cs → rules.Perm rs →
        order.Perm (statefulKeys vars) → 0 < threadCount →
        ∃ l0, NewLSystem "Seed".toList rules vars consts ups threadCount order = some l0 ∧
          ∀ (n : Nat) (g : σ), 1 ≤ n → n ≤ M →
            ∃ l1 g1 res, l0.iterateOnceTimes choose (n - 1) g = some (l1, g1, res) ∧
              l1.DecodeBytes res = some ["L".toList, "u".toList,
                if n = M then "X".toList else "S".toList ++ Itoa (M + 1 - n)] := by
  obtain ⟨vs, cs, rs, p1, p2, p3, p4⟩ := parseRules_counter parseFloat w M hM1 hpf rulesMap hrm
  refine ⟨vs, cs, rs, p1, ?_⟩
  intro vars consts order rules ups threadCount hv hc hr ho ht
  obtain ⟨l2, rest, q1, q2, q3, q4⟩ := newLSystem_counter w M hM1 hM2 vars consts order rules ups
    threadCount (hv.trans p2) (hc.trans p3) (hr.trans p4) ho ht
  refine ⟨_, q1, ?_⟩
  intro n g hn1 hn2
  have hsel : ∀ m p g, (l2.ByteRules m).Weights.isNone = false →
      (choose (l2.ByteRules m) p g).1 = headSelect (l2.ByteRules m) p ∧
      (choose (l2.ByteRules m) p g).2.1 = l2.ByteRules m := by
    intro m p g hm
    obtain ⟨c1, r1⟩ := q2.ruleSeed
    obtain ⟨c2, r2⟩ := q2.ruleL
    obtain ⟨c3, r3⟩ := q2.ruleS
    by_cases m1 : m = l2.TokenBytes.at "Seed".toList
    · rw [m1, r1]
      exact hch _ _ p g rfl
    · by_cases m2 : m = l2.TokenBytes.at "L".toList
      · rw [m2, r2]
        exact hch _ _ p g rfl
      · by_cases m3 : m = l2.TokenBytes.at ("S".toList ++ Itoa 1)
        · rw [m3, r3]
          exact hch _ _ p g rfl
        · rw [q2.noRule m m1 m2 m3] at hm
          cases hm
  have hgen := q2.generation hM1
  have hids : ∀ k, k ≤ n - 1 →
      ∀ t ∈ (specRewrite l2 headSelect)^[k] [l2.TokenBytes.at "Seed".toList], t < tableSize := by
    intro k hk t htk
    by_cases h0 : k = 0
    · subst h0
      simp only [Function.iterate_zero, id_eq, List.mem_singleton] at htk
      rw [htk]; exact q3 _
    · rw [hgen k (by omega) (by omega)] at htk
      simp only [List.mem_cons, List.mem_singleton, List.not_mem_nil, or_false] at htk
      rcases htk with h | h | h
      · rw [h]; exact q3 _
      · rw [h]; exact q3 _
      · rw [h]; split <;> exact q3 _
  obtain ⟨g2, rd2, wr2, hit⟩ := iterateOnceTimes_table choose headSelect l2 hsel rest (n - 1) g
    ⟨[l2.TokenBytes.at "Seed".toList], 1⟩ Buffer.empty [l2.TokenBytes.at "Seed".toList]
    (by simp [Buffer.content, Buffer.slice]) rfl hids
  refine ⟨_, g2, _, hit, ?_⟩
  rw [show n - 1 + 1 = n by omega, hgen n hn1 hn2]
  show l2.DecodeBytes _ = _
  unfold LSystem.DecodeBytes
  apply mapM_decode
  refine List.Forall₂.cons (q4 _ (Or.inl (by simp [counterVarsOf])))
    (List.Forall₂.cons (q4 _ (Or.inr (Or.inl (by decide)))) (List.Forall₂.cons ?_ List.Forall₂.nil))
  by_cases hl : n = M
  · rw [if_pos hl, if_pos hl]
    exact q4 _ (Or.inl (by simp [counterVarsOf]))
  · rw [if_neg hl, if_neg hl]
    exact q4 _ (Or.inr (Or.inr ⟨M + 1 - n, by omega, by omega, rfl⟩))

/-- C4 at the grammar of `TestCounterVariables` itself (`M = 3`), with the
weight parser `parseOne` and selection of the first alternative. -/
theorem counter_countdown_witness :
    ∃ vs cs rs, ParseRules parseOne (counterText 3) = some (vs, cs, rs) ∧
      ∀ (vars consts order : List Token) (rules : List (Token × ProductionRule Nat))
        (ups : Bool) (threadCount : Nat),
        vars.Perm vs → consts.Perm cs → rules.Perm rs →
        order.Perm (statefulKeys vars) → 0 < threadCount →
        ∃ l0, NewLSystem "Seed".toList rules vars consts ups threadCount order = some l0 ∧
          ∀ (n : Nat) (g : Unit), 1 ≤ n → n ≤ 3 →
            ∃ l1 g1 res, l0.iterateOnceTimes firstAlternative (n - 1) g = some (l1, g1, res) ∧
              l1.DecodeBytes res = some ["L".toList, "u".toList,
                if n = 3 then "X".toList else "S".toList ++ Itoa (3 + 1 - n)] :=
  counter_countdown parseOne firstAlternative 1 3 (counterText 3) (by decide) (by decide)
    (by decide)
    (fun r wr p g h => by simp [firstAlternative, h])
    (List.Perm.refl _)

set_option maxRecDepth 100000 in
/-- The test `TestCounterVariables` itself, by evaluation: the three calls of
`IterateOnce` decode to `[L, u, S3]`, `[L, u, S2]`, `[L, u, X]`. -/
theorem counter_test_steps :
    (counterSystem.map fun l => (List.range 3).map fun n =>
      (l.iterateOnceTimes firstAlternative n ()).bind fun r => r.1.DecodeBytes r.2.2)
    = some [some ["L".toList, "u".toList, "S3".toList],
            some ["L".toList, "u".toList, "S2".toList],
            some ["L".toList, "u".toList, "X".toList]] := by
  decide

/-! ## Saturation and table bounds -/

set_option maxRecDepth 100000 in
/-- C11, the failing input: the digits of `S9223372036854775808` denote 2^63;
the accumulation wraps to -2^63, which is neither 0 nor above 255, and its low
byte is 0, so the result is ok with level 0 instead of 255. On
`S18446744073709551616` (2^64) the accumulation wraps to 0 and the result is
not ok. -/
theorem saturation_wraps_at_overflow :
    tryParseStatefulVariable "S9223372036854775808".toList = some ("S".toList, 0, true) ∧
    decimalValue "9223372036854775808".toList = 2 ^ 63 ∧
    tryParseStatefulVariable "S18446744073709551616".toList = some ([], 0, false) ∧
    decimalValue "18446744073709551616".toList = 2 ^ 64 := by
  decide

set_option maxRecDepth 1000000 in
/-- C13, the failing input: with the one variable `S128` the third loop reaches
`j = 127`, whose stateful id 255 is outside the 255 entries of `BytesToken`, and
`encodeTokens` panics; so it does with the saturated `S255`. -/
theorem encodeTokens_panics_at_128_levels :
    tryParseStatefulVariable "S128".toList = some ("S".toList, 128, true) ∧
    ((freshLSystem (W := Nat) "S128".toList [] ["S128".toList] [] false 1).encodeTokens
      ["S".toList]).isNone = true ∧
    tryParseStatefulVariable "S255".toList = some ("S".toList, 255, true) ∧
    ((freshLSystem (W := Nat) "S255".toList [] ["S255".toList] [] false 1).encodeTokens
      ["S".toList]).isNone = true := by
  decide

/-! ## Base indices of level ids -/

/-- C12 fails as stated: in the test's grammar the ids of `S1` and `S2` have the
base indices 0 and 1, and clearing the stateful flag of the id of `S1` gives id
0, whose name is `Seed`; the base `S` has no id at all. -/
theorem shared_base_index_counterexample :
    (counterFresh.encodeTokens ["S".toList]).map
      (fun l2 => (TokenId (l2.TokenBytes.at "S1".toList), TokenId (l2.TokenBytes.at "S2".toList),
        l2.BytesToken (NewTokenStateId (TokenId (l2.TokenBytes.at "S1".toList)) false),
        l2.TokenBytes "S".toList))
      = some (0, 1, "Seed".toList, none) := by
  decide

/-- C12 as amended: the level ids of one stateful family have consecutive base
indices, that of level `k` being that of level 1 plus `k - 1`, so no two levels
share one; and decoding a level id gives its own literal name, without the
fallback to a base name. -/
theorem level_ids_consecutive {W : Type} (l : LSystem W) (order : List Token)
    (b : Token) (M : Nat)
    (hne : ∀ v ∈ l.Variables, v ≠ [])
    (hsz : l.Variables.length + l.Constants.length ≤ 255)
    (hord : order.Perm (statefulKeys l.Variables))
    (hlv : totalLevels l.Variables order ≤ 127)
    (hm : statefulMap l.Variables b = some M) :
    ∃ l2, l.encodeTokens order = some l2 ∧
      ∀ k, 1 ≤ k → k ≤ M →
        TokenId (l2.TokenBytes.at (b ++ Itoa k))
          = TokenId (l2.TokenBytes.at (b ++ Itoa 1)) + (k - 1) ∧
        l2.decodeByte (l2.TokenBytes.at (b ++ Itoa k)) = some (b ++ Itoa k) := by
  obtain ⟨l2, h1, h2, h3, _⟩ := encodeTokens_eq l order hne hsz hlv
  obtain ⟨off, hoff⟩ := stateful_family_facts l.Params l.Variables l.Constants order b M hord hlv hm
  refine ⟨l2, h1, ?_⟩
  intro k hk1 hk2
  obtain ⟨a1, a2, a3, _⟩ := hoff k hk1 hk2
  obtain ⟨b1, b2, _, _⟩ := hoff 1 (le_refl _) (by omega)
  have ek : l2.TokenBytes.at (b ++ Itoa k) = 128 + (off + (k - 1)) := by
    rw [h2]; exact TokenMap.at_of_some a2
  have e1 : l2.TokenBytes.at (b ++ Itoa 1) = 128 + (off + (1 - 1)) := by
    rw [h2]; exact TokenMap.at_of_some b2
  refine ⟨?_, ?_⟩
  · rw [ek, e1]
    simp only [TokenId]
    omega
  · have hne2 : b ++ Itoa k ≠ [] := by
      intro hc
      exact (Itoa_spec k).1 (List.append_eq_nil.1 hc).2
    unfold LSystem.decodeByte
    rw [ek, h3, a3]
    simp only [tableSize]
    rw [if_pos (by omega), if_pos hne2]

/-- C12 as amended, at the test's grammar. -/
theorem level_ids_consecutive_witness :
    ∃ l2, counterFresh.encodeTokens ["S".toList] = some l2 ∧
      ∀ k, 1 ≤ k → k ≤ 3 →
        TokenId (l2.TokenBytes.at ("S".toList ++ Itoa k))
          = TokenId (l2.TokenBytes.at ("S".toList ++ Itoa 1)) + (k - 1) ∧
        l2.decodeByte (l2.TokenBytes.at ("S".toList ++ Itoa k)) = some ("S".toList ++ Itoa k) :=
  level_ids_consecutive counterFresh ["S".toList] "S".toList 3 (by decide) (by decide)
    (by decide) (by decide) (by decide)

/-! ## ParseRule, group by group -/

theorem fieldsFrom_nonempty (s : List Char) : ∀ cur : List Char,
    ∀ f ∈ fieldsFrom s cur, f ≠ [] := by
  induction s with
  | nil =>
    intro cur f hf
    unfold fieldsFrom at hf
    split at hf
    · cases hf
    · rename_i hc
      simp only [List.mem_singleton] at hf
      rw [hf]; exact hc
  | cons c cs ih =>
    intro cur f hf
    unfold fieldsFrom at hf
    split at hf
    · split at hf
      · exact ih _ f hf
      · rename_i hc
        rcases List.mem_cons.1 hf with h | h
        · rw [h]; exact hc
        · exact ih _ f h
    · exact ih _ f hf

theorem fieldsFrom_eq_nil (s : List Char) : ∀ cur : List Char,
    fieldsFrom s cur = [] → cur = [] ∧ ∀ c ∈ s, isSpace c = true := by
  induction s with
  | nil =>
    intro cur h
    unfold fieldsFrom at h
    split at h
    · rename_i hc
      exact ⟨hc, by simp⟩
    · cases h
  | cons c cs ih =>
    intro cur h
    unfold fieldsFrom at h
    split at h
    · rename_i hsp
      split at h
      · rename_i hc
        obtain ⟨_, h2⟩ := ih _ h
        refine ⟨hc, ?_⟩
        intro d hd
        rcases List.mem_cons.1 hd with e | e
        · rw [e]; exact hsp
        · exact h2 d e
      · cases h
    · obtain ⟨h1, _⟩ := ih _ h
      simp at h1

theorem TrimSpace_eq_nil (s : List Char) (h : ∀ c ∈ s, isSpace c = true) : TrimSpace s = [] := by
  unfold TrimSpace
  have : s.dropWhile isSpace = [] := List.dropWhile_eq_nil_iff.2 h
  rw [this]
  rfl

theorem fields_ne_nil_of_trim (group : List Char) (ht : TrimSpace group ≠ []) :
    Fields group ≠ [] := by
  intro hf
  exact ht (TrimSpace_eq_nil group (fieldsFrom_eq_nil group [] hf).2)

/-- The loop body of `ParseRule` never panics: it gives the alternative of the
group in the words of the specification. -/
theorem parseGroup_eq {W : Type} (pf : List Char → Option W) (group : List Char) :
    parseGroup pf group = some (specGroup pf group) := by
  unfold parseGroup specGroup
  by_cases ht : TrimSpace group = []
  · simp [ht]
  · simp only [ht, if_false]
    cases hf : Fields group with
    | nil => exact absurd hf (fields_ne_nil_of_trim group ht)
    | cons t0 rest =>
      simp only
      cases hp : pf t0 with
      | none => rfl
      | some w =>
        simp only [Option.map_some']
        cases rest with
        | nil => rfl
        | cons t1 rest2 =>
          simp only
          cases t1 with
          | nil =>
            exact absurd rfl (fieldsFrom_nonempty group [] [] (by
              show [] ∈ Fields group
              rw [hf]; simp))
          | cons c tail =>
            simp only
            by_cases hc : c = '*'
            · subst hc
              simp [specAlternative, symbolsToTokens]
            · simp only [hc, if_false, symbolsToTokens]
              unfold specAlternative
              split
              · rename_i cat succs heq
                exact absurd (List.cons.inj (List.cons.inj heq).1).1 hc
              · rfl

theorem parseGroups_eq {W : Type} (pf : List Char → Option W) (gs : List (List Char)) :
    ∀ acc : List (WeightedRule W),
      parseGroups pf gs acc = some (acc ++ gs.filterMap (specGroup pf)) := by
  induction gs with
  | nil => intro acc; simp [parseGroups]
  | cons g gs ih =>
    intro acc
    unfold parseGroups
    rw [parseGroup_eq]
    cases hs : specGroup pf g with
    | none => simp only [ih, List.filterMap_cons, hs]
    | some w => simp only [ih, List.filterMap_cons, hs, List.append_assoc, List.singleton_append]

theorem parseRule_eq {W : Type} (pf : List Char → Option W) (str : List Char) :
    ParseRule pf str = some ((splitFrom (removeNewlines str) []).filterMap (specGroup pf)) := by
  unfold ParseRule
  rw [parseGroups_eq]
  rfl

/-- C19: `ParseRule` never indexes out of range. A group that is not blank after
trimming has a non-empty field list, every field is a non-empty string, and
`ParseRule` returns on every input; among them the inputs of the claim. -/
theorem parseRule_total :
    (∀ group : List Char, TrimSpace group ≠ [] → Fields group ≠ []) ∧
    (∀ group : List Char, ∀ f ∈ Fields group, f ≠ []) ∧
    (∀ (W : Type) (parseFloat : List Char → Option W) (str : List Char),
      ∃ ws, ParseRule parseFloat str = some ws) ∧
    ParseRule parseOne "".toList = some [] ∧
    ParseRule parseOne ";".toList = some [] ∧
    ParseRule parseOne "1".toList = some [⟨1, [], []⟩] ∧
    ParseRule parseOne "1 *".toList = some [⟨1, [], []⟩] :=
  ⟨fields_ne_nil_of_trim, fun group => fieldsFrom_nonempty group [],
    fun _ pf str => ⟨_, parseRule_eq pf str⟩, by decide, by decide, by decide, by decide⟩

/-- C14: `ParseRule` returns, in the order of the `;`-separated groups (of the
string without its newlines), the alternative of every group that is not blank
and whose first field is read as a weight, and nothing for the other groups; a
group that gives nothing leaves the alternatives of the groups around it as
they are. -/
theorem parseRule_skips_malformed {W : Type} (parseFloat : List Char → Option W) :
    (∀ str : List Char, ParseRule parseFloat str
      = some ((splitFrom (removeNewlines str) []).filterMap (specGroup parseFloat))) ∧
    (∀ group : List Char, (specGroup parseFloat group).isSome = true ↔
      TrimSpace group ≠ [] ∧ ∃ f0 rest, Fields group = f0 :: rest ∧
        (parseFloat f0).isSome = true) ∧
    (∀ (before after : List (List Char)) (bad : List Char),
      specGroup parseFloat bad = none →
      parseGroups parseFloat (before ++ bad :: after) []
        = parseGroups parseFloat (before ++ after) []) := by
  refine ⟨parseRule_eq parseFloat, ?_, ?_⟩
  · intro group
    unfold specGroup
    by_cases ht : TrimSpace group = []
    · simp [ht]
    · simp only [ht, if_false, ne_eq, not_false_eq_true, true_and]
      cases hf : Fields group with
      | nil => simp
      | cons f0 rest =>
        simp only [Option.isSome_map', List.cons.injEq]
        constructor
        · intro h; exact ⟨f0, rest, ⟨rfl, rfl⟩, h⟩
        · rintro ⟨g0, r0, ⟨e1, _⟩, h⟩
          rw [e1]; exact h
  · intro before after bad hbad
    rw [parseGroups_eq, parseGroups_eq]
    simp [List.filterMap_append, List.filterMap_cons, hbad]

/-- C15: a group that is accepted with weight `w` and the fields `rest` after
the weight field gives the catalyst `rest[0]` without its `*` and the successors
`rest[1..]` when `rest[0]` starts with `*`, and no catalyst and the successors
`rest` otherwise; the successors are taken as they stand, a later field that
starts with `*` among them. -/
theorem parseGroup_catalyst_first_only {W : Type} (parseFloat : List Char → Option W)
    (group f0 : List Char) (rest : List (List Char)) (w : W)
    (htrim : TrimSpace group ≠ []) (hfields : Fields group = f0 :: rest)
    (hweight : parseFloat f0 = some w) :
    parseGroup parseFloat group = some (some (specAlternative w rest)) ∧
    (∀ cat succs, rest = ('*' :: cat) :: succs →
      specAlternative w rest = { Probability := w, Catalyst := cat, Tokens := succs }) ∧
    ((∀ cat succs, rest ≠ ('*' :: cat) :: succs) →
      specAlternative w rest = { Probability := w, Catalyst := [], Tokens := rest }) := by
  refine ⟨?_, ?_, ?_⟩
  · rw [parseGroup_eq]
    simp only [specGroup, htrim, if_false, hfields, hweight, Option.map_some']
  · intro cat succs h
    rw [h]
    rfl
  · intro h
    unfold specAlternative
    split
    · rename_i cat succs
      exact absurd rfl (h cat succs)
    · rfl

/-- C15 at the group `1 *B C *D`: catalyst `B`, successors `C` and `*D`. -/
theorem parseGroup_catalyst_first_only_witness :
    parseGroup parseOne "1 *B C *D".toList
      = some (some (specAlternative 1 ["*B".toList, "C".toList, "*D".toList])) ∧
    (∀ cat succs, ["*B".toList, "C".toList, "*D".toList] = ('*' :: cat) :: succs →
      specAlternative 1 ["*B".toList, "C".toList, "*D".toList]
        = { Probability := 1, Catalyst := cat, Tokens := succs }) ∧
    ((∀ cat succs, ["*B".toList, "C".toList, "*D".toList] ≠ ('*' :: cat) :: succs) →
      specAlternative 1 ["*B".toList, "C".toList, "*D".toList]
        = { Probability := 1, Catalyst := [], Tokens := ["*B".toList, "C".toList, "*D".toList] }) :=
  parseGroup_catalyst_first_only parseOne "1 *B C *D".toList "1".toList
    ["*B".toList, "C".toList, "*D".toList] 1 (by decide) (by decide) (by decide)

theorem isVariable_iff (t : Token) :
    isVariable t = true ↔
      (∃ c rest, t = c :: rest ∧ 65 ≤ c.toNat ∧ c.toNat ≤ 90) ∧ t.getLast? ≠ some '_' := by
  cases t with
  | nil => simp [isVariable, isCapitalized]
  | cons c rest =>
    simp only [isVariable, isCapitalized, List.length_cons, ge_iff_le, Nat.le_add_left,
      decide_True, Bool.true_and, Bool.and_eq_true, decide_eq_true_eq, Bool.not_eq_true',
      decide_eq_false_iff_not, List.cons.injEq, ne_eq]
    constructor
    · rintro ⟨⟨h1, h2⟩, h3⟩
      exact ⟨⟨c, rest, ⟨rfl, rfl⟩, h1, h2⟩, h3⟩
    · rintro ⟨⟨d, r, ⟨e1, _⟩, h1, h2⟩, h3⟩
      subst e1
      exact ⟨⟨h1, h2⟩, h3⟩

/-- C16: for every rules map `ParseRules` returns; the two sets are disjoint,
their union is the set of the tokens that the parsed rules mention
(predecessors, catalysts, the empty token standing for no catalyst, and
successors), a token is in the variable set exactly when it is mentioned, its
first character is in `A`..`Z` and its last is not `_`, and the empty token is
never a variable. -/
theorem parseRules_classifies {W : Type} (parseFloat : List Char → Option W)
    (rulesMap : List (Token × List Char)) :
    ∃ vs cs rs, ParseRules parseFloat rulesMap = some (vs, cs, rs) ∧
      rs = parsedOf parseFloat rulesMap ∧
      (∀ kv ∈ rulesMap, (ParseRule parseFloat kv.2).isSome = true) ∧
      (∀ t, ¬ (t ∈ vs ∧ t ∈ cs)) ∧
      (∀ t, (t ∈ vs ∨ t ∈ cs) ↔ t ∈ mentionedTokens rs) ∧
      (∀ t, t ∈ vs ↔ t ∈ mentionedTokens rs ∧
        (∃ c rest, t = c :: rest ∧ 65 ≤ c.toNat ∧ c.toNat ≤ 90) ∧ t.getLast? ≠ some '_') ∧
      [] ∉ vs := by
  have hok : ∀ kv ∈ rulesMap, (ParseRule parseFloat kv.2).isSome = true := by
    intro kv _
    rw [parseRule_eq]; rfl
  obtain ⟨vs, cs, h1, _, _, h4, h5⟩ := parseRules_spec parseFloat rulesMap hok
  refine ⟨vs, cs, _, h1, rfl, hok, ?_, ?_, ?_, ?_⟩
  · rintro t ⟨a, b⟩
    have := ((h4 t).1 a).2
    rw [((h5 t).1 b).2] at this
    cases this
  · intro t
    rw [h4, h5]
    constructor
    · rintro (h | h) <;> exact h.1
    · intro h
      cases hv : isVariable t with
      | true => exact Or.inl ⟨h, rfl⟩
      | false => exact Or.inr ⟨h, rfl⟩
  · intro t
    rw [h4, isVariable_iff]
  · intro h
    have := ((h4 []).1 h).2
    revert this
    decide

/-! ## Which token consults which rule -/

theorem levelList_head (m : TokenMap Nat) (order : List Token) :
    levelList m order = [] ∨ ∃ nm tail, levelList m order = (nm, 1) :: tail := by
  induction order with
  | nil => exact Or.inl rfl
  | cons c cs ih =>
    cases hmc : m c with
    | none => simpa [levelList, hmc] using ih
    | some Mc =>
      cases Mc with
      | zero => simpa [levelList, hmc] using ih
      | succ n =>
        right
        refine ⟨c ++ Itoa 1, (List.range' 2 n).map (fun k => (c ++ Itoa k, k % 256))
          ++ levelList m cs, ?_⟩
        simp only [levelList, hmc, List.range'_succ, List.map_cons, List.cons_append]

/-- The levels of one base are allocated next to each other, in rising order,
and what is allocated right after them, if anything, is a level 1. -/
theorem levelList_block_next (m : TokenMap Nat) (order : List Token) (b : Token) (M : Nat)
    (hb : b ∈ order) (hm : m b = some M) :
    ∃ off, (∀ k, 1 ≤ k → k ≤ M →
        (levelList m order).get? (off + (k - 1)) = some (b ++ Itoa k, k % 256)) ∧
      ((levelList m order).get? (off + M) = none ∨
        ∃ nm, (levelList m order).get? (off + M) = some (nm, 1)) := by
  induction order with
  | nil => cases hb
  | cons c cs ih =>
    by_cases hc : b = c
    · subst hc
      refine ⟨0, ?_, ?_⟩
      · intro k h1 h2
        simp only [levelList, hm, Nat.zero_add]
        have hlt : k - 1 < M := by omega
        rw [List.get?_eq_getElem?, List.getElem?_append_left (by simpa using hlt)]
        rw [List.getElem?_map, List.getElem?_range' 1 1 hlt]
        simp only [Option.map_some', Nat.one_mul]
        rw [show 1 + (k - 1) = k by omega]
      · simp only [levelList, hm, Nat.zero_add]
        rw [List.get?_eq_getElem?, List.getElem?_append_right (by simp)]
        simp only [List.length_map, List.length_range', Nat.sub_self]
        rcases levelList_head m cs with h | ⟨nm, tail, h⟩
        · left; rw [h]; rfl
        · right; exact ⟨nm, by rw [h]; simp⟩
    · have hb2 : b ∈ cs := by
        rcases List.mem_cons.1 hb with h | h
        · exact absurd h hc
        · exact h
      obtain ⟨off, hoff, hnext⟩ := ih hb2
      cases hmc : m c with
      | none =>
        refine ⟨off, ?_, ?_⟩
        · intro k h1 h2
          simpa [levelList, hmc] using hoff k h1 h2
        · simpa [levelList, hmc] using hnext
      | some Mc =>
        have hshift : ∀ i, (levelList m (c :: cs)).get? (Mc + i) = (levelList m cs).get? i := by
          intro i
          simp only [levelList, hmc]
          rw [List.get?_eq_getElem?, List.getElem?_append_right (by simp)]
          simp only [List.length_map, List.length_range', Nat.add_sub_cancel_left,
            List.get?_eq_getElem?]
        refine ⟨Mc + off, ?_, ?_⟩
        · intro k h1 h2
          rw [Nat.add_assoc, hshift]
          exact hoff k h1 h2
        · rw [Nat.add_assoc, hshift]
          exact hnext

/-- The facts of `stateful_family_facts`, and that the level stored right after
those of the family, if any, is 1. -/
theorem stateful_family_next (params : Nat → Nat) (vars consts order : List Token)
    (b : Token) (M : Nat)
    (hord : order.Perm (statefulKeys vars)) (hlv : totalLevels vars order ≤ 127)
    (hm : statefulMap vars b = some M) :
    ∃ off, (∀ k, 1 ≤ k → k ≤ M → off + (k - 1) < 127 ∧
        allIds vars consts order (b ++ Itoa k) = some (128 + (off + (k - 1))) ∧
        allParams params vars order (off + (k - 1)) = k) ∧
      (allParams params vars order (off + M) = params (off + M) ∨
        allParams params vars order (off + M) = 1) := by
  obtain ⟨hkeys, hnd⟩ := statefulKeys_spec vars
  have hb : b ∈ order := hord.mem_iff.2 ((hkeys b).2 (by rw [hm]; rfl))
  have hnd2 : order.Nodup := hord.nodup_iff.2 hnd
  obtain ⟨off, hoff, hnext⟩ := levelList_block_next (statefulMap vars) order b M hb hm
  have hnames := levelList_names_nodup (statefulMap vars) order hnd2
    (fun c Mc hc => (statefulMap_facts hc).1)
  refine ⟨off, ?_, ?_⟩
  · intro k h1 h2
    have hget := hoff k h1 h2
    have hgn : (levelNames vars order).get? (off + (k - 1)) = some (b ++ Itoa k) := by
      simp only [levelNames, List.get?_eq_getElem?, List.getElem?_map] at hget ⊢
      rw [hget]; rfl
    have hgl : ((levelList (statefulMap vars) order).map Prod.snd).get? (off + (k - 1))
        = some (k % 256) := by
      simp only [List.get?_eq_getElem?, List.getElem?_map] at hget ⊢
      rw [hget]; rfl
    have hlt : off + (k - 1) < 127 := by
      have : off + (k - 1) < (levelNames vars order).length := by
        by_contra hc
        rw [List.get?_eq_none.2 (by omega)] at hgn
        cases hgn
      rw [levelNames_length] at this
      omega
    have hk : k % 256 = k := Nat.mod_eq_of_lt (by have := (statefulMap_facts hm).2.1; omega)
    refine ⟨hlt, seqTB_nodup _ hnames _ _ hgn _ _, ?_⟩
    have := seqAt_inside _ params 0 _ _ hgl
    rw [Nat.zero_add, hk] at this
    exact this
  · rcases hnext with h | ⟨nm, h⟩
    · left
      unfold allParams
      apply seqAt_outside
      right
      have := List.get?_eq_none.1 h
      simpa using this
    · right
      have hgl : ((levelList (statefulMap vars) order).map Prod.snd).get? (off + M) = some 1 := by
        simp only [List.get?_eq_getElem?, List.getElem?_map] at h ⊢
        rw [h]; rfl
      have := seqAt_inside _ params 0 _ _ hgl
      rw [Nat.zero_add] at this
      exact this

/-- C20: in a system built from a fresh record, for a stateful family with
maximum level `M` and a level `k` with `1 < k ≤ M`, `applyRulesOnce` reads the
rule table for a token of level `k` at another id than the token's own; the only
byte-sized token for which it reads the table at the id of level `k` is the id
of level `k + 1` of the same family, so for `k = M` there is none; and what it
does on a token of level `k` does not depend on the rule under that token's id. -/
theorem own_level_rule_not_consulted {W σ : Type} (choose : Chooser W σ) (l : LSystem W)
    (order : List Token) (b : Token) (M k : Nat)
    (hne : ∀ v ∈ l.Variables, v ≠ [])
    (hsz : l.Variables.length + l.Constants.length ≤ 255)
    (hord : order.Perm (statefulKeys l.Variables))
    (hlv : totalLevels l.Variables order ≤ 127)
    (hfresh : ∀ n, l.Params n = 0)
    (hm : statefulMap l.Variables b = some M) (hk1 : 1 < k) (hk2 : k ≤ M) :
    ∃ (l2 : LSystem W) (idk : Nat), l.encodeTokens order = some l2 ∧
      l2.TokenBytes (b ++ Itoa k) = some idk ∧
      l2.lowerToken idk ≠ idk ∧
      (∀ t, t < 256 → l2.lowerToken t = idk →
        k < M ∧ l2.TokenBytes (b ++ Itoa (k + 1)) = some t) ∧
      (k = M → ∀ t, t < 256 → l2.lowerToken t ≠ idk) ∧
      (∀ (r : ByteProductionRule W) (g : σ) (input out : Buffer),
        input.content = some [idk] →
        (LSystem.applyRulesOnce choose { l2 with ByteRules := setAt l2.ByteRules idk r } g
            input out).map (fun x => (x.2.1, x.2.2))
          = (l2.applyRulesOnce choose g input out).map (fun x => (x.2.1, x.2.2))) := by
  obtain ⟨l2, h1, h2, _, h4, _⟩ := encodeTokens_eq l order hne hsz hlv
  obtain ⟨off, hoff, hnext⟩ := stateful_family_next l.Params l.Variables l.Constants order b M
    hord hlv hm
  obtain ⟨a1, a2, a3⟩ := hoff k (by omega) hk2
  have eTid : TokenId (128 + (off + (k - 1))) = off + (k - 1) := by
    simp only [TokenId]; omega
  have hlow : l2.lowerToken (128 + (off + (k - 1))) = 128 + (off + (k - 1)) - 1 := by
    unfold LSystem.lowerToken
    rw [h4, eTid, a3]
    simp only [HasParam, Nat.le_add_right, decide_True, Bool.true_and, gt_iff_lt, hk1, if_true]
    omega
  have hcons : ∀ t, t < 256 → l2.lowerToken t = 128 + (off + (k - 1)) →
      k < M ∧ l2.TokenBytes (b ++ Itoa (k + 1)) = some t := by
    intro t ht hl
    unfold LSystem.lowerToken at hl
    split at hl
    · rename_i hc
      simp only [HasParam, Bool.and_eq_true, decide_eq_true_eq, gt_iff_lt] at hc
      obtain ⟨c1, c2⟩ := hc
      have ht2 : t = 128 + (off + k) := by omega
      have eT : TokenId t = off + k := by
        rw [ht2]; simp only [TokenId]; omega
      rw [eT, h4] at c2
      by_cases hkM : k < M
      · obtain ⟨_, b2, _⟩ := hoff (k + 1) (by omega) (by omega)
        refine ⟨hkM, ?_⟩
        rw [h2, b2, ht2]
        simp
      · exfalso
        have hkeq : k = M := by omega
        rw [hkeq] at c2
        rcases hnext with h | h
        · rw [h, hfresh] at c2; omega
        · rw [h] at c2; omega
    · rename_i hc
      exfalso
      apply hc
      rw [hl, h4, eTid, a3]
      simp only [HasParam, Nat.le_add_right, decide_True, Bool.true_and, gt_iff_lt, hk1]
  refine ⟨l2, 128 + (off + (k - 1)), h1, by rw [h2, a2], by rw [hlow]; omega, hcons, ?_, ?_⟩
  · intro hkM t ht hl
    have := (hcons t ht hl).1
    omega
  · intro r g input out hin
    have hlow2 : LSystem.lowerToken
        { l2 with
          ByteRules := setAt l2.ByteRules (128 + (off + (k - 1))) r }
        (128 + (off + (k - 1))) = 128 + (off + (k - 1)) - 1 := hlow
    have hne2 : 128 + (off + (k - 1)) - 1 ≠ 128 + (off + (k - 1)) := by omega
    rw [applyRulesOnce_single choose _ g input out _ hin (by rw [hlow2]; unfold tableSize; omega),
      applyRulesOnce_single choose l2 g input out _ hin (by rw [hlow]; unfold tableSize; omega),
      hlow2, hlow]
    simp only [setAt, hne2, if_false]
    split <;> rfl

/-- C20 at the test's grammar: base `S`, level 3 of 3. -/
theorem own_level_rule_not_consulted_witness :
    ∃ (l2 : LSystem Nat) (idk : Nat), counterFresh.encodeTokens ["S".toList] = some l2 ∧
      l2.TokenBytes ("S".toList ++ Itoa 3) = some idk ∧
      l2.lowerToken idk ≠ idk ∧
      (∀ t, t < 256 → l2.lowerToken t = idk →
        3 < 3 ∧ l2.TokenBytes ("S".toList ++ Itoa (3 + 1)) = some t) ∧
      (3 = 3 → ∀ t, t < 256 → l2.lowerToken t ≠ idk) ∧
      (∀ (r : ByteProductionRule Nat) (g : Unit) (input out : Buffer),
        input.content = some [idk] →
        (LSystem.applyRulesOnce firstAlternative
            { l2 with ByteRules := setAt l2.ByteRules idk r } g input out).map
            (fun x => (x.2.1, x.2.2))
          = (l2.applyRulesOnce firstAlternative g input out).map (fun x => (x.2.1, x.2.2))) :=
  own_level_rule_not_consulted firstAlternative counterFresh ["S".toList] "S".toList 3 3
    (by decide) (by decide) (by decide) (by decide) (fun _ => rfl) (by decide) (by decide)
    (by decide)

/-! ## Lanes of the pool -/

theorem MemPool.setWrite_get (p : MemPool) (i : Nat) (b : Buffer) (j : Nat) :
    (p.setWrite i b).lanes.get? j =
      (p.lanes.get? j).map fun ln => if i = j then { ln with write := b } else ln := by
  simp only [MemPool.setWrite, List.get?_eq_getElem?, List.getElem?_modify]
  cases p.lanes[j]? <;> simp

theorem MemPool.swap_get (p : MemPool) (i j : Nat) :
    (p.Swap i).lanes.get? j =
      (p.lanes.get? j).map fun ln =>
        if i = j then { read := ln.write, write := { ln.read with Len := 0 } } else ln := by
  simp only [MemPool.Swap, List.get?_eq_getElem?, List.getElem?_modify]
  cases p.lanes[j]? <;> simp

theorem MemPool.setWrite_length (p : MemPool) (i : Nat) (b : Buffer) :
    (p.setWrite i b).lanes.length = p.lanes.length := by
  simp [MemPool.setWrite]

theorem MemPool.swap_length (p : MemPool) (i : Nat) :
    (p.Swap i).lanes.length = p.lanes.length := by
  simp [MemPool.Swap]

theorem applyRulesOnce_pure {W σ : Type} (choose : Chooser W σ)
    (select : ByteProductionRule W → TokenStateId → List TokenStateId)
    (hpure : ∀ r p g, choose r p g = (select r p, r, g))
    (l : LSystem W) (g : σ) (input output : Buffer) (toks : List Nat)
    (hin : input.content = some toks) (hout : output.Len = 0)
    (hids : ∀ t ∈ toks, t < tableSize) :
    ∃ out, l.applyRulesOnce choose g input output = some (l, g, out) ∧
      out.content = some (specRewrite l select toks) := by
  obtain ⟨out, h1, h2⟩ := applyRulesFrom_pure choose select hpure l g input toks hin toks 0
    output [] (by simp) (Buffer.content_of_len_zero output hout) hids
  refine ⟨out, ?_, ?_⟩
  · simp only [LSystem.applyRulesOnce, hin, Option.some_bind]
    exact h1
  · rw [h2]
    simp [specRewrite, List.range_eq_range']

theorem PoolHolds.update_lane {p p2 : MemPool} {cont : Nat → List TokenStateId} {i : Nat}
    {ln2 : Lane} {c : List TokenStateId} (h : PoolHolds p cont)
    (hlen : p2.lanes.length = p.lanes.length)
    (hget : p2.lanes.get? i = some ln2) (hc : ln2.read.content = some c) (hw : ln2.write.Len = 0)
    (hother : ∀ j, j ≠ i → p2.lanes.get? j = p.lanes.get? j) :
    PoolHolds p2 (Function.update cont i c) := by
  intro j hj
  by_cases hji : j = i
  · subst hji
    exact ⟨ln2, hget, by simpa using hc, hw⟩
  · rw [hother j hji, Function.update_noteq hji]
    exact h j (hlen ▸ hj)

/-- One step on lane `i` under a selection that is a function of rule and
predecessor. -/
theorem stepLane_pure {W σ : Type} (choose : Chooser W σ)
    (select : ByteProductionRule W → TokenStateId → List TokenStateId)
    (hpure : ∀ r p g, choose r p g = (select r p, r, g))
    (l : LSystem W) (g : σ) (i : Nat) (cont : Nat → List TokenStateId)
    (hp : PoolHolds l.MemPool cont) (hi : i < l.MemPool.lanes.length)
    (hids : ∀ t ∈ cont i, t < tableSize) :
    ∃ p2, l.stepLane choose i g = some ({ l with MemPool := p2 }, g) ∧
      p2.lanes.length = l.MemPool.lanes.length ∧
      PoolHolds p2 (Function.update cont i (specRewrite l select (cont i))) := by
  obtain ⟨ln, hget, hc, hw⟩ := hp i hi
  obtain ⟨out, h1, h2⟩ := applyRulesOnce_pure choose select hpure l g ln.read ln.write (cont i)
    hc hw hids
  refine ⟨(l.MemPool.setWrite i out).Swap i, ?_, ?_, ?_⟩
  · simp only [LSystem.stepLane, MemPool.GetReadBuffer, MemPool.GetWriteBuffer, hget,
      Option.map_some', Option.some_bind, h1]
  · rw [MemPool.swap_length, MemPool.setWrite_length]
  · have hg2 : ((l.MemPool.setWrite i out).Swap i).lanes.get? i
        = some { read := out, write := { ln.read with Len := 0 } } := by
      rw [MemPool.swap_get, MemPool.setWrite_get, hget]
      simp
    refine hp.update_lane (by rw [MemPool.swap_length, MemPool.setWrite_length]) hg2 h2 rfl ?_
    · intro j hj
      rw [MemPool.swap_get, MemPool.setWrite_get]
      cases l.MemPool.lanes.get? j <;> simp [Ne.symm hj]

theorem specRewrite_pool {W : Type} (l : LSystem W) (p : MemPool)
    (select : ByteProductionRule W → TokenStateId → List TokenStateId) :
    specRewrite { l with MemPool := p } select = specRewrite l select := rfl

theorem specPiece_lt {W : Type} (l : LSystem W)
    (select : ByteProductionRule W → TokenStateId → List TokenStateId)
    (hsel : ∀ s, s < tableSize → ∀ p, ∀ t ∈ select (l.ByteRules s) p, t < tableSize)
    (toks : List Nat) (hids : ∀ t ∈ toks, t < tableSize) (i : Nat) (hi : i < toks.length) :
    ∀ t ∈ specPiece l select toks i, t < tableSize := by
  have hget : toks.getD i 0 < tableSize := by
    rw [List.getD_eq_getElem?_getD, List.getElem?_eq_getElem hi]
    exact hids _ (List.getElem_mem hi)
  have hlow := lowerToken_lt l _ hget
  intro t ht
  unfold specPiece at ht
  dsimp only at ht
  split at ht
  · simp only [List.mem_singleton] at ht
    rw [ht]; exact hlow
  · exact hsel _ hlow _ t ht

theorem specRewrite_lt {W : Type} (l : LSystem W)
    (select : ByteProductionRule W → TokenStateId → List TokenStateId)
    (hsel : ∀ s, s < tableSize → ∀ p, ∀ t ∈ select (l.ByteRules s) p, t < tableSize)
    (toks : List Nat) (hids : ∀ t ∈ toks, t < tableSize) :
    ∀ t ∈ specRewrite l select toks, t < tableSize := by
  intro t ht
  unfold specRewrite at ht
  rw [List.mem_flatMap] at ht
  obtain ⟨i, hi, hti⟩ := ht
  exact specPiece_lt l select hsel toks hids i (List.mem_range.1 hi) t hti

theorem specRewrite_iterate_lt {W : Type} (l : LSystem W)
    (select : ByteProductionRule W → TokenStateId → List TokenStateId)
    (hsel : ∀ s, s < tableSize → ∀ p, ∀ t ∈ select (l.ByteRules s) p, t < tableSize)
    (n : Nat) : ∀ (toks : List Nat), (∀ t ∈ toks, t < tableSize) →
    ∀ t ∈ (specRewrite l select)^[n] toks, t < tableSize := by
  induction n with
  | zero => intro toks h; simpa using h
  | succ n ih =>
    intro toks h
    rw [Function.iterate_succ_apply]
    exact ih _ (specRewrite_lt l select hsel toks h)

/-- The loop of `n` steps on lane `i`. -/
theorem stepLaneTimes_pure {W σ : Type} (choose : Chooser W σ)
    (select : ByteProductionRule W → TokenStateId → List TokenStateId)
    (hpure : ∀ r p g, choose r p g = (select r p, r, g))
    (l : LSystem W)
    (hsel : ∀ s, s < tableSize → ∀ p, ∀ t ∈ select (l.ByteRules s) p, t < tableSize)
    (g : σ) (i n : Nat) : ∀ (p : MemPool) (cont : Nat → List TokenStateId),
    PoolHolds p cont → i < p.lanes.length → (∀ t ∈ cont i, t < tableSize) →
    ∃ p2, LSystem.stepLaneTimes choose i n { l with MemPool := p } g
        = some ({ l with MemPool := p2 }, g) ∧
      p2.lanes.length = p.lanes.length ∧
      PoolHolds p2 (Function.update cont i ((specRewrite l select)^[n] (cont i))) := by
  induction n with
  | zero =>
    intro p cont hp _ _
    exact ⟨p, rfl, rfl, by simpa using hp⟩
  | succ n ih =>
    intro p cont hp hi hids
    obtain ⟨p1, h1, hlen1, hp1⟩ := stepLane_pure choose select hpure { l with MemPool := p } g i
      cont hp hi hids
    rw [specRewrite_pool] at hp1
    obtain ⟨p2, h2, hlen2, hp2⟩ := ih p1 _ hp1 (hlen1 ▸ hi)
      (by simpa using specRewrite_lt l select hsel _ hids)
    refine ⟨p2, ?_, hlen2.trans hlen1, ?_⟩
    · simp only [LSystem.stepLaneTimes, h1, Option.some_bind]
      exact h2
    · simpa [Function.iterate_succ_apply] using hp2

/-- The lanes of `applyRules` from lane `i` on. -/
theorem applyRulesLanes_pure {W σ : Type} (choose : Chooser W σ)
    (select : ByteProductionRule W → TokenStateId → List TokenStateId)
    (hpure : ∀ r p g, choose r p g = (select r p, r, g))
    (l : LSystem W)
    (hsel : ∀ s, s < tableSize → ∀ p, ∀ t ∈ select (l.ByteRules s) p, t < tableSize)
    (g : σ) (n count : Nat) : ∀ (i : Nat) (p : MemPool) (cont : Nat → List TokenStateId),
    PoolHolds p cont → i + count ≤ p.lanes.length → (∀ j, ∀ t ∈ cont j, t < tableSize) →
    ∃ p2, applyRulesLanes choose n i count { l with MemPool := p } g
        = some ({ l with MemPool := p2 }, g) ∧
      p2.lanes.length = p.lanes.length ∧
      PoolHolds p2 (fun j => if i ≤ j ∧ j < i + count then (specRewrite l select)^[n] (cont j)
        else cont j) := by
  induction count with
  | zero =>
    intro i p cont hp _ _
    refine ⟨p, rfl, rfl, ?_⟩
    have : (fun j => if i ≤ j ∧ j < i + 0 then (specRewrite l select)^[n] (cont j) else cont j)
        = cont := by
      funext j
      rw [if_neg (by omega)]
    rw [this]; exact hp
  | succ count ih =>
    intro i p cont hp hi hids
    obtain ⟨p1, h1, hlen1, hp1⟩ := stepLaneTimes_pure choose select hpure l hsel g i n p cont hp
      (by omega) (hids i)
    obtain ⟨p2, h2, hlen2, hp2⟩ := ih (i + 1) p1 _ hp1 (by omega) (by
      intro j t ht
      by_cases hj : j = i
      · subst hj
        rw [Function.update_same] at ht
        exact specRewrite_iterate_lt l select hsel n _ (hids j) t ht
      · rw [Function.update_noteq hj] at ht
        exact hids j t ht)
    refine ⟨p2, ?_, hlen2.trans hlen1, ?_⟩
    · simp only [applyRulesLanes, h1, Option.some_bind]
      exact h2
    · have : (fun j => if i ≤ j ∧ j < i + (count + 1) then (specRewrite l select)^[n] (cont j)
          else cont j) = (fun j => if i + 1 ≤ j ∧ j < i + 1 + count then
            (specRewrite l select)^[n] (Function.update cont i
              ((specRewrite l select)^[n] (cont i)) j)
          else Function.update cont i ((specRewrite l select)^[n] (cont i)) j) := by
        funext j
        by_cases hj : j = i
        · subst hj
          rw [if_pos (by omega), if_neg (by omega), Function.update_same]
        · rw [Function.update_noteq hj]
          by_cases hr : i ≤ j ∧ j < i + (count + 1)
          · rw [if_pos hr, if_pos (by omega)]
          · rw [if_neg hr, if_neg (by omega)]
      rw [this]; exact hp2

theorem readAllLanes_eq : ∀ (lanes : List Lane) (cont : Nat → List TokenStateId),
    (∀ j, j < lanes.length → ∃ ln, lanes.get? j = some ln ∧ ln.read.content = some (cont j)) →
    readAllLanes lanes = some ((List.range lanes.length).flatMap cont)
  | [], _, _ => by simp [readAllLanes]
  | ln :: rest, cont, h => by
    obtain ⟨ln0, h0, hc0⟩ := h 0 (by simp)
    simp only [List.get?_cons_zero, Option.some.injEq] at h0
    subst h0
    have ih := readAllLanes_eq rest (fun j => cont (j + 1)) (by
      intro j hj
      obtain ⟨ln1, h1, hc1⟩ := h (j + 1) (by simpa using hj)
      exact ⟨ln1, by simpa using h1, hc1⟩)
    simp only [readAllLanes, hc0, ih, Option.some_bind, Option.map_some', List.length_cons,
      List.range_succ_eq_map, List.flatMap_cons, List.flatMap_map]

theorem PoolHolds.readAll {p : MemPool} {cont : Nat → List TokenStateId} (h : PoolHolds p cont) :
    p.ReadAll = some ((List.range p.lanes.length).flatMap cont) :=
  readAllLanes_eq p.lanes cont fun j hj =>
    let ⟨ln, h1, h2, _⟩ := h j hj
    ⟨ln, h1, h2⟩

theorem flatMap_range_congr {α : Type} (n : Nat) (f g : Nat → List α)
    (h : ∀ j, j < n → f j = g j) : (List.range n).flatMap f = (List.range n).flatMap g := by
  induction n with
  | zero => rfl
  | succ n ih =>
    simp only [List.range_succ, List.flatMap_append, List.flatMap_singleton]
    rw [ih (fun j hj => h j (by omega)), h n (by omega)]

theorem flatMap_range_first {α : Type} (n : Nat) (f : Nat → List α) (hn : 0 < n)
    (h : ∀ j, 0 < j → j < n → f j = []) : (List.range n).flatMap f = f 0 := by
  induction n with
  | zero => omega
  | succ n ih =>
    simp only [List.range_succ, List.flatMap_append, List.flatMap_singleton]
    by_cases h0 : n = 0
    · subst h0; simp
    · rw [ih (by omega) (fun j hj hjn => h j hj (by omega)), h n (by omega) (by omega)]
      simp

/-- The chunks put together, in lane order, are the generation. -/
theorem flatMap_chunks {α : Type} (gen : List α) (c : Nat) :
    ∀ k, (List.range k).flatMap (fun i => (gen.take ((i + 1) * c)).drop (i * c))
      = gen.take (k * c) := by
  intro k
  induction k with
  | zero => simp
  | succ k ih =>
    simp only [List.range_succ, List.flatMap_append, List.flatMap_singleton, ih, List.flatMap_nil,
      List.append_nil]
    have e : (k + 1) * c = k * c + c := by ring
    have e2 : k * c + c - k * c = c := by omega
    rw [e, List.drop_take, e2, List.take_add]

/-! ## Distribution over the lanes -/

theorem slice_chunk (rd : Buffer) (gen : List TokenStateId) (T i : Nat)
    (hc : rd.content = some gen) (hi : i < T) :
    rd.slice (i * (rd.Len / T))
        (if i = T - 1 then rd.Len else i * (rd.Len / T) + rd.Len / T)
      = some (specChunk T gen i) ∧ rd.Len = gen.length := by
  obtain ⟨hle, hgen⟩ := Buffer.content_eq hc
  have hlen : gen.length = rd.Len := by rw [hgen]; simp; omega
  have hmul : rd.Len / T * T ≤ rd.Len := Nat.div_mul_le_self _ _
  refine ⟨?_, hlen.symm⟩
  unfold specChunk Buffer.slice
  rw [hlen]
  generalize rd.Len / T = c at hmul ⊢
  have hlo : i * c ≤ (T - 1) * c := Nat.mul_le_mul_right _ (by omega)
  have hT1 : (T - 1) * c + c = c * T := by
    obtain ⟨k, rfl⟩ : ∃ k, T = k + 1 := ⟨T - 1, by omega⟩
    simp only [Nat.add_sub_cancel]
    ring
  by_cases hlast : i = T - 1
  · rw [if_pos hlast, if_pos hlast, if_pos ⟨by omega, hle⟩, hgen]
  · have hi2 : i + 1 ≤ T - 1 := by omega
    have hhi : (i + 1) * c ≤ (T - 1) * c := Nat.mul_le_mul_right _ hi2
    have e : i * c + c = (i + 1) * c := by ring
    rw [if_neg hlast, if_neg hlast, e, if_pos ⟨by omega, by omega⟩, hgen, List.take_take,
      Nat.min_eq_left (by omega)]

theorem MemPool.setWrite_read (p : MemPool) (i : Nat) (b : Buffer) (k : Nat) :
    (p.setWrite i b).GetReadBuffer k = p.GetReadBuffer k := by
  unfold MemPool.GetReadBuffer
  rw [MemPool.setWrite_get]
  cases p.lanes.get? k with
  | none => rfl
  | some ln =>
    simp only [Option.map_some']
    split <;> rfl

theorem distributeLanes_get (T : Nat) (rd : Buffer) (gen : List TokenStateId)
    (hc : rd.content = some gen) (count : Nat) : ∀ (i : Nat) (p : MemPool),
    p.GetReadBuffer 0 = some rd → i + count ≤ T → p.lanes.length = T →
    ∃ p2, distributeLanes T (rd.Len / T) i count p = some p2 ∧ p2.lanes.length = T ∧
      ∀ j, p2.lanes.get? j = (p.lanes.get? j).map fun ln =>
        if i ≤ j ∧ j < i + count then
          { ln with write := ln.write.AppendSlice (specChunk T gen j) }
        else ln := by
  induction count with
  | zero =>
    intro i p _ _ hlen
    refine ⟨p, rfl, hlen, fun j => ?_⟩
    cases p.lanes.get? j with
    | none => rfl
    | some ln =>
      simp only [Option.map_some']
      rw [if_neg (by omega)]
  | succ count ih =>
    intro i p hrd hi hlen
    have hiT : i < p.lanes.length := by omega
    obtain ⟨lnI, hget⟩ : ∃ ln, p.lanes.get? i = some ln := by
      rw [List.get?_eq_getElem?, List.getElem?_eq_getElem hiT]
      exact ⟨_, rfl⟩
    obtain ⟨hslice, _⟩ := slice_chunk rd gen T i hc (by omega)
    have hstep : distributeLane T (rd.Len / T) i p
        = some (p.setWrite i (lnI.write.AppendSlice (specChunk T gen i))) := by
      simp only [distributeLane, hrd, Option.some_bind, MemPool.GetWriteBuffer, hget,
        Option.map_some', hslice]
    obtain ⟨p2, h2, hlen2, hget2⟩ := ih (i + 1) _
      ((MemPool.setWrite_read p i _ 0).trans hrd) (by omega)
      ((MemPool.setWrite_length p i _).trans hlen)
    refine ⟨p2, ?_, hlen2, fun j => ?_⟩
    · simp only [distributeLanes, hstep, Option.some_bind]
      exact h2
    · rw [hget2 j, MemPool.setWrite_get]
      by_cases hj : i = j
      · subst hj
        rw [hget]
        simp
      · cases p.lanes.get? j with
        | none => rfl
        | some ln =>
          simp only [Option.map_some', if_neg hj]
          by_cases hr : i + 1 ≤ j ∧ j < i + 1 + count
          · rw [if_pos hr, if_pos (by omega)]
          · rw [if_neg hr, if_neg (by omega)]

theorem swapLanes_get (count : Nat) : ∀ (i : Nat) (p : MemPool),
    (swapLanes i count p).lanes.length = p.lanes.length ∧
    ∀ j, (swapLanes i count p).lanes.get? j = (p.lanes.get? j).map fun ln =>
      if i ≤ j ∧ j < i + count then
        { read := ln.write, write := { ln.read with Len := 0 } }
      else ln := by
  induction count with
  | zero =>
    intro i p
    refine ⟨rfl, fun j => ?_⟩
    simp only [swapLanes]
    cases p.lanes.get? j with
    | none => rfl
    | some ln =>
      simp only [Option.map_some']
      rw [if_neg (by omega)]
  | succ count ih =>
    intro i p
    obtain ⟨hlen, hget⟩ := ih (i + 1) (p.Swap i)
    refine ⟨?_, fun j => ?_⟩
    · simp only [swapLanes]
      rw [hlen, MemPool.swap_length]
    · simp only [swapLanes]
      rw [hget j, MemPool.swap_get]
      cases p.lanes.get? j with
      | none => rfl
      | some ln =>
        simp only [Option.map_some']
        by_cases hj : i = j
        · subst hj
          rw [if_pos rfl, if_neg (by omega), if_pos (by omega)]
        · rw [if_neg hj]
          by_cases hr : i + 1 ≤ j ∧ j < i + 1 + count
          · rw [if_pos hr, if_pos (by omega)]
          · rw [if_neg hr, if_neg (by omega)]

/-- The distribution on the pool: every lane then reads its chunk and has an
empty write buffer. -/
theorem distribute_holds (p : MemPool) (T : Nat) (gen : List TokenStateId) (hT : 0 < T)
    (hlen : p.lanes.length = T)
    (hread : (p.GetReadBuffer 0).bind Buffer.content = some gen)
    (hwrite : ∀ i, i < T → ∃ w, p.GetWriteBuffer i = some w ∧ w.Len = 0) :
    ∃ p2, p.distribute T = some p2 ∧ p2.lanes.length = T ∧ PoolHolds p2 (specChunk T gen) := by
  obtain ⟨rd, hrd, hc⟩ : ∃ rd, p.GetReadBuffer 0 = some rd ∧ rd.content = some gen := by
    cases h : p.GetReadBuffer 0 with
    | none => rw [h] at hread; cases hread
    | some rd => rw [h] at hread; exact ⟨rd, rfl, hread⟩
  obtain ⟨p1, h1, hlen1, hget1⟩ := distributeLanes_get T rd gen hc T 0 p hrd (by omega) hlen
  obtain ⟨hlen2, hget2⟩ := swapLanes_get T 0 p1
  refine ⟨swapLanes 0 T p1, ?_, hlen2.trans hlen1, ?_⟩
  · simp only [MemPool.distribute, if_neg (Nat.pos_iff_ne_zero.1 hT), hrd, Option.some_bind, h1,
      Option.map_some']
  · intro j hj
    rw [hlen2, hlen1] at hj
    obtain ⟨w, hw, hw0⟩ := hwrite j hj
    unfold MemPool.GetWriteBuffer at hw
    cases hln : p.lanes.get? j with
    | none => rw [hln] at hw; cases hw
    | some ln =>
      rw [hln] at hw
      simp only [Option.map_some', Option.some.injEq] at hw
      subst hw
      refine ⟨{ read := ln.write.AppendSlice (specChunk T gen j),
                write := { ln.read with Len := 0 } }, ?_, ?_, ?_⟩
      · rw [hget2 j, hget1 j, hln]
        simp only [Option.map_some', if_pos (show 0 ≤ j ∧ j < 0 + T by omega)]
      · simpa using Buffer.content_append_slice ln.write [] (specChunk T gen j)
          (Buffer.content_of_len_zero _ hw0)
      · rfl

theorem flatMap_specChunk (T : Nat) (gen : List TokenStateId) (hT : 0 < T) :
    (List.range T).flatMap (specChunk T gen) = gen := by
  obtain ⟨k, rfl⟩ : ∃ k, T = k + 1 := ⟨T - 1, by omega⟩
  rw [List.range_succ, List.flatMap_append, List.flatMap_singleton]
  have h1 : (List.range k).flatMap (specChunk (k + 1) gen)
      = (List.range k).flatMap
          (fun i => (gen.take ((i + 1) * (gen.length / (k + 1)))).drop
            (i * (gen.length / (k + 1)))) :=
    flatMap_range_congr k _ _ fun j hj => by
      unfold specChunk
      rw [if_neg (by omega)]
  rw [h1, flatMap_chunks]
  unfold specChunk
  rw [if_pos (by omega)]
  exact List.take_append_drop _ _

theorem PoolHolds.read {p : MemPool} {cont : Nat → List TokenStateId} (h : PoolHolds p cont)
    (j : Nat) (hj : j < p.lanes.length) :
    (p.GetReadBuffer j).bind Buffer.content = some (cont j) := by
  obtain ⟨ln, h1, h2, _⟩ := h j hj
  simp only [MemPool.GetReadBuffer, h1, Option.map_some', Option.some_bind, h2]

/-- C18: with `T >= 1` lanes, the generation `gen` in the read buffer of lane 0
and every write buffer of logical length 0, `distribute` returns; after it every
lane `i < T - 1` reads the `length / T` symbols of `gen` at the positions from
`i * (length / T)` up to `(i + 1) * (length / T)`, the last lane reads all
symbols from position `(T - 1) * (length / T)` on, and `ReadAll`, the
concatenation of the read buffers in lane order, is `gen`. -/
theorem distribute_partitions {W : Type} (l : LSystem W) (T : Nat) (gen : List TokenStateId)
    (hT : 1 ≤ T) (hlanes : l.MemPool.lanes.length = T)
    (hread : (l.MemPool.GetReadBuffer 0).bind Buffer.content = some gen)
    (hwrite : ∀ i, i < T → (l.MemPool.GetWriteBuffer i).map Buffer.Len = some 0) :
    ∃ l2, l.distribute T = some l2 ∧
      (∀ i, i + 1 < T →
        (l2.MemPool.GetReadBuffer i).bind Buffer.content
          = some ((gen.take ((i + 1) * (gen.length / T))).drop (i * (gen.length / T))) ∧
        ((gen.take ((i + 1) * (gen.length / T))).drop (i * (gen.length / T))).length
          = gen.length / T) ∧
      (l2.MemPool.GetReadBuffer (T - 1)).bind Buffer.content
        = some (gen.drop ((T - 1) * (gen.length / T))) ∧
      l2.MemPool.ReadAll = some gen := by
  obtain ⟨p2, h1, hlen2, hp2⟩ := distribute_holds l.MemPool T gen hT hlanes hread (by
    intro i hi
    have h := hwrite i hi
    cases hw : l.MemPool.GetWriteBuffer i with
    | none => rw [hw] at h; cases h
    | some w =>
      rw [hw] at h
      simp only [Option.map_some', Option.some.injEq] at h
      exact ⟨w, rfl, h⟩)
  refine ⟨{ l with MemPool := p2 }, ?_, ?_, ?_, ?_⟩
  · simp only [LSystem.distribute, h1, Option.map_some']
  · intro i hi
    have hr := hp2.read i (by omega)
    unfold specChunk at hr
    rw [if_neg (by omega)] at hr
    refine ⟨hr, ?_⟩
    have hmul : gen.length / T * T ≤ gen.length := Nat.div_mul_le_self _ _
    generalize gen.length / T = c at hmul ⊢
    have h2 : (i + 1) * c ≤ T * c := Nat.mul_le_mul_right _ (by omega)
    have e : (i + 1) * c = i * c + c := by ring
    have e2 : T * c = c * T := Nat.mul_comm _ _
    rw [List.length_drop, List.length_take, Nat.min_eq_left (by omega)]
    omega
  · have hr := hp2.read (T - 1) (by omega)
    unfold specChunk at hr
    rw [if_pos rfl] at hr
    exact hr
  · show p2.ReadAll = some gen
    rw [hp2.readAll, hlen2, flatMap_specChunk T gen hT]

/-- C18, at a concrete input: seven symbols in lane 0 of three lanes. -/
theorem distribute_partitions_witness :
    ∃ l2, ({ blankSystem with
        MemPool := ⟨[⟨⟨[1, 2, 3, 4, 5, 6, 7], 7⟩, Buffer.empty⟩, ⟨Buffer.empty, Buffer.empty⟩,
          ⟨Buffer.empty, Buffer.empty⟩]⟩ } : LSystem Nat).distribute 3 = some l2 ∧
      (∀ i, i + 1 < 3 →
        (l2.MemPool.GetReadBuffer i).bind Buffer.content
          = some (([1, 2, 3, 4, 5, 6, 7].take ((i + 1) * ([1, 2, 3, 4, 5, 6, 7].length / 3))).drop
              (i * ([1, 2, 3, 4, 5, 6, 7].length / 3))) ∧
        (([1, 2, 3, 4, 5, 6, 7].take ((i + 1) * ([1, 2, 3, 4, 5, 6, 7].length / 3))).drop
              (i * ([1, 2, 3, 4, 5, 6, 7].length / 3))).length
          = [1, 2, 3, 4, 5, 6, 7].length / 3) ∧
      (l2.MemPool.GetReadBuffer (3 - 1)).bind Buffer.content
        = some ([1, 2, 3, 4, 5, 6, 7].drop ((3 - 1) * ([1, 2, 3, 4, 5, 6, 7].length / 3))) ∧
      l2.MemPool.ReadAll = some [1, 2, 3, 4, 5, 6, 7] :=
  distribute_partitions _ 3 [1, 2, 3, 4, 5, 6, 7] (by decide) rfl rfl (by decide)

/-! ## Sequential and primed-parallel iteration -/

theorem MemPool.setRead_get (p : MemPool) (i : Nat) (b : Buffer) (j : Nat) :
    (p.setRead i b).lanes.get? j =
      (p.lanes.get? j).map fun ln => if i = j then { ln with read := b } else ln := by
  simp only [MemPool.setRead, List.get?_eq_getElem?, List.getElem?_modify]
  cases p.lanes[j]? <;> simp

/-- After `Reset` lane 0 reads the one-symbol axiom generation and every other
lane reads nothing. -/
theorem reset_holds {W : Type} (l : LSystem W) (hT : 0 < l.MemPool.lanes.length) :
    ∃ p0, l.Reset = some { l with MemPool := p0 } ∧
      p0.lanes.length = l.MemPool.lanes.length ∧
      PoolHolds p0 (fun j => if j = 0 then [l.TokenBytes.at l.Axiom] else []) := by
  have hget : ∀ j, l.MemPool.Reset.lanes.get? j =
      if j < l.MemPool.lanes.length then some ⟨Buffer.empty, Buffer.empty⟩ else none := by
    intro j
    simp only [MemPool.Reset, List.get?_eq_getElem?, List.getElem?_map]
    by_cases hj : j < l.MemPool.lanes.length
    · rw [if_pos hj, List.getElem?_eq_getElem hj]; rfl
    · rw [if_neg hj, List.getElem?_eq_none (by omega)]; rfl
  refine ⟨l.MemPool.Reset.setRead 0
    { (Buffer.empty.Append (l.TokenBytes.at l.Axiom)) with Len := 1 }, ?_, ?_, ?_⟩
  · simp only [LSystem.Reset, MemPool.GetReadBuffer, hget 0, if_pos hT, Option.map_some']
  · simp [MemPool.setRead, MemPool.Reset]
  · intro j hj
    have hj2 : j < l.MemPool.lanes.length := by
      simpa [MemPool.setRead, MemPool.Reset] using hj
    rw [MemPool.setRead_get, hget j, if_pos hj2]
    by_cases h0 : j = 0
    · subst h0
      exact ⟨_, rfl, by simp [Buffer.content, Buffer.slice, Buffer.Append, Buffer.empty], rfl⟩
    · refine ⟨⟨Buffer.empty, Buffer.empty⟩, ?_, ?_, rfl⟩
      · simp [Ne.symm h0]
      · simp [h0, Buffer.content, Buffer.slice, Buffer.empty]

theorem specPiece_symbol {W : Type} (l : LSystem W)
    (select : ByteProductionRule W → TokenStateId → List TokenStateId)
    (hsym : ∀ r p q, select r p = select r q) (toks : List TokenStateId) (i : Nat) :
    specPiece l select toks i = specPiece l select [toks.getD i 0] 0 := by
  unfold specPiece
  simp only [List.getD_cons_zero]
  split
  · rfl
  · exact hsym _ _ _

theorem flatMap_range_getD {α β : Type} (d : α) (f : α → List β) : ∀ (toks : List α),
    (List.range toks.length).flatMap (fun i => f (toks.getD i d)) = toks.flatMap f
  | [] => rfl
  | t :: rest => by
    have ih := flatMap_range_getD d f rest
    simp only [List.length_cons, List.range_succ_eq_map, List.flatMap_cons, List.flatMap_map,
      List.getD_cons_zero]
    congr 1

theorem specRewrite_symbol {W : Type} (l : LSystem W)
    (select : ByteProductionRule W → TokenStateId → List TokenStateId)
    (hsym : ∀ r p q, select r p = select r q) (toks : List TokenStateId) :
    specRewrite l select toks = toks.flatMap fun t => specPiece l select [t] 0 := by
  unfold specRewrite
  rw [← flatMap_range_getD 0 (fun t => specPiece l select [t] 0) toks]
  exact flatMap_range_congr _ _ _ fun j _ => specPiece_symbol l select hsym toks j

theorem iterate_flatMap {α β : Type} (F : List α → List α) (hF : ∃ f : α → List α, ∀ xs, F xs = xs.flatMap f)
    (m : Nat) : ∀ (L : List β) (g : β → List α),
    F^[m] (L.flatMap g) = L.flatMap fun j => F^[m] (g j) := by
  obtain ⟨f, hf⟩ := hF
  induction m with
  | zero => intro L g; rfl
  | succ m ih =>
    intro L g
    simp only [Function.iterate_succ_apply]
    have : F (L.flatMap g) = L.flatMap fun j => F (g j) := by
      rw [hf, List.flatMap_assoc]
      simp only [hf]
    rw [this, ih]

theorem axiom_holds_lt {W : Type} (l : LSystem W) (hax : l.TokenBytes.at l.Axiom < tableSize)
    (j : Nat) : ∀ t ∈ (if j = 0 then [l.TokenBytes.at l.Axiom] else []), t < tableSize := by
  intro t ht
  split at ht
  · simp only [List.mem_singleton] at ht
    rw [ht]; exact hax
  · cases ht

theorem specChunk_subset (T : Nat) (gen : List TokenStateId) (j : Nat) :
    ∀ t ∈ specChunk T gen j, t ∈ gen := by
  intro t ht
  unfold specChunk at ht
  split at ht
  · exact List.mem_of_mem_drop ht
  · exact List.mem_of_mem_take (List.mem_of_mem_drop ht)

theorem specChunk_one (gen : List TokenStateId) : specChunk 1 gen 0 = gen := by
  simp [specChunk]

/-- C17: with a selection that is a function `select` of rule and predecessor
and hands rule and random state back unchanged, successors that are table ids,
an axiom id in the table and `threadCount >= 1` lanes, where either there is one
lane or `select` does not depend on the predecessor, `IterateUntil(n)` returns
for every `n`, sequential below 15 and primed and distributed from 15 on, the
`n`-fold application of the single-step rewrite of the contract to the
one-symbol axiom generation. -/
theorem iterateUntil_modes_agree {W σ : Type} (choose : Chooser W σ)
    (select : ByteProductionRule W → TokenStateId → List TokenStateId)
    (hpure : ∀ r p g, choose r p g = (select r p, r, g))
    (l : LSystem W) (g : σ) (threadCount n : Nat)
    (hT : 1 ≤ threadCount) (hlanes : l.MemPool.lanes.length = threadCount)
    (hmode : threadCount = 1 ∨ ∀ r p q, select r p = select r q)
    (hax : l.TokenBytes.at l.Axiom < tableSize)
    (hsel : ∀ s, s < tableSize → ∀ p, ∀ t ∈ select (l.ByteRules s) p, t < tableSize) :
    ∃ l2, l.IterateUntil choose threadCount n g
      = some (l2, g, (specRewrite l select)^[n] [l.TokenBytes.at l.Axiom]) := by
  obtain ⟨p0, hreset, hlen0, hp0⟩ := reset_holds l (by omega)
  have hlen0T : p0.lanes.length = threadCount := hlen0.trans hlanes
  have hids0 := axiom_holds_lt l hax
  by_cases hn : n ≥ 15
  · -- primed and distributed
    obtain ⟨p1, h1, hlen1, hp1⟩ := stepLaneTimes_pure choose select hpure l hsel g 0 10 p0 _ hp0
      (by omega) (hids0 0)
    simp only [if_true] at hp1
    have hG : ∀ t ∈ (specRewrite l select)^[10] [l.TokenBytes.at l.Axiom], t < tableSize :=
      specRewrite_iterate_lt l select hsel 10 _ (by simpa using hids0 0)
    have hlen1T : p1.lanes.length = threadCount := hlen1.trans hlen0T
    obtain ⟨p2, h2, hlen2, hp2⟩ := distribute_holds p1 threadCount
      ((specRewrite l select)^[10] [l.TokenBytes.at l.Axiom]) hT hlen1T
      (by simpa using hp1.read 0 (by omega))
      (by
        intro i hi
        obtain ⟨ln, hg, _, hw⟩ := hp1 i (by omega)
        exact ⟨ln.write, by simp only [MemPool.GetWriteBuffer, hg, Option.map_some'], hw⟩)
    obtain ⟨p3, h3, hlen3, hp3⟩ := applyRulesLanes_pure choose select hpure l hsel g (n - 10)
      threadCount 0 p2 _ hp2 (by omega)
      (fun j t ht => hG t (specChunk_subset _ _ j t ht))
    refine ⟨{ l with MemPool := p3 }, ?_⟩
    have hall : p3.ReadAll = some ((specRewrite l select)^[n] [l.TokenBytes.at l.Axiom]) := by
      rw [hp3.readAll, hlen3, hlen2]
      have hnm : n = (n - 10) + 10 := by omega
      conv_rhs => rw [hnm, Function.iterate_add_apply]
      congr 1
      rw [flatMap_range_congr threadCount _
        (fun j => (specRewrite l select)^[n - 10]
          (specChunk threadCount ((specRewrite l select)^[10] [l.TokenBytes.at l.Axiom]) j))
        (fun j hj => by rw [if_pos (by omega)])]
      rcases hmode with h1T | hsym
      · subst h1T
        rw [show List.range 1 = [0] from rfl, List.flatMap_singleton, specChunk_one]
      · rw [← iterate_flatMap (specRewrite l select)
          ⟨_, specRewrite_symbol l select hsym⟩, flatMap_specChunk _ _ hT]
    simp only [LSystem.IterateUntil, hreset, Option.some_bind, if_pos hn, LSystem.prime, h1,
      LSystem.distribute, h2, Option.map_some', LSystem.applyRules, h3, hall]
  · -- sequential
    obtain ⟨p1, h1, hlen1, hp1⟩ := stepLaneTimes_pure choose select hpure l hsel g 0 n p0 _ hp0
      (by omega) (hids0 0)
    simp only [if_true] at hp1
    refine ⟨{ l with MemPool := p1 }, ?_⟩
    have hall : p1.ReadAll = some ((specRewrite l select)^[n] [l.TokenBytes.at l.Axiom]) := by
      rw [hp1.readAll, flatMap_range_first _ _ (by omega) (fun j hj _ => by
        rw [Function.update_noteq (by omega), if_neg (by omega)])]
      simp
    simp only [LSystem.IterateUntil, hreset, Option.some_bind, if_neg hn, h1, hall,
      Option.map_some']

theorem firstAlternative_pure (r : ByteProductionRule Nat) (p : TokenStateId) (g : Unit) :
    firstAlternative r p g = (headSelect r p, r, g) := by
  obtain ⟨w⟩ := r
  cases w with
  | none => rfl
  | some ws => cases ws <;> rfl

set_option maxRecDepth 1000000 in
theorem doubling_rules_lt : ∀ s, s < 255 →
    ∀ t ∈ headTokens ((doublingSystem 3).ByteRules s), t < 255 := by
  decide

set_option maxRecDepth 1000000 in
/-- C17, at a concrete input: the doubling grammar with three lanes, sixteen
steps, selection of the first alternative. -/
theorem iterateUntil_modes_agree_witness :
    ∃ l2, (doublingSystem 3).IterateUntil firstAlternative 3 16 ()
      = some (l2, (), (specRewrite (doublingSystem 3) headSelect)^[16]
          [(doublingSystem 3).TokenBytes.at (doublingSystem 3).Axiom]) :=
  iterateUntil_modes_agree firstAlternative headSelect firstAlternative_pure (doublingSystem 3) ()
    3 16 (by decide) (by decide) (Or.inr fun _ _ _ => rfl) (by decide)
    (fun s hs _ => doubling_rules_lt s hs)

end Lsystem
